import Mathlib

/-!
# NovaLink / SCALPEL packet layer: embedding and verification

Shallow embedding of the SCALPEL framing layer of NovaLink
(`src/SCALPEL/Checksum.cpp`, `src/SCALPEL/COBS.cpp`, `src/SCALPEL/Packet.cpp`), of
the AVC messages (`src/AVC/Command.hpp`, `src/AVC/Command.cpp`,
`src/AVC/Telemetry.hpp`, `src/AVC/Telemetry.cpp`), of the protocol engine
(`src/AVC/AVCProtocol.cpp`) and of the management layer
(`src/Management/CommandManager.cpp`, `src/Management/TelemetryBuffer.cpp`).

Conventions of the embedding.

* A `uint8_t` is a `Nat`; every place where the C++ code can overflow an 8-bit
  value carries an explicit `% 256`.
* A `std::vector<uint8_t>` is a `List Nat`.
* A C++ function that can throw returns `Except Exn _`; every `throw` site of the
  source has its own constructor of `Exn`.
* A loop walking an index `i` over a vector is a recursion over the not yet
  consumed suffix of the list.
-/

namespace SCALPEL

/-- Exceptions thrown by the SCALPEL layer, one constructor per `throw` site. -/
inductive Exn where
  /-- `runtime_error("COBS encoding failed to eliminate start byte from payload.")` -/
  | startByteNotEliminated
  /-- `runtime_error("Invalid COBS encoding: code byte is zero.")` -/
  | zeroCode
  /-- `runtime_error("Invalid COBS encoding: not enough bytes.")` -/
  | notEnoughBytes
  /-- `runtime_error("COBS decode: unexpected start byte.")` -/
  | unexpectedStartByte
  /-- `runtime_error("COBS decode: index mismatch.")` -/
  | indexMismatch
  /-- `invalid_argument("Payload length exceeds maximum allowed size.")` -/
  | payloadTooLong
  /-- `invalid_argument("Data size too small to be a valid packet.")` -/
  | dataTooSmall
  /-- `invalid_argument("Invalid start byte.")` -/
  | invalidStartByte
  /-- `runtime_error("Invalid payload length checksum.")` -/
  | invalidLengthChecksum
  /-- `invalid_argument("Invalid payload boundaries.")` -/
  | invalidPayloadBoundaries
  /-- `runtime_error("Invalid COBS checksum.")` -/
  | invalidCobsChecksum
  /-- `runtime_error("Payload length mismatch after decoding.")` -/
  | lengthMismatch
  /-- `runtime_error("Invalid payload checksum.")` -/
  | invalidPayloadChecksum
  /-- Not an exception of the source: the loop budget of `COBS.decodeLoop` ran
  out.  `COBS.decode` never returns it (`COBS.decode_ne_outOfFuel`). -/
  | outOfFuel
  deriving DecidableEq, Repr

deriving instance DecidableEq for Except

/-- `Packet::START_BYTE` (Packet.hpp). -/
def START_BYTE : Nat := 170

/-- `Packet::MAX_PAYLOAD_LENGTH` (Packet.hpp). -/
def MAX_PAYLOAD_LENGTH : Nat := 28

/-! ## Checksum.cpp -/

namespace Checksum

/-- One round of the inner bit loop of `calculateCRC8`:
`if (crc & 0x80) crc = (crc << 1) ^ polynomial; else crc <<= 1;` on a `uint8_t`. -/
def crcBitStep (crc : Nat) : Nat :=
  if crc &&& 0x80 ≠ 0 then ((crc <<< 1) ^^^ 0x07) % 256 else (crc <<< 1) % 256

/-- The body of the outer loop of `calculateCRC8`: `crc ^= data[i]` followed by
the eight rounds of the bit loop. -/
def crcByteStep (crc byte : Nat) : Nat :=
  (List.range 8).foldl (fun c _ => crcBitStep c) ((crc ^^^ byte) % 256)

/-- `Checksum::calculateCRC8(data, length)`. -/
def calculateCRC8 (data : List Nat) : Nat :=
  data.foldl crcByteStep 0x00

/-- `Checksum::validateCRC8(checksum, data, length)`. -/
def validateCRC8 (checksum : Nat) (data : List Nat) : Bool :=
  calculateCRC8 data == checksum

/-- The bit-counting loop shared by both overloads of `calculate2BitChecksum`:
`for (bit = 0; bit < 8; ++bit) if (byte & (1 << bit)) ++count;` with an 8-bit
counter starting from `count`. -/
def countBits (count byte : Nat) : Nat :=
  (List.range 8).foldl
    (fun c bit => if byte &&& (1 <<< bit) ≠ 0 then (c + 1) % 256 else c) count

/-- `Checksum::calculate2BitChecksum(uint8_t byte)`. -/
def calculate2BitChecksum (byte : Nat) : Nat :=
  countBits 0 byte % 4

/-- `Checksum::validate2BitChecksum(expected, byte)`. -/
def validate2BitChecksum (expected byte : Nat) : Bool :=
  calculate2BitChecksum byte == (expected &&& 0x03)

/-- `Checksum::calculate2BitChecksum(const uint8_t* data, size_t length)`. -/
def calculate2BitChecksumSpan (data : List Nat) : Nat :=
  data.foldl countBits 0 % 4

end Checksum

/-! ## COBS.cpp -/

namespace COBS

/-- `COBS::COBSResult`. -/
structure COBSResult where
  encodedPayload : List Nat
  index : Nat
  deriving DecidableEq, Repr

/-- The local variables of `COBS::encode` that live across loop iterations. -/
structure EncodeState where
  encoded : List Nat
  code_ptr : Nat
  code : Nat
  index : Nat
  deriving DecidableEq, Repr

/-- The state of `COBS::encode` on entry to its `for` loop. -/
def encodeInit : EncodeState :=
  { encoded := [0x00], code_ptr := 0, code := 1, index := 0 }

/-- One iteration of the `for` loop of `COBS::encode` on the byte `b = input[i]`. -/
def encodeStep (st : EncodeState) (b : Nat) : EncodeState :=
  if b = START_BYTE then
    let encoded := (st.encoded.set st.code_ptr st.code) ++ [0x00]
    { encoded := encoded, code_ptr := encoded.length - 1, code := 1,
      index := (st.index + 1) % 256 }
  else
    let encoded := st.encoded ++ [b]
    let code := (st.code + 1) % 256
    if code = 0xFF then
      let encoded := (encoded.set st.code_ptr code) ++ [0x00]
      { encoded := encoded, code_ptr := encoded.length - 1, code := 1, index := st.index }
    else
      { encoded := encoded, code_ptr := st.code_ptr, code := code, index := st.index }

/-- `COBS::encode(input)`: the loop, the final `encoded[code_ptr] = code`, and
the verification pass that throws when a byte of the result is `START_BYTE`. -/
def encode (input : List Nat) : Except Exn COBSResult :=
  let st := input.foldl encodeStep encodeInit
  let encoded := st.encoded.set st.code_ptr st.code
  if encoded.any (fun byte => byte == START_BYTE) then
    .error .startByteNotEliminated
  else
    .ok { encodedPayload := encoded, index := st.index }

/-- The inner `for (j = 1; j < code; j++)` loop of `COBS::decode`, run for `n`
iterations (`n = code - 1`) on the unread suffix `rest` of `encoded`: returns the
new unread suffix and the extended `decoded`. -/
def copyRun : Nat → List Nat → List Nat → Except Exn (List Nat × List Nat)
  | 0, rest, decoded => .ok (rest, decoded)
  | _ + 1, [], _ => .error .notEnoughBytes
  | n + 1, b :: rest, decoded => copyRun n rest (decoded ++ [b])

/-- The `while (i < encoded.size())` loop of `COBS::decode` followed by the final
`index != 0` check.  `rest` is the suffix of `encoded` from position `i` on.
Every iteration consumes at least the code byte, so `fuel = encoded.size()`
iterations always suffice. -/
def decodeLoop : Nat → List Nat → Nat → List Nat → Except Exn (List Nat)
  | _, [], index, decoded =>
    if index ≠ 0 then .error .indexMismatch else .ok decoded
  | 0, _ :: _, _, _ => .error .outOfFuel
  | fuel + 1, code :: rest, index, decoded =>
    if code = 0 then .error .zeroCode
    else
      match copyRun (code - 1) rest decoded with
      | .error e => .error e
      | .ok (rest', decoded') =>
        if code < 0xFF ∧ rest' ≠ [] then
          if index = 0 then .error .unexpectedStartByte
          else decodeLoop fuel rest' (index - 1) (decoded' ++ [START_BYTE])
        else decodeLoop fuel rest' index decoded'

/-- `COBS::decode(encoded, index)`. -/
def decode (encoded : List Nat) (index : Nat) : Except Exn (List Nat) :=
  decodeLoop encoded.length encoded index []

end COBS

/-! ## Packet.cpp -/

/-- The data members of `SCALPEL::Packet`. -/
structure Packet where
  payloadLength : Nat
  payloadLengthChecksum : Nat
  cobsIndex : Nat
  cobsChecksum : Nat
  payload : List Nat
  checksum : Nat
  deriving DecidableEq, Repr

namespace Packet

/-- `Packet::Packet()`. -/
def default : Packet :=
  { payloadLength := 0, payloadLengthChecksum := 0, cobsIndex := 0, cobsChecksum := 0,
    payload := [], checksum := 0 }

/-- `Packet::Packet(const std::vector<uint8_t>& payloadData)` followed by
`calculateChecksums()`.  The source leaves `cobsIndex`, `cobsChecksum` and
`checksum` uninitialised in this constructor; no member function reads them
before `disassemble` overwrites them, and they are `0` here. -/
def fromPayload (payloadData : List Nat) : Except Exn Packet :=
  if payloadData.length > MAX_PAYLOAD_LENGTH then .error .payloadTooLong
  else
    let payloadLength := payloadData.length % 256
    .ok { payloadLength := payloadLength,
          payloadLengthChecksum := Checksum.calculate2BitChecksum payloadLength,
          cobsIndex := 0, cobsChecksum := 0,
          payload := payloadData, checksum := 0 }

/-- `Packet::assemble()`. -/
def assemble (p : Packet) : Except Exn (List Nat) :=
  let packet := [START_BYTE]
  let lengthByte := (((p.payloadLength &&& 0x3F) <<< 2) ||| (p.payloadLengthChecksum &&& 0x03)) % 256
  let packet := packet ++ [lengthByte]
  match COBS.encode p.payload with
  | .error e => .error e
  | .ok result =>
    let encodedPayload := result.encodedPayload
    if encodedPayload.any (fun byte => byte == START_BYTE) then
      .error .startByteNotEliminated
    else
      let index := result.index
      let cobsChk := Checksum.calculate2BitChecksumSpan encodedPayload &&& 0x03
      let cobsByte := (((index &&& 0x3F) <<< 2) ||| (cobsChk &&& 0x03)) % 256
      let packet := packet ++ [cobsByte]
      let packet := packet ++ encodedPayload
      let payloadChk := Checksum.calculateCRC8 p.payload
      .ok (packet ++ [payloadChk])

/-- `Packet::disassemble(data)`. -/
def disassemble (data : List Nat) : Except Exn Packet :=
  if data.length < 4 then .error .dataTooSmall
  else if data.getD 0 0 ≠ START_BYTE then .error .invalidStartByte
  else
    let lengthByte := data.getD 1 0
    let payloadLength := (lengthByte >>> 2) &&& 0x3F
    let payloadLengthChecksum := lengthByte &&& 0x03
    let expectedLengthChecksum := Checksum.calculate2BitChecksum payloadLength
    if payloadLengthChecksum ≠ expectedLengthChecksum then .error .invalidLengthChecksum
    else
      let cobsByte := data.getD 2 0
      let cobsIndex := (cobsByte >>> 2) &&& 0x3F
      let cobsChecksum := cobsByte &&& 0x03
      let payloadStart := 3
      let payloadEnd := data.length - 1
      if payloadEnd < payloadStart then .error .invalidPayloadBoundaries
      else
        let encodedPayload := (data.take payloadEnd).drop payloadStart
        let calculatedCobsChecksum := Checksum.calculate2BitChecksumSpan encodedPayload &&& 0x03
        if cobsChecksum ≠ calculatedCobsChecksum then .error .invalidCobsChecksum
        else
          match COBS.decode encodedPayload cobsIndex with
          | .error e => .error e
          | .ok payload =>
            if payload.length ≠ payloadLength then .error .lengthMismatch
            else
              let checksum := data.getD (data.length - 1) 0
              let calculatedPayloadChecksum := Checksum.calculateCRC8 payload
              if checksum ≠ calculatedPayloadChecksum then .error .invalidPayloadChecksum
              else
                .ok { payloadLength := payloadLength,
                      payloadLengthChecksum := payloadLengthChecksum,
                      cobsIndex := cobsIndex, cobsChecksum := cobsChecksum,
                      payload := payload, checksum := checksum }

/-- `Packet::getPayloadLength()`. -/
def getPayloadLength (p : Packet) : Nat := p.payloadLength

/-- `Packet::getPayload()`. -/
def getPayload (p : Packet) : List Nat := p.payload

end Packet

/-! ## Auxiliary notions used in the proofs -/

namespace COBS

/-- `Closed done D k`: `done` is a sequence of complete COBS blocks, each a code
byte followed by its run, as the encoder leaves them behind its current
placeholder.  `D` is the input they stand for and `k` the number of start bytes
among them: a block with code `run.length + 1 < 0xFF` stands for `run` followed
by a start byte, a block with code `0xFF` for a full run of 254 bytes. -/
inductive Closed : List Nat → List Nat → Nat → Prop where
  | nil : Closed [] [] 0
  | start (done D : List Nat) (k : Nat) (run : List Nat) :
      Closed done D k → run.length < 254 → START_BYTE ∉ run →
      Closed (done ++ (run.length + 1) :: run) (D ++ run ++ [START_BYTE]) (k + 1)
  | full (done D : List Nat) (k : Nat) (run : List Nat) :
      Closed done D k → run.length = 254 → START_BYTE ∉ run →
      Closed (done ++ 0xFF :: run) (D ++ run) k

/-- The loop invariant of `COBS::encode` after the prefix `P` of the input:
`encoded` is a sequence of closed blocks standing for the input up to the
current run, then the placeholder at `code_ptr`, then the current run. -/
def EncInv (P : List Nat) (st : EncodeState) : Prop :=
  ∃ done D run, Closed done D (P.count START_BYTE) ∧
    st.encoded = done ++ 0 :: run ∧ st.code_ptr = done.length ∧
    st.code = run.length + 1 ∧ run.length < 254 ∧ P = D ++ run ∧
    START_BYTE ∉ run ∧ st.index = P.count START_BYTE % 256

end COBS
namespace Checksum

/-- The number of 1-bits among the low eight bits of `byte`: the number of
iterations of the bit loop of `calculate2BitChecksum` that increment the counter. -/
def bitCount8 (byte : Nat) : Nat :=
  ((List.range 8).map (fun bit => if byte &&& (1 <<< bit) ≠ 0 then 1 else 0)).sum

end Checksum

/-- The frame with bit number `bit` of the byte at offset `pos` inverted. -/
def flipBit (frame : List Nat) (pos bit : Nat) : List Nat :=
  frame.set pos (frame.getD pos 0 ^^^ (1 <<< bit))

/-- The frame that `Packet(P).assemble()` puts on the wire: the constructor
followed by `assemble`. -/
def frameOf (P : List Nat) : Except Exn (List Nat) :=
  (Packet.fromPayload P).bind Packet.assemble

namespace COBS

/-- The decode contract of the specification, structural part.
`Parses Q P n`: the stuffed sequence `Q` is a sequence of complete runs, each a
non-zero code byte followed by `code - 1` data bytes; unstuffing it gives `P`
and emits `n` implicit start bytes.  A run with a code below `0xFF` that is not
the last one is followed by an implicit start byte; the last run is not. -/
inductive Parses : List Nat → List Nat → Nat → Prop where
  | nil : Parses [] [] 0
  | last (run : List Nat) : Parses ((run.length + 1) :: run) run 0
  | start (run rest P : List Nat) (n : Nat) :
      run.length + 1 < 0xFF → rest ≠ [] → Parses rest P n →
      Parses ((run.length + 1) :: (run ++ rest)) (run ++ START_BYTE :: P) (n + 1)
  | full (run rest P : List Nat) (n : Nat) :
      0xFF ≤ run.length + 1 → rest ≠ [] → Parses rest P n →
      Parses ((run.length + 1) :: (run ++ rest)) (run ++ P) n

/-- The decode contract of the specification, error part.
`Malformed Q`: after zero or more complete runs, `Q` has a code byte that is 0
(`ZeroCode`) or a run that extends past the end of `Q` (`Truncated`). -/
inductive Malformed : List Nat → Prop where
  | zeroCode (rest : List Nat) : Malformed (0 :: rest)
  | truncated (code : Nat) (rest : List Nat) : rest.length + 1 < code → Malformed (code :: rest)
  | later (run rest : List Nat) : Malformed rest → Malformed ((run.length + 1) :: (run ++ rest))

end COBS
namespace Checksum

/-- The number of 1-bits of `n`, as the specification's `popcount`: the sum of
the binary digits of `n`. -/
def popcount (n : Nat) : Nat := (Nat.digits 2 n).sum

open Polynomial in
/-- The CRC-8 generator polynomial `x^8 + x^2 + x + 1` over GF(2) (`0x07` with
the implicit leading term). -/
noncomputable def generator : Polynomial (ZMod 2) := X ^ 8 + X ^ 2 + X + 1

open Polynomial in
/-- The polynomial over GF(2) of a byte: the coefficient of `x^i` is bit `i` of
the byte, for `i < 8` (no reflection: the most significant bit is the leading
coefficient). -/
noncomputable def bytePoly (byte : Nat) : Polynomial (ZMod 2) :=
  ∑ i in Finset.range 8, C ((byte / 2 ^ i : Nat) : ZMod 2) * X ^ i

open Polynomial in
/-- The polynomial `d(x)` over GF(2) of a byte sequence, the first byte holding
the highest coefficients. -/
noncomputable def messagePoly (data : List Nat) : Polynomial (ZMod 2) :=
  data.foldl (fun m byte => m * X ^ 8 + bytePoly byte) 0

end Checksum

/-- A frame that no `Packet` constructor call can produce: the frame layout
around the payload of 29 bytes `0x01`, with a length field of 29. -/
def oversizedFrame : List Nat :=
  [0xAA, 0x74, 0x01, 0x1E] ++ List.replicate 29 0x01 ++ [0x23]

end SCALPEL

/-! ## AVC/Command.hpp, AVC/Command.cpp, AVC/Telemetry.hpp (headers) -/

namespace RocketLink
namespace AVC

/-- Exceptions thrown by `Command`, one constructor per `throw` site. -/
inductive Exn where
  /-- `length_error("Payload size exceeds maximum allowed length of 255 bytes.")` -/
  | payloadTooLarge
  /-- `invalid_argument("Data too short to decode Command.")` -/
  | dataTooShort
  /-- `invalid_argument("Invalid Payload Descriptor for Command.")` -/
  | invalidDescriptor
  /-- `invalid_argument("Data does not contain full payload.")` -/
  | incompletePayload
  deriving DecidableEq, Repr

/-- `CommandNumber::INVALID`. -/
def CommandNumber.INVALID : Nat := 0

/-- `CommandNumber::FIN_TEST`. -/
def CommandNumber.FIN_TEST : Nat := 101

/-- `PayloadDescriptor::COMMAND`. -/
def PayloadDescriptor.COMMAND : Nat := 0x01

/-- `PayloadDescriptor::ACKNOWLEDGMENT`. -/
def PayloadDescriptor.ACKNOWLEDGMENT : Nat := 0x02

/-- `struct CommandHeader`: two 4-bit bit-fields. -/
structure CommandHeader where
  senderID : Nat
  receiverID : Nat
  deriving DecidableEq, Repr

namespace CommandHeader

/-- `CommandHeader::pack()`: `(receiverID << 4) | (senderID & 0x0F)` returned as
a `uint8_t`. -/
def pack (h : CommandHeader) : Nat :=
  ((h.receiverID <<< 4) ||| (h.senderID &&& 0x0F)) % 256

/-- `CommandHeader::unpack(byte)`: both bit-fields are overwritten, so the
header after the call is a function of `byte` alone. -/
def unpack (byte : Nat) : CommandHeader :=
  { senderID := byte &&& 0x0F, receiverID := (byte >>> 4) &&& 0x0F }

end CommandHeader

/-- `struct TelemetryHeader`: two 4-bit bit-fields. -/
structure TelemetryHeader where
  senderID : Nat
  receiverID : Nat
  deriving DecidableEq, Repr

namespace TelemetryHeader

/-- `TelemetryHeader::pack()`. -/
def pack (h : TelemetryHeader) : Nat :=
  ((h.receiverID <<< 4) ||| (h.senderID &&& 0x0F)) % 256

/-- `TelemetryHeader::unpack(byte)`. -/
def unpack (byte : Nat) : TelemetryHeader :=
  { senderID := byte &&& 0x0F, receiverID := (byte >>> 4) &&& 0x0F }

end TelemetryHeader

/-- The data members of `class Command`. -/
structure Command where
  header : CommandHeader
  commandNumber : Nat
  payload : List Nat
  priority : Int
  deriving DecidableEq, Repr

namespace Command

/-- `Command::Command()`. -/
def default : Command :=
  { header := { senderID := 0, receiverID := 0 }, commandNumber := CommandNumber.INVALID,
    payload := [], priority := 0 }

/-- `Command::Command(senderID, receiverID, cmdNumber, payloadData)`: the two
`uint8_t` ids are stored into 4-bit bit-fields. -/
def new (senderID receiverID cmdNumber : Nat) (payloadData : List Nat) : Command :=
  { header := { senderID := senderID % 16, receiverID := receiverID % 16 },
    commandNumber := cmdNumber, payload := payloadData, priority := 0 }

/-- `Command::encode()`. -/
def encode (c : Command) : Except Exn (List Nat) :=
  let encoded := [c.header.pack]
  let encoded := encoded ++ [PayloadDescriptor.COMMAND]
  let encoded := encoded ++ [c.commandNumber]
  if c.payload.length > 255 then .error .payloadTooLarge
  else
    let encoded := encoded ++ [c.payload.length % 256]
    .ok (encoded ++ c.payload)

/-- `Command::decode(data)`. -/
def decode (data : List Nat) : Except Exn Command :=
  if data.length < 4 then .error .dataTooShort
  else
    let hdr := CommandHeader.unpack (data.getD 0 0)
    let descriptor := data.getD 1 0
    if descriptor ≠ PayloadDescriptor.COMMAND then .error .invalidDescriptor
    else
      let cmdNumber := data.getD 2 0
      let payloadLength := data.getD 3 0
      if data.length < 4 + payloadLength then .error .incompletePayload
      else
        let payloadData := (data.take (4 + payloadLength)).drop 4
        .ok (new hdr.senderID hdr.receiverID cmdNumber payloadData)

/-- `Command::getSenderID()`. -/
def getSenderID (c : Command) : Nat := c.header.senderID

/-- `Command::getReceiverID()`. -/
def getReceiverID (c : Command) : Nat := c.header.receiverID

/-- `Command::getCommandNumber()`. -/
def getCommandNumber (c : Command) : Nat := c.commandNumber

/-- `Command::getPayload()`. -/
def getPayload (c : Command) : List Nat := c.payload

/-- `Command::getPriority()`. -/
def getPriority (c : Command) : Int := c.priority

/-- `Command::setSenderID(senderID)`. -/
def setSenderID (c : Command) (senderID : Nat) : Command :=
  { c with header := { c.header with senderID := senderID &&& 0x0F } }

/-- `Command::setReceiverID(receiverID)`. -/
def setReceiverID (c : Command) (receiverID : Nat) : Command :=
  { c with header := { c.header with receiverID := receiverID &&& 0x0F } }

/-- `Command::setCommandNumber(cmdNumber)`. -/
def setCommandNumber (c : Command) (cmdNumber : Nat) : Command :=
  { c with commandNumber := cmdNumber }

/-- `Command::setPayload(payloadData)`. -/
def setPayload (c : Command) (payloadData : List Nat) : Except Exn Command :=
  if payloadData.length > 255 then .error .payloadTooLarge
  else .ok { c with payload := payloadData }

/-- `Command::isValid()`. -/
def isValid (c : Command) : Bool := c.commandNumber != CommandNumber.INVALID

/-- The `Command` objects that the public interface of the class can produce:
the two constructors (`decode` returns the result of the second one) followed by
any number of setter calls. -/
inductive Constructed : Command → Prop where
  | default : Constructed Command.default
  | new (senderID receiverID cmdNumber : Nat) (payloadData : List Nat) :
      Constructed (Command.new senderID receiverID cmdNumber payloadData)
  | setSenderID (c : Command) (senderID : Nat) :
      Constructed c → Constructed (c.setSenderID senderID)
  | setReceiverID (c : Command) (receiverID : Nat) :
      Constructed c → Constructed (c.setReceiverID receiverID)
  | setCommandNumber (c : Command) (cmdNumber : Nat) :
      Constructed c → Constructed (c.setCommandNumber cmdNumber)
  | setPayload (c c' : Command) (payloadData : List Nat) :
      Constructed c → c.setPayload payloadData = .ok c' → Constructed c'

end Command

end AVC
end RocketLink

namespace SCALPEL

end SCALPEL

/-! ## AVC/Telemetry.hpp, AVC/Telemetry.cpp -/

namespace RocketLink
namespace AVC

/-- `TelemetryDescriptor::TELEMETRY_A`. -/
def TelemetryDescriptor.TELEMETRY_A : Nat := 0x10

/-- `TelemetryDescriptor::TELEMETRY_B`. -/
def TelemetryDescriptor.TELEMETRY_B : Nat := 0x11

/-- The exception thrown by `Telemetry::decode`:
`invalid_argument("Data too short to decode Telemetry.")`. -/
inductive TelemetryExn where
  | dataTooShort
  deriving DecidableEq, Repr

/-- The data members of `class Telemetry`.  The `uint16_t` members are `Nat`,
the `int16_t` members are `Int` (their value, not their bit pattern), and the
array `memoryLog[3]` is the triple of its entries. -/
structure Telemetry where
  header : TelemetryHeader
  descriptor : Nat
  voltage1 : Nat
  voltage2 : Nat
  posX : Int
  posY : Int
  posZ : Int
  velX : Int
  velY : Int
  velZ : Int
  accX : Int
  accY : Int
  accZ : Int
  memoryLog : Nat × Nat × Nat
  statusFlags : Nat
  deriving DecidableEq, Repr

namespace Telemetry

/-- `Telemetry::Telemetry()`. -/
def default : Telemetry :=
  { header := { senderID := 0, receiverID := 0 },
    descriptor := TelemetryDescriptor.TELEMETRY_A, voltage1 := 0, voltage2 := 0,
    posX := 0, posY := 0, posZ := 0, velX := 0, velY := 0, velZ := 0,
    accX := 0, accY := 0, accZ := 0, memoryLog := (0, 0, 0), statusFlags := 0 }

/-- `Telemetry::Telemetry(senderID, receiverID, descriptorType, v1, ..., status)`:
the two `uint8_t` ids are stored into 4-bit bit-fields, the other arguments
already have the type of their member. -/
def new (senderID receiverID descriptorType v1 v2 : Nat) (px py pz vx vy vz ax ay az : Int)
    (memLog : Nat × Nat × Nat) (status : Nat) : Telemetry :=
  { header := { senderID := senderID % 16, receiverID := receiverID % 16 },
    descriptor := descriptorType, voltage1 := v1, voltage2 := v2,
    posX := px, posY := py, posZ := pz, velX := vx, velY := vy, velZ := vz,
    accX := ax, accY := ay, accZ := az, memoryLog := memLog, statusFlags := status }

/-- `static_cast<uint8_t>((v >> 8) & 0xFF)` for a `uint16_t` `v`. -/
def highByte (v : Nat) : Nat := ((v >>> 8) &&& 0xFF) % 256

/-- `static_cast<uint8_t>(v & 0xFF)` for a `uint16_t` `v`. -/
def lowByte (v : Nat) : Nat := (v &&& 0xFF) % 256

/-- `static_cast<uint8_t>((v >> 8) & 0xFF)` for an `int16_t` `v`, promoted to
`int`: the shift is arithmetic, and `& 0xFF` on a two's complement `int` is the
remainder modulo 256. -/
def highByteSigned (v : Int) : Nat := ((v >>> (8 : Nat)) % 256).toNat

/-- `static_cast<uint8_t>(v & 0xFF)` for an `int16_t` `v`. -/
def lowByteSigned (v : Int) : Nat := (v % 256).toNat

/-- `Telemetry::encode()`. -/
def encode (t : Telemetry) : List Nat :=
  let encoded := [t.header.pack]
  let encoded := encoded ++ [t.descriptor]
  let encoded := encoded ++ [highByte t.voltage1, lowByte t.voltage1]
  let encoded := encoded ++ [highByte t.voltage2, lowByte t.voltage2]
  let encoded := encoded ++ [highByteSigned t.posX, lowByteSigned t.posX]
  let encoded := encoded ++ [highByteSigned t.posY, lowByteSigned t.posY]
  let encoded := encoded ++ [highByteSigned t.posZ, lowByteSigned t.posZ]
  let encoded := encoded ++ [highByteSigned t.velX, lowByteSigned t.velX]
  let encoded := encoded ++ [highByteSigned t.velY, lowByteSigned t.velY]
  let encoded := encoded ++ [highByteSigned t.velZ, lowByteSigned t.velZ]
  let encoded := encoded ++ [highByteSigned t.accX, lowByteSigned t.accX]
  let encoded := encoded ++ [highByteSigned t.accY, lowByteSigned t.accY]
  let encoded := encoded ++ [highByteSigned t.accZ, lowByteSigned t.accZ]
  let encoded := encoded ++ [t.memoryLog.1, t.memoryLog.2.1, t.memoryLog.2.2]
  encoded ++ [t.statusFlags]

/-- `(static_cast<uint16_t>(hi) << 8) | lo` stored into a `uint16_t`. -/
def word (hi lo : Nat) : Nat := ((hi <<< 8) ||| lo) % 65536

/-- `static_cast<int16_t>(w)` for a 16-bit value `w`. -/
def toInt16 (w : Nat) : Int :=
  if w % 65536 < 32768 then (w % 65536 : Nat) else ((w % 65536 : Nat) : Int) - 65536

/-- `Telemetry::decode(data)`. -/
def decode (data : List Nat) : Except TelemetryExn Telemetry :=
  let expectedSize := 1 + 1 + 4 + 6 + 6 + 6 + 3 + 1
  if data.length < expectedSize then .error .dataTooShort
  else
    let hdr := TelemetryHeader.unpack (data.getD 0 0)
    let descriptorType := data.getD 1 0
    let v1 := word (data.getD 2 0) (data.getD 3 0)
    let v2 := word (data.getD 4 0) (data.getD 5 0)
    let px := toInt16 (word (data.getD 6 0) (data.getD 7 0))
    let py := toInt16 (word (data.getD 8 0) (data.getD 9 0))
    let pz := toInt16 (word (data.getD 10 0) (data.getD 11 0))
    let vx := toInt16 (word (data.getD 12 0) (data.getD 13 0))
    let vy := toInt16 (word (data.getD 14 0) (data.getD 15 0))
    let vz := toInt16 (word (data.getD 16 0) (data.getD 17 0))
    let ax := toInt16 (word (data.getD 18 0) (data.getD 19 0))
    let ay := toInt16 (word (data.getD 20 0) (data.getD 21 0))
    let az := toInt16 (word (data.getD 22 0) (data.getD 23 0))
    let memLog := (data.getD 24 0, data.getD 25 0, data.getD 26 0)
    let status := data.getD 27 0
    .ok (new hdr.senderID hdr.receiverID descriptorType v1 v2 px py pz vx vy vz ax ay az
      memLog status)

/-- The value ranges of the member types of `Telemetry`: 4-bit ids, `uint8_t`
descriptor, memory log and status flags, `uint16_t` voltages, `int16_t`
positions, velocities and accelerations. -/
def WellFormed (t : Telemetry) : Prop :=
  t.header.senderID < 16 ∧ t.header.receiverID < 16 ∧ t.descriptor < 256 ∧
    t.voltage1 < 65536 ∧ t.voltage2 < 65536 ∧
    (-32768 ≤ t.posX ∧ t.posX < 32768) ∧ (-32768 ≤ t.posY ∧ t.posY < 32768) ∧
    (-32768 ≤ t.posZ ∧ t.posZ < 32768) ∧ (-32768 ≤ t.velX ∧ t.velX < 32768) ∧
    (-32768 ≤ t.velY ∧ t.velY < 32768) ∧ (-32768 ≤ t.velZ ∧ t.velZ < 32768) ∧
    (-32768 ≤ t.accX ∧ t.accX < 32768) ∧ (-32768 ≤ t.accY ∧ t.accY < 32768) ∧
    (-32768 ≤ t.accZ ∧ t.accZ < 32768) ∧
    t.memoryLog.1 < 256 ∧ t.memoryLog.2.1 < 256 ∧ t.memoryLog.2.2 < 256 ∧
    t.statusFlags < 256

/-- The specification's wire form of a 16-bit value: two bytes, high byte first. -/
def bigEndian16 (u : Nat) : List Nat := [u / 256, u % 256]

/-- The 16-bit two's complement of a signed value. -/
def twosComplement16 (x : Int) : Nat := (x % 65536).toNat

end Telemetry

/-! ## std::unordered_map, as an association list with distinct keys -/

namespace UMap

/-- `m.find(k)`: the mapped value, if any. -/
def find {α : Type} (m : List (Nat × α)) (k : Nat) : Option α :=
  (m.find? (fun e => e.1 == k)).map (fun e => e.2)

/-- `m.erase(k)`. -/
def erase {α : Type} (m : List (Nat × α)) (k : Nat) : List (Nat × α) :=
  m.filter (fun e => e.1 != k)

/-- `m[k] = v`. -/
def insert {α : Type} (m : List (Nat × α)) (k : Nat) (v : α) : List (Nat × α) :=
  erase m k ++ [(k, v)]

end UMap

/-! ## Management/CommandManager.hpp, Management/CommandManager.cpp

The member functions of `CommandManager` run under `mutex_`; each is one atomic
transition of the state.  Times are `steady_clock` readings in milliseconds and
are inputs of the transitions.  The objects made by `make_shared` live in
`heap` and are referred to by their index, so that the queue and the map share
them as the `shared_ptr`s do. -/

/-- `struct PendingCommand` of CommandManager.hpp. -/
structure PendingCommand where
  command : Command
  priority : Int
  lastSentTime : Nat
  retryCount : Int
  deriving DecidableEq, Repr

instance : Inhabited PendingCommand :=
  ⟨{ command := Command.default, priority := 0, lastSentTime := 0, retryCount := 0 }⟩

/-- `PendingCommand::PendingCommand(cmd, prio)`, `now` being the reading of
`steady_clock::now()`. -/
def PendingCommand.new (cmd : Command) (prio : Int) (now : Nat) : PendingCommand :=
  { command := cmd, priority := prio, lastSentTime := now, retryCount := 0 }

/-- `ComparePendingCommand::operator()(a, b)`. -/
def ComparePendingCommand (a b : PendingCommand) : Bool :=
  if a.priority = b.priority then decide (a.lastSentTime > b.lastSentTime)
  else decide (a.priority < b.priority)

/-- The state of a `CommandManager`: the allocated `PendingCommand` objects, the
pointers held by `commandQueue` and the pointers held by `pendingCommandsMap`. -/
structure CommandManager where
  heap : List PendingCommand
  commandQueue : List Nat
  pendingCommandsMap : List (Nat × Nat)
  deriving DecidableEq, Repr

namespace CommandManager

/-- `CommandManager::maxRetries`. -/
def maxRetries : Int := 5

/-- `CommandManager::timeoutInterval`, in milliseconds. -/
def timeoutInterval : Nat := 500

/-- The state after `CommandManager::CommandManager(avcProtocol)`. -/
def empty : CommandManager :=
  { heap := [], commandQueue := [], pendingCommandsMap := [] }

/-- The object a pointer refers to. -/
def deref (s : CommandManager) (a : Nat) : PendingCommand := s.heap.getD a default

/-- What `std::priority_queue::top()` may return: a pointer of the queue that
the comparator puts below no other pointer of the queue. -/
def isTop (s : CommandManager) (a : Nat) : Prop :=
  a ∈ s.commandQueue ∧
    ∀ b ∈ s.commandQueue, ComparePendingCommand (s.deref a) (s.deref b) = false

instance (s : CommandManager) (a : Nat) : Decidable (s.isTop a) := by
  unfold isTop
  infer_instance

/-- One admissible `top()`: among the pointers the comparator does not order,
the one that is earliest in the queue. -/
def top? (s : CommandManager) : Option Nat :=
  match s.commandQueue with
  | [] => none
  | a :: rest =>
    some (rest.foldl
      (fun cur b => if ComparePendingCommand (s.deref cur) (s.deref b) then b else cur) a)

/-- `CommandManager::addCommand(command, priority)` at time `now`: the new state
and the returned value. -/
def addCommand (s : CommandManager) (command : Command) (priority : Int) (now : Nat) :
    CommandManager × Bool :=
  let pendingCmd := s.heap.length
  let heap := s.heap ++ [PendingCommand.new command priority now]
  let commandQueue := s.commandQueue ++ [pendingCmd]
  let cmdNumber := command.getCommandNumber % 256
  ({ heap := heap, commandQueue := commandQueue,
     pendingCommandsMap := UMap.insert s.pendingCommandsMap cmdNumber pendingCmd }, true)

/-- `CommandManager::handleAcknowledgment(commandNumber)`. -/
def handleAcknowledgment (s : CommandManager) (commandNumber : Nat) : CommandManager :=
  match UMap.find s.pendingCommandsMap commandNumber with
  | some _ => { s with pendingCommandsMap := UMap.erase s.pendingCommandsMap commandNumber }
  | none => s

/-- One pass through the `else` branch of the loop of
`CommandManager::workerThreadFunc()` at time `now`, `pendingCmd` being the
pointer returned by `commandQueue.top()`.  The second component is the command
handed to `avcProtocol_->sendCommand`, if the pass makes that call; the call is
taken to return (an exception of it would leave the thread function). -/
def workerStepAt (s : CommandManager) (now : Nat) (pendingCmd : Nat) :
    CommandManager × Option Command :=
  let nextTimeout := (s.deref pendingCmd).lastSentTime + timeoutInterval
  if now ≥ nextTimeout then
    if (s.deref pendingCmd).retryCount ≥ maxRetries then
      let cmdNumber := (s.deref pendingCmd).command.getCommandNumber % 256
      ({ s with pendingCommandsMap := UMap.erase s.pendingCommandsMap cmdNumber,
                commandQueue := s.commandQueue.erase pendingCmd }, none)
    else
      let sent := (s.deref pendingCmd).command
      let heap := s.heap.set pendingCmd
        { s.deref pendingCmd with
          lastSentTime := now, retryCount := (s.deref pendingCmd).retryCount + 1 }
      ({ s with heap := heap,
                commandQueue := s.commandQueue.erase pendingCmd ++ [pendingCmd] }, some sent)
  else (s, none)

/-- One pass through the loop of `CommandManager::workerThreadFunc()` at time
`now`, with `top?` as `commandQueue.top()`; on an empty queue the worker waits. -/
def workerStep (s : CommandManager) (now : Nat) : CommandManager × Option Command :=
  match s.top? with
  | none => (s, none)
  | some pendingCmd => s.workerStepAt now pendingCmd

/-- `CommandManager::getNextCommand()` on a non-empty queue, `pendingCmd` being
the pointer returned by `commandQueue.top()`. -/
def getNextCommandAt (s : CommandManager) (pendingCmd : Nat) : CommandManager × Option Command :=
  let cmdNumber := (s.deref pendingCmd).command.getCommandNumber % 256
  ({ s with commandQueue := s.commandQueue.erase pendingCmd,
            pendingCommandsMap := UMap.erase s.pendingCommandsMap cmdNumber },
    some (s.deref pendingCmd).command)

/-- `CommandManager::getNextCommand()`. -/
def getNextCommand (s : CommandManager) : CommandManager × Option Command :=
  match s.top? with
  | none => (s, none)
  | some pendingCmd => s.getNextCommandAt pendingCmd

/-- `CommandManager::isQueueEmpty()`. -/
def isQueueEmpty (s : CommandManager) : Bool := s.commandQueue.isEmpty

/-- The states of a `CommandManager` reachable from the constructed one by calls
of `addCommand`, `handleAcknowledgment` and `getNextCommand` and by passes of
the worker loop, at any times and with any admissible `top()`. -/
inductive Reachable : CommandManager → Prop where
  | empty : Reachable CommandManager.empty
  | addCommand (s : CommandManager) (command : Command) (priority : Int) (now : Nat) :
      Reachable s → Reachable (s.addCommand command priority now).1
  | handleAcknowledgment (s : CommandManager) (commandNumber : Nat) :
      Reachable s → Reachable (s.handleAcknowledgment commandNumber)
  | getNextCommand (s : CommandManager) (pendingCmd : Nat) :
      Reachable s → s.isTop pendingCmd → Reachable (s.getNextCommandAt pendingCmd).1
  | workerStep (s : CommandManager) (now pendingCmd : Nat) :
      Reachable s → s.isTop pendingCmd → Reachable (s.workerStepAt now pendingCmd).1

end CommandManager

/-! ## AVC/AVCProtocol.hpp, AVC/AVCProtocol.cpp -/

/-- Exceptions that leave `AVCProtocol::sendCommand`. -/
inductive ProtocolExn where
  /-- `invalid_argument("Attempting to send an invalid command")` -/
  | invalidCommand
  /-- An exception of `Command::encode`. -/
  | message (e : Exn)
  /-- An exception of `Packet::Packet`, `Packet::assemble` or `COBS::encode`. -/
  | frame (e : SCALPEL.Exn)
  deriving DecidableEq, Repr

/-- `struct AVCProtocol::PendingCommand`. -/
structure ProtocolPending where
  command : Command
  timestamp : Nat
  retryCount : Int
  deriving DecidableEq, Repr

/-- The state of an `AVCProtocol`: the map `pendingCommands` and the byte
sequences handed to `communicator->send`, which appends them to the send queue
of the `Communicator`. -/
structure AVCProtocol where
  pendingCommands : List (Nat × ProtocolPending)
  sendQueue : List (List Nat)
  deriving DecidableEq, Repr

namespace AVCProtocol

/-- `AVCProtocol::maxRetries`. -/
def maxRetries : Int := 5

/-- `AVCProtocol::retryInterval`, in milliseconds. -/
def retryInterval : Nat := 500

/-- The state after `AVCProtocol::AVCProtocol(comm)`. -/
def init : AVCProtocol := { pendingCommands := [], sendQueue := [] }

/-- `AVCProtocol::sendRawPacket(data)`: `communicator->send(data)`. -/
def sendRawPacket (p : AVCProtocol) (data : List Nat) : AVCProtocol :=
  { p with sendQueue := p.sendQueue ++ [data] }

/-- `AVCProtocol::sendCommand(command)` at time `now`: the state after the call
and whether it returned or threw.  Every `throw` comes before the first write,
so a throwing call leaves the state as it was. -/
def sendCommand (p : AVCProtocol) (command : Command) (now : Nat) :
    AVCProtocol × Except ProtocolExn Unit :=
  if !command.isValid then (p, .error .invalidCommand)
  else
    match command.encode with
    | .error e => (p, .error (.message e))
    | .ok encoded =>
      let crc := SCALPEL.Checksum.calculateCRC8 encoded
      match SCALPEL.Packet.fromPayload encoded with
      | .error e => (p, .error (.frame e))
      | .ok packet =>
        match packet.assemble with
        | .error e => (p, .error (.frame e))
        | .ok packetData =>
          let packetData := packetData ++ [crc]
          match SCALPEL.COBS.encode packetData with
          | .error e => (p, .error (.frame e))
          | .ok cobsResult =>
            let finalPacket := cobsResult.encodedPayload
            let p := p.sendRawPacket finalPacket
            let pending : ProtocolPending :=
              { command := command, timestamp := now, retryCount := 0 }
            ({ p with pendingCommands :=
                UMap.insert p.pendingCommands (command.getCommandNumber % 256) pending },
              .ok ())

/-- `AVCProtocol::handleAcknowledgment(ackCommandNumber)` (the console output
left out). -/
def handleAcknowledgment (p : AVCProtocol) (ackCommandNumber : Nat) : AVCProtocol :=
  match UMap.find p.pendingCommands ackCommandNumber with
  | some _ => { p with pendingCommands := UMap.erase p.pendingCommands ackCommandNumber }
  | none => p

/-- The loop over `pendingCommands` in `AVCProtocol::retransmissionHandler()` at
time `now`: the map after the loop and the vector `toResend`. -/
def retransmitScan (now : Nat) :
    List (Nat × ProtocolPending) → List (Nat × ProtocolPending) × List ProtocolPending
  | [] => ([], [])
  | (k, pc) :: rest =>
    let r := retransmitScan now rest
    if now - pc.timestamp ≥ retryInterval then
      if pc.retryCount < maxRetries then
        ((k, { pc with timestamp := now, retryCount := pc.retryCount + 1 }) :: r.1, pc :: r.2)
      else (r.1, r.2)
    else ((k, pc) :: r.1, r.2)

/-- The loop over `toResend` in `AVCProtocol::retransmissionHandler()`:
`sendRawPacket(pending.command.encode())` for each entry; an exception of
`encode` ends it. -/
def resendAll (p : AVCProtocol) : List ProtocolPending → AVCProtocol × Except ProtocolExn Unit
  | [] => (p, .ok ())
  | pending :: rest =>
    match pending.command.encode with
    | .error e => (p, .error (.message e))
    | .ok data => resendAll (p.sendRawPacket data) rest

/-- One pass through the loop of `AVCProtocol::retransmissionHandler()` at time
`now`. -/
def retransmissionStep (p : AVCProtocol) (now : Nat) : AVCProtocol × Except ProtocolExn Unit :=
  let r := retransmitScan now p.pendingCommands
  resendAll { p with pendingCommands := r.1 } r.2

/-- The states of an `AVCProtocol` reachable from the constructed one by calls
of `sendCommand` and `handleAcknowledgment` and by passes of the retransmission
loop, at any times. -/
inductive Reachable : AVCProtocol → Prop where
  | init : Reachable AVCProtocol.init
  | sendCommand (p : AVCProtocol) (command : Command) (now : Nat) :
      Reachable p → Reachable (p.sendCommand command now).1
  | handleAcknowledgment (p : AVCProtocol) (ackCommandNumber : Nat) :
      Reachable p → Reachable (p.handleAcknowledgment ackCommandNumber)
  | retransmissionStep (p : AVCProtocol) (now : Nat) :
      Reachable p → Reachable (p.retransmissionStep now).1

end AVCProtocol

end AVC
end RocketLink

namespace SCALPEL

end SCALPEL

namespace RocketLink
namespace AVC

/-! ## The receive path of AVC/AVCProtocol.cpp -/

/-- What a call of `AVCProtocol::onDataReceived` did with its input: one
constructor per exit of the function, of `handleIncomingPacket` and of the
descriptor handlers registered by `registerPayloadDescriptors`. -/
inductive Inbound where
  /-- `catch (const std::exception& e)` of `onDataReceived`, "Error decoding
  received packet": an exception of `COBS::decode` or `Packet::disassemble`. -/
  | decodeError (e : SCALPEL.Exn)
  /-- "Received data too short after decoding." -/
  | dataTooShort
  /-- "Checksum validation failed." -/
  | checksumFailed (receivedCrc calculatedCrc : Nat)
  /-- "Received packet too short." -/
  | packetTooShort
  /-- "Unknown payload descriptor" -/
  | unknownDescriptor (descriptor : Nat)
  /-- The handler of `COMMAND` ran, with this result of `Command::decode`. -/
  | command (r : Except Exn Command)
  /-- The handler of `TELEMETRY_A` ran, with this result of `Telemetry::decode`. -/
  | telemetryA (r : Except TelemetryExn Telemetry)
  /-- The handler of `TELEMETRY_B` ran, with this result of `Telemetry::decode`. -/
  | telemetryB (r : Except TelemetryExn Telemetry)
  /-- "Invalid Acknowledgment packet size." -/
  | invalidAcknowledgment
  /-- The handler of `ACKNOWLEDGMENT` called `handleAcknowledgment(ackCmdNum)`. -/
  | acknowledgment (ackCmdNum : Nat)
  deriving DecidableEq, Repr

namespace AVCProtocol

/-- The handler registered for `PayloadDescriptor::COMMAND`: it catches the
exceptions of `Command::decode` and writes to the console only. -/
def commandHandler (p : AVCProtocol) (data : List Nat) : AVCProtocol × Inbound :=
  (p, .command (Command.decode data))

/-- The handler registered for `TelemetryDescriptor::TELEMETRY_A`. -/
def telemetryAHandler (p : AVCProtocol) (data : List Nat) : AVCProtocol × Inbound :=
  (p, .telemetryA (Telemetry.decode data))

/-- The handler registered for `TelemetryDescriptor::TELEMETRY_B`. -/
def telemetryBHandler (p : AVCProtocol) (data : List Nat) : AVCProtocol × Inbound :=
  (p, .telemetryB (Telemetry.decode data))

/-- The handler registered for `PayloadDescriptor::ACKNOWLEDGMENT`. -/
def acknowledgmentHandler (p : AVCProtocol) (data : List Nat) : AVCProtocol × Inbound :=
  if data.length < 3 then (p, .invalidAcknowledgment)
  else
    let ackCmdNum := data.getD 2 0
    (p.handleAcknowledgment ackCmdNum, .acknowledgment ackCmdNum)

/-- The map `descriptorHandlers` after `registerPayloadDescriptors()`. -/
def descriptorHandlers :
    List (Nat × (AVCProtocol → List Nat → AVCProtocol × Inbound)) :=
  let m := UMap.insert [] PayloadDescriptor.COMMAND commandHandler
  let m := UMap.insert m TelemetryDescriptor.TELEMETRY_A telemetryAHandler
  let m := UMap.insert m TelemetryDescriptor.TELEMETRY_B telemetryBHandler
  UMap.insert m PayloadDescriptor.ACKNOWLEDGMENT acknowledgmentHandler

/-- `AVCProtocol::handleIncomingPacket(data)`. -/
def handleIncomingPacket (p : AVCProtocol) (data : List Nat) : AVCProtocol × Inbound :=
  if data.length < 2 then (p, .packetTooShort)
  else
    let descriptor := data.getD 1 0
    match UMap.find descriptorHandlers descriptor with
    | some handler => handler p data
    | none => (p, .unknownDescriptor descriptor)

/-- The `try` block of `AVCProtocol::onDataReceived(data)`: the state and exit
when the block completes, or the exception that reaches the `catch`.  Both
throwing calls come before the only write (`handleAcknowledgment`, in the
handler of `ACKNOWLEDGMENT`). -/
def onDataReceivedTry (p : AVCProtocol) (data : List Nat) :
    Except SCALPEL.Exn (AVCProtocol × Inbound) :=
  match SCALPEL.COBS.decode data 0 with
  | .error e => .error e
  | .ok decodedData =>
    if decodedData.length < 1 then .ok (p, .dataTooShort)
    else
      let receivedCrc := decodedData.getLastD 0
      let decodedData := decodedData.dropLast
      let calculatedCrc := SCALPEL.Checksum.calculateCRC8 decodedData
      if calculatedCrc ≠ receivedCrc then .ok (p, .checksumFailed receivedCrc calculatedCrc)
      else
        match SCALPEL.Packet.disassemble decodedData with
        | .error e => .error e
        | .ok packet => .ok (handleIncomingPacket p packet.getPayload)

/-- `AVCProtocol::onDataReceived(data)`: the `try` block and its `catch`, which
writes to the console and returns. -/
def onDataReceived (p : AVCProtocol) (data : List Nat) : AVCProtocol × Inbound :=
  match onDataReceivedTry p data with
  | .error e => (p, .decodeError e)
  | .ok r => r

end AVCProtocol

/-! ## Management/TelemetryBuffer.hpp, Management/TelemetryBuffer.cpp

The member functions run under `mutex_`; each is one atomic transition.  The
`size_t` sums of the index computations stay below `3 * maxCapacity`, and
`maxCapacity` is the size of an allocated vector of `Telemetry` objects, so no
sum wraps. -/

/-- The data members of `class TelemetryBuffer`. -/
structure TelemetryBuffer where
  buffer : List Telemetry
  head : Nat
  count : Nat
  maxCapacity : Nat
  deriving DecidableEq, Repr

namespace TelemetryBuffer

/-- `TelemetryBuffer::TelemetryBuffer(capacity)`: `buffer(capacity)` holds
`capacity` default-constructed records. -/
def new (capacity : Nat) : TelemetryBuffer :=
  { buffer := List.replicate capacity Telemetry.default, head := 0, count := 0,
    maxCapacity := capacity }

/-- `TelemetryBuffer::addTelemetry(telemetry)`. -/
def addTelemetry (b : TelemetryBuffer) (telemetry : Telemetry) : TelemetryBuffer :=
  let buffer := b.buffer.set b.head telemetry
  let head := (b.head + 1) % b.maxCapacity
  let count := if b.count < b.maxCapacity then b.count + 1 else b.count
  { b with buffer := buffer, head := head, count := count }

/-- `TelemetryBuffer::getLatestTelemetry()`. -/
def getLatestTelemetry (b : TelemetryBuffer) : Option Telemetry :=
  if b.count = 0 then none
  else
    let latestIndex := (b.head + b.maxCapacity - 1) % b.maxCapacity
    some (b.buffer.getD latestIndex Telemetry.default)

/-- `TelemetryBuffer::getTelemetryAt(index)`. -/
def getTelemetryAt (b : TelemetryBuffer) (index : Nat) : Option Telemetry :=
  if index ≥ b.count then none
  else
    let actualIndex := (b.head + b.maxCapacity - b.count + index) % b.maxCapacity
    some (b.buffer.getD actualIndex Telemetry.default)

/-- `TelemetryBuffer::getAllTelemetry()`. -/
def getAllTelemetry (b : TelemetryBuffer) : List Telemetry :=
  (List.range b.count).foldl
    (fun telemetryData i =>
      let index := (b.head + b.maxCapacity - b.count + i) % b.maxCapacity
      telemetryData ++ [b.buffer.getD index Telemetry.default])
    []

/-- `TelemetryBuffer::size()`. -/
def size (b : TelemetryBuffer) : Nat := b.count

/-- `TelemetryBuffer::capacity()`. -/
def capacity (b : TelemetryBuffer) : Nat := b.maxCapacity

/-- The representation invariant of the ring buffer of capacity `c` after the
records `ts` have been added, in this order: record number `k` lies in slot
`k % c` as long as fewer than `c` records came after it. -/
def Holds (c : Nat) (b : TelemetryBuffer) (ts : List Telemetry) : Prop :=
  b.buffer.length = c ∧ b.maxCapacity = c ∧ b.head = ts.length % c ∧
    b.count = min ts.length c ∧
    ∀ k, k < ts.length → ts.length ≤ k + c →
      b.buffer.getD (k % c) Telemetry.default = ts.getD k Telemetry.default

end TelemetryBuffer

end AVC
end RocketLink

namespace SCALPEL
namespace Checksum

/-! ## The 2-bit checksum -/

theorem and_bit_ne_zero (x i : Nat) : x &&& (1 <<< i) ≠ 0 ↔ x.testBit i = true := by
  rw [Nat.one_shiftLeft]
  constructor
  · intro h
    by_contra hx
    apply h
    apply Nat.eq_of_testBit_eq
    intro j
    simp only [Nat.testBit_and, Nat.testBit_two_pow, Nat.zero_testBit]
    by_cases hij : i = j
    · subst hij; simp [hx]
    · simp [hij]
  · intro h h0
    have := congrArg (fun y => Nat.testBit y i) h0
    simp [Nat.testBit_two_pow, h] at this

theorem countBits_loop (byte : Nat) (l : List Nat) (c : Nat) :
    (l.foldl (fun c bit => if byte &&& (1 <<< bit) ≠ 0 then (c + 1) % 256 else c) c) % 4
      = (c + (l.map (fun bit => if byte &&& (1 <<< bit) ≠ 0 then 1 else 0)).sum) % 4 := by
  induction l generalizing c with
  | nil => simp
  | cons i l ih =>
    simp only [List.foldl_cons, List.map_cons, List.sum_cons]
    rw [ih]
    split <;> omega

theorem countBits_mod (count byte : Nat) :
    countBits count byte % 4 = (count + bitCount8 byte) % 4 :=
  countBits_loop byte (List.range 8) count

theorem calculate2BitChecksum_eq (byte : Nat) :
    calculate2BitChecksum byte = bitCount8 byte % 4 := by
  simp [calculate2BitChecksum, countBits_mod]

theorem foldl_countBits_mod (data : List Nat) (c : Nat) :
    data.foldl countBits c % 4 = (c + (data.map bitCount8).sum) % 4 := by
  induction data generalizing c with
  | nil => simp
  | cons b data ih =>
    simp only [List.foldl_cons, List.map_cons, List.sum_cons]
    rw [ih]
    have := countBits_mod c b
    omega

theorem calculate2BitChecksumSpan_eq (data : List Nat) :
    calculate2BitChecksumSpan data = (data.map bitCount8).sum % 4 := by
  simp [calculate2BitChecksumSpan, foldl_countBits_mod]

theorem calculate2BitChecksumSpan_lt (data : List Nat) :
    calculate2BitChecksumSpan data < 4 :=
  Nat.mod_lt _ (by decide)

theorem bitCount8_testBit (b : Nat) :
    bitCount8 b = (b.testBit 0).toNat + (b.testBit 1).toNat + (b.testBit 2).toNat
      + (b.testBit 3).toNat + (b.testBit 4).toNat + (b.testBit 5).toNat
      + (b.testBit 6).toNat + (b.testBit 7).toNat := by
  have e : List.range 8 = [0, 1, 2, 3, 4, 5, 6, 7] := by decide
  have f : ∀ i, (if b &&& (1 <<< i) ≠ 0 then 1 else 0) = (b.testBit i).toNat := by
    intro i
    by_cases h : b.testBit i = true
    · rw [if_pos ((and_bit_ne_zero b i).2 h), h]; rfl
    · rw [if_neg (fun h' => h ((and_bit_ne_zero b i).1 h'))]
      simp only [Bool.not_eq_true] at h
      rw [h]; rfl
  simp only [bitCount8, e, f, List.map_cons, List.map_nil, List.sum_cons, List.sum_nil]
  omega

/-- Inverting one of the low eight bits changes the bit count by exactly one. -/
theorem bitCount8_flip (b bit : Nat) (hbit : bit < 8) :
    bitCount8 (b ^^^ (1 <<< bit)) = bitCount8 b + 1 ∨
      bitCount8 (b ^^^ (1 <<< bit)) + 1 = bitCount8 b := by
  rw [Nat.one_shiftLeft, bitCount8_testBit, bitCount8_testBit]
  simp only [Nat.testBit_xor, Nat.testBit_two_pow]
  have hk : (!(b.testBit bit)).toNat = (b.testBit bit).toNat + 1 ∨
      (!(b.testBit bit)).toNat + 1 = (b.testBit bit).toNat := by
    cases b.testBit bit <;> simp
  interval_cases bit <;>
    simp only [Nat.reduceEqDiff, decide_False, decide_True, Bool.xor_false, Bool.xor_true,
      OfNat.ofNat_ne_zero, OfNat.zero_ne_ofNat, OfNat.ofNat_ne_one, OfNat.one_ne_ofNat] <;>
    omega

theorem sum_map_set (f : Nat → Nat) (Q : List Nat) (j x : Nat) (hj : j < Q.length) :
    ((Q.set j x).map f).sum + f (Q.getD j 0) = (Q.map f).sum + f x := by
  induction Q generalizing j with
  | nil => simp at hj
  | cons q Q ih =>
    cases j with
    | zero => simp; omega
    | succ j =>
      simp only [List.length_cons, Nat.add_lt_add_iff_right] at hj
      have := ih j hj
      simp only [List.set_cons_succ, List.map_cons, List.sum_cons, List.getD_cons_succ]
      omega

/-- Inverting one bit of one byte of a span changes its 2-bit checksum. -/
theorem calculate2BitChecksumSpan_flip (Q : List Nat) (j bit : Nat) (hj : j < Q.length)
    (hbit : bit < 8) :
    calculate2BitChecksumSpan (Q.set j (Q.getD j 0 ^^^ (1 <<< bit)))
      ≠ calculate2BitChecksumSpan Q := by
  rw [calculate2BitChecksumSpan_eq, calculate2BitChecksumSpan_eq]
  have h1 := sum_map_set bitCount8 Q j (Q.getD j 0 ^^^ (1 <<< bit)) hj
  have h2 := bitCount8_flip (Q.getD j 0) bit hbit
  omega

end Checksum
namespace COBS

/-! ## The decoder on well-formed blocks -/

theorem copyRun_append (run tail dec : List Nat) :
    copyRun run.length (run ++ tail) dec = .ok (tail, dec ++ run) := by
  induction run generalizing dec with
  | nil => simp [copyRun]
  | cons b run ih => simp [copyRun, ih]

theorem copyRun_ok {n : Nat} {rest dec rest' dec' : List Nat}
    (h : copyRun n rest dec = .ok (rest', dec')) :
    rest = rest.take n ++ rest' ∧ dec' = dec ++ rest.take n ∧ (rest.take n).length = n := by
  induction n generalizing rest dec with
  | zero =>
    simp only [copyRun, Except.ok.injEq, Prod.mk.injEq] at h
    obtain ⟨h1, h2⟩ := h
    subst h1 h2
    simp
  | succ n ih =>
    cases rest with
    | nil => simp [copyRun] at h
    | cons b rest =>
      simp only [copyRun] at h
      obtain ⟨h1, h2, h3⟩ := ih h
      refine ⟨?_, ?_, ?_⟩
      · simp only [List.take_succ_cons, List.cons_append]
        rw [← h1]
      · simp [h2]
      · simp [h3]

theorem copyRun_error {n : Nat} {rest dec : List Nat} {e : Exn}
    (h : copyRun n rest dec = .error e) : e = .notEnoughBytes ∧ rest.length < n := by
  induction n generalizing rest dec with
  | zero => simp [copyRun] at h
  | succ n ih =>
    cases rest with
    | nil =>
      simp only [copyRun, Except.error.injEq] at h
      simp [h]
    | cons b rest =>
      simp only [copyRun] at h
      obtain ⟨h1, h2⟩ := ih h
      exact ⟨h1, by simpa using h2⟩

theorem copyRun_length_le {n : Nat} {rest dec rest' dec' : List Nat}
    (h : copyRun n rest dec = .ok (rest', dec')) : rest'.length ≤ rest.length := by
  have h1 := (copyRun_ok h).1
  have h2 := congrArg List.length h1
  simp only [List.length_append] at h2
  omega

theorem decodeLoop_fuel (f1 f2 : Nat) (rest : List Nat) (index : Nat) (dec : List Nat)
    (h1 : rest.length ≤ f1) (h2 : rest.length ≤ f2) :
    decodeLoop f1 rest index dec = decodeLoop f2 rest index dec := by
  induction f1 generalizing f2 rest index dec with
  | zero =>
    cases rest with
    | nil => cases f2 <;> simp [decodeLoop]
    | cons c r => simp at h1
  | succ f1 ih =>
    cases rest with
    | nil => cases f2 <;> simp [decodeLoop]
    | cons c r =>
      cases f2 with
      | zero => simp at h2
      | succ f2 =>
        simp only [List.length_cons, Nat.add_le_add_iff_right] at h1 h2
        simp only [decodeLoop]
        split
        · rfl
        · split
          · rfl
          · rename_i rest' dec' hc
            have hl := copyRun_length_le hc
            rw [ih f2 rest' (index - 1) _ (by omega) (by omega),
              ih f2 rest' index _ (by omega) (by omega)]

theorem decodeLoop_block_start (fuel : Nat) (run tail : List Nat) (idx : Nat) (dec : List Nat)
    (hrun : run.length < 254) (htail : tail ≠ []) :
    decodeLoop (fuel + 1) ((run.length + 1) :: (run ++ tail)) (idx + 1) dec
      = decodeLoop fuel tail idx (dec ++ run ++ [START_BYTE]) := by
  have hlt : run.length + 1 < 255 := by omega
  simp [decodeLoop, copyRun_append, htail, hlt]

theorem decodeLoop_block_full (fuel : Nat) (run tail : List Nat) (idx : Nat) (dec : List Nat)
    (hrun : run.length = 254) :
    decodeLoop (fuel + 1) (0xFF :: (run ++ tail)) idx dec
      = decodeLoop fuel tail idx (dec ++ run) := by
  have h := copyRun_append run tail dec
  rw [hrun] at h
  simp [decodeLoop, h]

theorem decodeLoop_block_last (fuel : Nat) (run : List Nat) (dec : List Nat) :
    decodeLoop (fuel + 1) ((run.length + 1) :: run) 0 dec = .ok (dec ++ run) := by
  have h := copyRun_append run [] dec
  rw [List.append_nil] at h
  simp [decodeLoop, h]

theorem decodeLoop_closed {done D : List Nat} {k : Nat} (h : Closed done D k) :
    ∀ (tail : List Nat), tail ≠ [] → ∀ (fuel idx : Nat) (dec : List Nat),
      (done ++ tail).length ≤ fuel →
      decodeLoop fuel (done ++ tail) (k + idx) dec
        = decodeLoop tail.length tail idx (dec ++ D) := by
  induction h with
  | nil =>
    intro tail _ fuel idx dec hf
    simp only [List.nil_append, Nat.zero_add, List.append_nil] at hf ⊢
    exact decodeLoop_fuel _ _ _ _ _ hf (Nat.le_refl _)
  | start done D k run _ hrun _ ih =>
    intro tail htail fuel idx dec hf
    have h1 := ih ((run.length + 1) :: (run ++ tail)) (by simp) fuel (idx + 1) dec
      (by simpa using hf)
    have e1 : done ++ (run.length + 1) :: run ++ tail
        = done ++ (run.length + 1) :: (run ++ tail) := by simp
    have e2 : k + 1 + idx = k + (idx + 1) := by omega
    rw [e1, e2, h1, List.length_cons, decodeLoop_block_start _ _ _ _ _ hrun htail]
    rw [decodeLoop_fuel _ tail.length _ _ _ (by simp) (Nat.le_refl _)]
    simp
  | full done D k run _ hrun _ ih =>
    intro tail htail fuel idx dec hf
    have h1 := ih (0xFF :: (run ++ tail)) (by simp) fuel idx dec (by simpa using hf)
    have e1 : done ++ 0xFF :: run ++ tail = done ++ 0xFF :: (run ++ tail) := by simp
    rw [e1, h1, List.length_cons, decodeLoop_block_full _ _ _ _ _ hrun]
    rw [decodeLoop_fuel _ tail.length _ _ _ (by simp) (Nat.le_refl _)]
    simp

/-- Decoding closed blocks followed by the encoder's last block gives back the
input they stand for, when the index is the number of start bytes. -/
theorem decode_closed {done D : List Nat} {k : Nat} (h : Closed done D k)
    (run : List Nat) :
    decode (done ++ (run.length + 1) :: run) k = .ok (D ++ run) := by
  unfold decode
  have h1 := decodeLoop_closed h ((run.length + 1) :: run) (by simp)
    (done ++ (run.length + 1) :: run).length 0 [] (Nat.le_refl _)
  simp only [Nat.add_zero, List.nil_append] at h1
  rw [h1, List.length_cons, decodeLoop_block_last]

/-! ## The encoder loop invariant -/

theorem set_placeholder (done run : List Nat) (x y : Nat) :
    (done ++ x :: run).set done.length y = done ++ y :: run := by
  induction done with
  | nil => simp
  | cons a done ih => simp [ih]

theorem encInv_init : EncInv [] encodeInit :=
  ⟨[], [], [], Closed.nil, rfl, rfl, rfl, by simp, rfl, by simp, rfl⟩

theorem encInv_step {P : List Nat} {st : EncodeState} (b : Nat) (h : EncInv P st) :
    EncInv (P ++ [b]) (encodeStep st b) := by
  obtain ⟨done, D, run, hcl, henc, hptr, hcode, hlen, hP, hrun, hidx⟩ := h
  by_cases hb : b = START_BYTE
  · subst hb
    refine ⟨done ++ (run.length + 1) :: run, D ++ run ++ [START_BYTE], [], ?_, ?_, ?_, ?_, ?_,
      ?_, ?_, ?_⟩
    · have hc : (P ++ [START_BYTE]).count START_BYTE = P.count START_BYTE + 1 := by
        simp [List.count_append]
      rw [hc]
      exact Closed.start done D _ run hcl hlen hrun
    · simp [encodeStep, henc, hptr, hcode, set_placeholder]
    · simp [encodeStep, henc, hptr, hcode, set_placeholder]
    · simp [encodeStep]
    · simp
    · simp [hP]
    · simp
    · have hc : (P ++ [START_BYTE]).count START_BYTE = P.count START_BYTE + 1 := by
        simp [List.count_append]
      simp only [encodeStep, if_true, hc, hidx]
      omega
  · have hc : (P ++ [b]).count START_BYTE = P.count START_BYTE := by
      simp only [List.count_append, List.count_singleton]
      simp [hb]
    have hset : (done ++ 0 :: run ++ [b]).set done.length 255 = done ++ 255 :: (run ++ [b]) := by
      simp [set_placeholder]
    by_cases hfull : run.length = 253
    · have hcode2 : (st.code + 1) % 256 = 255 := by rw [hcode, hfull]
      refine ⟨done ++ 0xFF :: (run ++ [b]), D ++ (run ++ [b]), [], ?_, ?_, ?_, ?_, ?_, ?_, ?_, ?_⟩
      · rw [hc]
        refine Closed.full done D _ (run ++ [b]) hcl (by simp [hfull]) ?_
        simp only [List.mem_append, List.mem_singleton, not_or]
        exact ⟨hrun, fun h' => hb h'.symm⟩
      · simp only [encodeStep, hb, if_false, hcode2, if_true, henc, hptr, hset]
      · simp only [encodeStep, hb, if_false, hcode2, if_true, henc, hptr, hset]
        simp
      · simp only [encodeStep, hb, if_false, hcode2, if_true]
        simp
      · simp
      · simp [hP]
      · simp
      · simp only [encodeStep, hb, if_false, hcode2, if_true, hc, hidx]
    · have hcode2 : (st.code + 1) % 256 = run.length + 2 := by rw [hcode]; omega
      have hne : ¬ (run.length + 2 = 255) := by omega
      refine ⟨done, D, run ++ [b], ?_, ?_, ?_, ?_, ?_, ?_, ?_, ?_⟩
      · rw [hc]; exact hcl
      · simp only [encodeStep, hb, if_false, hcode2, hne, henc]
        simp
      · simp only [encodeStep, hb, if_false, hcode2, hne, hptr]
      · simp only [encodeStep, hb, if_false, hcode2, hne]
        simp
      · simp only [List.length_append, List.length_singleton]; omega
      · simp [hP]
      · simp only [List.mem_append, List.mem_singleton, not_or]
        exact ⟨hrun, fun h' => hb h'.symm⟩
      · simp only [encodeStep, hb, if_false, hcode2, hne, hc, hidx]

theorem encInv_foldl (bs : List Nat) {P : List Nat} {st : EncodeState} (h : EncInv P st) :
    EncInv (P ++ bs) (bs.foldl encodeStep st) := by
  induction bs generalizing P st with
  | nil => simpa using h
  | cons b bs ih =>
    have := ih (encInv_step b h)
    simpa using this

theorem encInv_encode (P : List Nat) : EncInv P (P.foldl encodeStep encodeInit) := by
  have := encInv_foldl P encInv_init
  simpa using this

/-- What `encode` computes, in terms of closed blocks: the result is the closed
blocks followed by the last block, unless one of its bytes is the start byte. -/
theorem encode_blocks (P : List Nat) :
    ∃ done D run, Closed done D (P.count START_BYTE) ∧ P = D ++ run ∧
      START_BYTE ∉ run ∧ run.length < 254 ∧
      encode P =
        if (done ++ (run.length + 1) :: run).any (fun byte => byte == START_BYTE) then
          .error .startByteNotEliminated
        else .ok { encodedPayload := done ++ (run.length + 1) :: run,
                   index := P.count START_BYTE % 256 } := by
  obtain ⟨done, D, run, hcl, henc, hptr, hcode, hlen, hP, hrun, hidx⟩ := encInv_encode P
  refine ⟨done, D, run, hcl, hP, hrun, hlen, ?_⟩
  simp only [encode, henc, hptr, hcode, hidx, set_placeholder]

theorem closed_start_byte {done D : List Nat} {k : Nat} (h : Closed done D k) :
    ∀ b ∈ done, b = START_BYTE → 169 ≤ D.length := by
  induction h with
  | nil => intro b hb; simp at hb
  | start done D k run _ hlen hrun ih =>
    intro b hb hAA
    simp only [List.mem_append, List.mem_cons] at hb
    simp only [List.length_append]
    rcases hb with hb | hb | hb
    · have := ih b hb hAA
      omega
    · rw [hAA] at hb
      simp only [START_BYTE] at hb
      omega
    · rw [hAA] at hb
      exact absurd hb hrun
  | full done D k run _ hlen hrun ih =>
    intro b hb hAA
    simp only [List.mem_append, List.mem_cons] at hb
    simp only [List.length_append]
    rcases hb with hb | hb | hb
    · have := ih b hb hAA
      omega
    · rw [hAA] at hb
      simp [START_BYTE] at hb
    · rw [hAA] at hb
      exact absurd hb hrun

theorem closed_count {done D : List Nat} {k : Nat} (h : Closed done D k) :
    D.count START_BYTE = k := by
  induction h with
  | nil => rfl
  | start done D k run _ _ hrun ih =>
    simp [List.count_append, ih, List.count_eq_zero_of_not_mem hrun]
  | full done D k run _ _ hrun ih =>
    simp [List.count_append, ih, List.count_eq_zero_of_not_mem hrun]

/-- The result of a successful `encode` holds no start byte. -/
theorem encode_no_start {P : List Nat} {r : COBSResult} (h : encode P = .ok r) :
    START_BYTE ∉ r.encodedPayload := by
  simp only [encode] at h
  split at h
  · simp at h
  · rename_i hany
    simp only [Except.ok.injEq] at h
    subst h
    simpa using hany

/-- The index of a successful `encode` is the 8-bit count of start bytes. -/
theorem encode_index {P : List Nat} {r : COBSResult} (h : encode P = .ok r) :
    r.index = P.count START_BYTE % 256 := by
  obtain ⟨done, D, run, _, _, _, _, henc⟩ := encode_blocks P
  rw [henc] at h
  split at h
  · simp at h
  · simp only [Except.ok.injEq] at h
    subst h
    rfl

theorem encode_ne_nil {P : List Nat} {r : COBSResult} (h : encode P = .ok r) :
    r.encodedPayload ≠ [] := by
  obtain ⟨done, D, run, _, _, _, _, henc⟩ := encode_blocks P
  rw [henc] at h
  split at h
  · simp at h
  · simp only [Except.ok.injEq] at h
    subst h
    simp

/-- Decoding the result of a successful `encode` with the true number of start
bytes gives back the input. -/
theorem decode_encode {P : List Nat} {r : COBSResult} (h : encode P = .ok r) :
    decode r.encodedPayload (P.count START_BYTE) = .ok P := by
  obtain ⟨done, D, run, hcl, hP, _, _, henc⟩ := encode_blocks P
  rw [henc] at h
  split at h
  · simp at h
  · simp only [Except.ok.injEq] at h
    subst h
    simp only
    rw [decode_closed hcl run, ← hP]

/-- `encode` succeeds on every input of fewer than 169 bytes. -/
theorem encode_ok_of_short (P : List Nat) (hlen : P.length < 169) :
    ∃ r, encode P = .ok r := by
  obtain ⟨done, D, run, hcl, hP, hrun, _, henc⟩ := encode_blocks P
  have hl : D.length + run.length = P.length := by rw [hP, List.length_append]
  rw [henc]
  split
  · rename_i hany
    exfalso
    simp only [List.any_eq_true, beq_iff_eq] at hany
    obtain ⟨b, hb, hAA⟩ := hany
    simp only [List.mem_append, List.mem_cons] at hb
    rcases hb with hb | hb | hb
    · have := closed_start_byte hcl b hb hAA
      omega
    · rw [hAA] at hb
      simp only [START_BYTE] at hb
      omega
    · rw [hAA] at hb
      exact hrun hb
  · exact ⟨_, rfl⟩

/-! ## General facts about the decoder -/

theorem decodeLoop_ne_outOfFuel (fuel : Nat) (rest : List Nat) (index : Nat) (dec : List Nat)
    (h : rest.length ≤ fuel) : decodeLoop fuel rest index dec ≠ .error .outOfFuel := by
  induction fuel generalizing rest index dec with
  | zero =>
    cases rest with
    | nil => simp only [decodeLoop]; split <;> simp
    | cons c r => simp at h
  | succ fuel ih =>
    cases rest with
    | nil => simp only [decodeLoop]; split <;> simp
    | cons c r =>
      simp only [List.length_cons, Nat.add_le_add_iff_right] at h
      simp only [decodeLoop]
      split
      · simp
      · split
        · rename_i e hc
          have := (copyRun_error hc).1
          subst this
          simp
        · rename_i rest' dec' hc
          have hl := copyRun_length_le hc
          split
          · split
            · simp
            · exact ih _ _ _ (by omega)
          · exact ih _ _ _ (by omega)

/-- The fuel of `decode` never runs out: `outOfFuel` is not a result of `decode`. -/
theorem decode_ne_outOfFuel (encoded : List Nat) (index : Nat) :
    decode encoded index ≠ .error .outOfFuel :=
  decodeLoop_ne_outOfFuel _ _ _ _ (Nat.le_refl _)

theorem decodeLoop_index_unique (fuel : Nat) (rest : List Nat) (i j : Nat) (dec P : List Nat)
    (h : decodeLoop fuel rest i dec = .ok P) (hij : j ≠ i) :
    ∃ e, decodeLoop fuel rest j dec = .error e := by
  induction fuel generalizing rest i j dec with
  | zero =>
    cases rest with
    | nil =>
      simp only [decodeLoop] at h ⊢
      split at h
      · simp at h
      · rename_i hi
        have hi0 : i = 0 := by simpa using hi
        have hj : j ≠ 0 := by omega
        simp [hj]
    | cons c r => simp [decodeLoop] at h
  | succ fuel ih =>
    cases rest with
    | nil =>
      simp only [decodeLoop] at h ⊢
      split at h
      · simp at h
      · rename_i hi
        have hi0 : i = 0 := by simpa using hi
        have hj : j ≠ 0 := by omega
        simp [hj]
    | cons c r =>
      simp only [decodeLoop] at h ⊢
      split at h
      · simp at h
      · rename_i hc0
        rw [if_neg hc0]
        split at h
        · simp at h
        · rename_i rest' dec' hc
          split at h
          · rename_i hcond
            rw [if_pos hcond]
            split at h
            · simp at h
            · rename_i hi
              by_cases hj : j = 0
              · simp [hj]
              · rw [if_neg hj]
                exact ih _ _ _ _ h (by omega)
          · rename_i hcond
            rw [if_neg hcond]
            exact ih _ _ _ _ h hij

/-- A sequence decodes with at most one index. -/
theorem decode_index_unique {encoded : List Nat} {i j : Nat} {P : List Nat}
    (h : decode encoded i = .ok P) (hij : j ≠ i) : ∃ e, decode encoded j = .error e :=
  decodeLoop_index_unique _ _ _ _ _ _ h hij

theorem decodeLoop_count (fuel : Nat) (rest : List Nat) (index : Nat) (dec P : List Nat)
    (h : decodeLoop fuel rest index dec = .ok P) (hrest : START_BYTE ∉ rest) :
    P.count START_BYTE = dec.count START_BYTE + index := by
  induction fuel generalizing rest index dec with
  | zero =>
    cases rest with
    | nil =>
      simp only [decodeLoop] at h
      split at h
      · simp at h
      · rename_i hi
        have hi0 : index = 0 := by simpa using hi
        simp only [Except.ok.injEq] at h
        rw [← h, hi0, Nat.add_zero]
    | cons c r => simp [decodeLoop] at h
  | succ fuel ih =>
    cases rest with
    | nil =>
      simp only [decodeLoop] at h
      split at h
      · simp at h
      · rename_i hi
        have hi0 : index = 0 := by simpa using hi
        simp only [Except.ok.injEq] at h
        rw [← h, hi0, Nat.add_zero]
    | cons c r =>
      simp only [decodeLoop] at h
      split at h
      · simp at h
      · split at h
        · simp at h
        · rename_i rest' dec' hc
          obtain ⟨h1, h2, _⟩ := copyRun_ok hc
          have hr : START_BYTE ∉ r := fun hm => hrest (List.mem_cons_of_mem _ hm)
          have hr' : START_BYTE ∉ rest' := by
            intro hm
            apply hr
            rw [h1]
            exact List.mem_append_right _ hm
          have ht : START_BYTE ∉ List.take (c - 1) r := fun hm => hr (List.mem_of_mem_take hm)
          have hd : dec'.count START_BYTE = dec.count START_BYTE := by
            rw [h2, List.count_append, List.count_eq_zero_of_not_mem ht, Nat.add_zero]
          split at h
          · split at h
            · simp at h
            · rename_i hi
              have := ih _ _ _ h hr'
              rw [this, List.count_append, hd]
              simp only [List.count_singleton, beq_self_eq_true, if_true]
              omega
          · have := ih _ _ _ h hr'
            rw [this, hd]

/-- When the stuffed sequence holds no start byte, a successful `decode` returns
a payload with exactly `index` start bytes. -/
theorem decode_count {encoded : List Nat} {index : Nat} {P : List Nat}
    (h : decode encoded index = .ok P) (hQ : START_BYTE ∉ encoded) :
    P.count START_BYTE = index := by
  have := decodeLoop_count _ _ _ _ _ h hQ
  simpa using this

/-! ## The decoder against the decode contract -/

theorem decodeLoop_nil (fuel index : Nat) (dec : List Nat) :
    decodeLoop fuel [] index dec = if index ≠ 0 then .error .indexMismatch else .ok dec := by
  cases fuel <;> rfl

theorem decodeLoop_parses {Q P : List Nat} {n : Nat} (h : Parses Q P n) :
    ∀ (fuel idx : Nat) (dec : List Nat), Q.length ≤ fuel →
      decodeLoop fuel Q idx dec =
        if idx < n then .error .unexpectedStartByte
        else if n < idx then .error .indexMismatch
        else .ok (dec ++ P) := by
  induction h with
  | nil =>
    intro fuel idx dec _
    rw [decodeLoop_nil]
    by_cases h0 : idx = 0
    · simp [h0]
    · have : 0 < idx := by omega
      simp [h0, this]
  | last run =>
    intro fuel idx dec hf
    obtain ⟨f, rfl⟩ : ∃ f, fuel = f + 1 := ⟨fuel - 1, by simp at hf; omega⟩
    have hc := copyRun_append run [] dec
    rw [List.append_nil] at hc
    simp only [decodeLoop, Nat.add_one_ne_zero, if_false, Nat.add_sub_cancel, hc, ne_eq,
      not_true_eq_false, and_false, decodeLoop_nil]
    by_cases h0 : idx = 0
    · simp [h0]
    · have : 0 < idx := by omega
      simp [h0, this]
  | start run rest P n hcode hrest _ ih =>
    intro fuel idx dec hf
    obtain ⟨f, rfl⟩ : ∃ f, fuel = f + 1 := ⟨fuel - 1, by simp at hf; omega⟩
    have hf' : rest.length ≤ f := by simp at hf; omega
    simp only [decodeLoop, Nat.add_one_ne_zero, if_false, Nat.add_sub_cancel,
      copyRun_append, hcode, hrest, ne_eq, not_false_eq_true, and_self, if_true]
    by_cases h0 : idx = 0
    · simp [h0]
    · rw [if_neg h0, ih f (idx - 1) _ hf']
      by_cases h1 : idx - 1 < n
      · have : idx < n + 1 := by omega
        simp [h1, this]
      · have h1' : ¬ idx < n + 1 := by omega
        rw [if_neg h1, if_neg h1']
        by_cases h2 : n < idx - 1
        · have : n + 1 < idx := by omega
          simp [h2, this]
        · have h2' : ¬ n + 1 < idx := by omega
          rw [if_neg h2, if_neg h2']
          simp
  | full run rest P n hcode hrest _ ih =>
    intro fuel idx dec hf
    obtain ⟨f, rfl⟩ : ∃ f, fuel = f + 1 := ⟨fuel - 1, by simp at hf; omega⟩
    have hf' : rest.length ≤ f := by simp at hf; omega
    have hcode' : ¬ run.length + 1 < 255 := by omega
    simp only [decodeLoop, Nat.add_one_ne_zero, if_false, Nat.add_sub_cancel,
      copyRun_append, hcode', false_and]
    rw [ih f idx _ hf']
    simp

theorem copyRun_short (n : Nat) (rest dec : List Nat) (h : rest.length < n) :
    copyRun n rest dec = .error .notEnoughBytes := by
  induction n generalizing rest dec with
  | zero => simp at h
  | succ n ih =>
    cases rest with
    | nil => rfl
    | cons b rest =>
      simp only [copyRun]
      exact ih _ _ (by simpa using h)

theorem decodeLoop_malformed {Q : List Nat} (h : Malformed Q) :
    ∀ (fuel idx : Nat) (dec : List Nat), Q.length ≤ fuel →
      ∃ e, decodeLoop fuel Q idx dec = .error e := by
  induction h with
  | zeroCode rest =>
    intro fuel idx dec hf
    obtain ⟨f, rfl⟩ : ∃ f, fuel = f + 1 := ⟨fuel - 1, by simp at hf; omega⟩
    exact ⟨.zeroCode, by simp [decodeLoop]⟩
  | truncated code rest hlen =>
    intro fuel idx dec hf
    obtain ⟨f, rfl⟩ : ∃ f, fuel = f + 1 := ⟨fuel - 1, by simp at hf; omega⟩
    have hc0 : code ≠ 0 := by omega
    refine ⟨.notEnoughBytes, ?_⟩
    simp only [decodeLoop, hc0, if_false, copyRun_short (code - 1) rest dec (by omega)]
  | later run rest _ ih =>
    intro fuel idx dec hf
    obtain ⟨f, rfl⟩ : ∃ f, fuel = f + 1 := ⟨fuel - 1, by simp at hf; omega⟩
    have hf' : rest.length ≤ f := by simp at hf; omega
    simp only [decodeLoop, Nat.add_one_ne_zero, if_false, Nat.add_sub_cancel, copyRun_append]
    split
    · split
      · exact ⟨_, rfl⟩
      · exact ih f _ _ hf'
    · exact ih f _ _ hf'

/-- `encode` on a run of start bytes: one code byte `1` per start byte and a
last one, and the 8-bit count of the start bytes. -/
theorem foldl_encodeStep_replicate_start (n : Nat) :
    (List.replicate n START_BYTE).foldl encodeStep encodeInit
      = { encoded := List.replicate n 1 ++ [0], code_ptr := n, code := 1, index := n % 256 } := by
  induction n with
  | zero => rfl
  | succ n ih =>
    rw [List.replicate_succ', List.foldl_append, ih]
    have hs := set_placeholder (List.replicate n 1) [] 0 1
    rw [List.length_replicate] at hs
    simp only [List.foldl_cons, List.foldl_nil, encodeStep, if_true, hs]
    have e : List.replicate n 1 ++ [1] = List.replicate (n + 1) 1 := by
      rw [List.replicate_succ']
    rw [e]
    simp

theorem encode_replicate_start (n : Nat) :
    encode (List.replicate n START_BYTE)
      = .ok { encodedPayload := List.replicate (n + 1) 1, index := n % 256 } := by
  have hs := set_placeholder (List.replicate n 1) [] 0 1
  rw [List.length_replicate] at hs
  have e : List.replicate n 1 ++ [1] = List.replicate (n + 1) 1 := by
    rw [List.replicate_succ']
  simp only [encode, foldl_encodeStep_replicate_start, hs, e]
  rw [if_neg]
  simp [START_BYTE]

theorem parses_or_malformed_aux (m : Nat) :
    ∀ Q : List Nat, Q.length ≤ m → (∃ P n, Parses Q P n) ∨ Malformed Q := by
  induction m with
  | zero =>
    intro Q hlen
    have : Q = [] := List.length_eq_zero.mp (by omega)
    subst this
    exact Or.inl ⟨[], 0, Parses.nil⟩
  | succ m ih =>
    intro Q hlen
    cases Q with
    | nil => exact Or.inl ⟨[], 0, Parses.nil⟩
    | cons c rest =>
      by_cases hc0 : c = 0
      · subst hc0; exact Or.inr (Malformed.zeroCode rest)
      by_cases htr : rest.length + 1 < c
      · exact Or.inr (Malformed.truncated c rest htr)
      have hsplit : rest = rest.take (c - 1) ++ rest.drop (c - 1) := (List.take_append_drop _ _).symm
      have htake : (rest.take (c - 1)).length = c - 1 := by
        rw [List.length_take]; omega
      have hc : c = (rest.take (c - 1)).length + 1 := by omega
      by_cases hnil : rest.drop (c - 1) = []
      · left
        rw [hnil, List.append_nil] at hsplit
        refine ⟨rest, 0, ?_⟩
        have := Parses.last rest
        rw [← hsplit] at hc
        rw [hc]
        exact this
      · have hshort : (rest.drop (c - 1)).length ≤ m := by
          rw [List.length_drop]
          simp only [List.length_cons] at hlen
          omega
        rcases ih (rest.drop (c - 1)) hshort with ⟨P, n, hP⟩ | hM
        · left
          by_cases hff : c < 0xFF
          · refine ⟨rest.take (c - 1) ++ START_BYTE :: P, n + 1, ?_⟩
            have := Parses.start (rest.take (c - 1)) (rest.drop (c - 1)) P n (by omega) hnil hP
            rw [← hc, ← hsplit] at this
            exact this
          · refine ⟨rest.take (c - 1) ++ P, n, ?_⟩
            have := Parses.full (rest.take (c - 1)) (rest.drop (c - 1)) P n (by omega) hnil hP
            rw [← hc, ← hsplit] at this
            exact this
        · right
          have := Malformed.later (rest.take (c - 1)) (rest.drop (c - 1)) hM
          rw [← hc, ← hsplit] at this
          exact this

/-- The decode contract is exhaustive: every sequence is a sequence of complete
runs or is malformed. -/
theorem parses_or_malformed (Q : List Nat) : (∃ P n, Parses Q P n) ∨ Malformed Q :=
  parses_or_malformed_aux Q.length Q (Nat.le_refl _)

end COBS
namespace Packet

open Checksum

/-! ## The frame codec -/

/-- The length byte written by `assemble` for a payload of at most 28 bytes:
the masks and the 8-bit truncation change nothing, the fields read back by
`disassemble` are the ones written, the byte is not the start byte, and
inverting any one of its bits breaks the length checksum. -/
theorem lengthByte_facts : ∀ n < 29,
    (((n % 256 &&& 0x3F) <<< 2) ||| (calculate2BitChecksum (n % 256) &&& 0x03)) % 256
        = (n <<< 2) ||| calculate2BitChecksum n ∧
      (((n <<< 2) ||| calculate2BitChecksum n) >>> 2) &&& 0x3F = n ∧
      ((n <<< 2) ||| calculate2BitChecksum n) &&& 0x03 = calculate2BitChecksum n ∧
      ((n <<< 2) ||| calculate2BitChecksum n) ≠ START_BYTE ∧
      ∀ bit < 8,
        (((n <<< 2) ||| calculate2BitChecksum n) ^^^ (1 <<< bit)) &&& 0x03 ≠
          calculate2BitChecksum
            (((((n <<< 2) ||| calculate2BitChecksum n) ^^^ (1 <<< bit)) >>> 2) &&& 0x3F) := by
  decide

/-- The COBS byte written by `assemble` for an index of at most 28 and a 2-bit
checksum `c`: the masks change nothing, the fields read back are the ones
written, and the byte is not the start byte. -/
theorem cobsByte_facts : ∀ idx < 29, ∀ c < 4,
    (((idx &&& 0x3F) <<< 2) ||| ((c &&& 0x03) &&& 0x03)) % 256 = (idx <<< 2) ||| c ∧
      (((idx <<< 2) ||| c) >>> 2) &&& 0x3F = idx ∧
      ((idx <<< 2) ||| c) &&& 0x03 = c ∧
      ((idx <<< 2) ||| c) ≠ START_BYTE := by
  decide

/-- Inverting one of the two low bits of the COBS byte changes its checksum field. -/
theorem cobsByte_flip_low : ∀ idx < 29, ∀ c < 4, ∀ bit < 2,
    (((idx <<< 2) ||| c) ^^^ (1 <<< bit)) &&& 0x03 ≠ c := by
  decide

/-- Inverting one of the six high bits of the COBS byte changes its index field
and leaves its checksum field alone. -/
theorem cobsByte_flip_high : ∀ idx < 29, ∀ c < 4, ∀ bit < 6,
    (((idx <<< 2) ||| c) ^^^ (1 <<< (bit + 2))) &&& 0x03 = c ∧
      ((((idx <<< 2) ||| c) ^^^ (1 <<< (bit + 2))) >>> 2) &&& 0x3F ≠ idx := by
  decide

open Checksum

/-- `disassemble` on an input of at least four bytes, written as the three
leading bytes, the stuffed payload `Q` and the trailing byte `c`. -/
theorem disassemble_frame (a lb cb c : Nat) (Q : List Nat) :
    disassemble (a :: lb :: cb :: (Q ++ [c])) =
      if a ≠ START_BYTE then .error .invalidStartByte
      else if lb &&& 0x03 ≠ calculate2BitChecksum ((lb >>> 2) &&& 0x3F) then
        .error .invalidLengthChecksum
      else if cb &&& 0x03 ≠ calculate2BitChecksumSpan Q &&& 0x03 then
        .error .invalidCobsChecksum
      else
        match COBS.decode Q ((cb >>> 2) &&& 0x3F) with
        | .error e => .error e
        | .ok payload =>
          if payload.length ≠ (lb >>> 2) &&& 0x3F then .error .lengthMismatch
          else if c ≠ calculateCRC8 payload then .error .invalidPayloadChecksum
          else
            .ok { payloadLength := (lb >>> 2) &&& 0x3F,
                  payloadLengthChecksum := lb &&& 0x03,
                  cobsIndex := (cb >>> 2) &&& 0x3F, cobsChecksum := cb &&& 0x03,
                  payload := payload, checksum := c } := by
  have hlen : ¬ ((a :: lb :: cb :: (Q ++ [c])).length < 4) := by simp
  have hlen2 : ¬ ((a :: lb :: cb :: (Q ++ [c])).length - 1 < 3) := by
    simp
  have hQ : ((a :: lb :: cb :: (Q ++ [c])).take ((a :: lb :: cb :: (Q ++ [c])).length - 1)).drop 3
      = Q := by
    have e : (a :: lb :: cb :: (Q ++ [c])).length - 1 = Q.length + 3 := by
      simp
    rw [e]
    simp [List.take_append]
  have hc : (a :: lb :: cb :: (Q ++ [c])).getD ((a :: lb :: cb :: (Q ++ [c])).length - 1) 0
      = c := by
    have e : (a :: lb :: cb :: (Q ++ [c])).length - 1 = Q.length + 3 := by
      simp
    rw [e]
    simp [List.getD_append_right]
  unfold disassemble
  rw [if_neg hlen]
  simp only [hlen2, if_false, hQ, hc]
  rfl

theorem fromPayload_ok (P : List Nat) (h : P.length ≤ 28) :
    fromPayload P = .ok { payloadLength := P.length % 256,
                          payloadLengthChecksum := calculate2BitChecksum (P.length % 256),
                          cobsIndex := 0, cobsChecksum := 0, payload := P, checksum := 0 } := by
  unfold fromPayload
  rw [if_neg (by simp only [MAX_PAYLOAD_LENGTH]; omega)]

end Packet

/-- The frame of a payload of at most 28 bytes, in terms of the result of
`COBS::encode`. -/
theorem frameOf_eq (P : List Nat) (h : P.length ≤ 28) {r : COBS.COBSResult}
    (henc : COBS.encode P = .ok r) :
    frameOf P = .ok (START_BYTE
      :: ((P.length <<< 2) ||| Checksum.calculate2BitChecksum P.length)
      :: ((r.index <<< 2) ||| Checksum.calculate2BitChecksumSpan r.encodedPayload)
      :: (r.encodedPayload ++ [Checksum.calculateCRC8 P])) := by
  have hidx : r.index < 29 := by
    rw [COBS.encode_index henc]
    have := List.count_le_length START_BYTE P
    omega
  have hno : (r.encodedPayload.any fun byte => byte == START_BYTE) = false := by
    have := COBS.encode_no_start henc
    simp only [List.any_eq_false, beq_iff_eq]
    intro x hx hxs
    exact this (hxs ▸ hx)
  have h1 := (Packet.lengthByte_facts P.length (by omega)).1
  have h2 := (Packet.cobsByte_facts r.index hidx _
    (Checksum.calculate2BitChecksumSpan_lt r.encodedPayload)).1
  simp only [frameOf, Packet.fromPayload_ok P h, Except.bind, Packet.assemble, henc, hno,
    h1, h2]
  simp

open Checksum

/-- `disassemble` never reports the loop budget of the decoder. -/
theorem disassemble_ne_outOfFuel (data : List Nat) :
    Packet.disassemble data ≠ .error .outOfFuel := by
  unfold Packet.disassemble
  simp only
  repeat' split
  all_goals first
    | (rename_i e hd
       intro h
       simp only [Except.error.injEq] at h
       subst h
       exact COBS.decode_ne_outOfFuel _ _ hd)
    | (intro h; cases h)

/-- The frame of a payload of at most 28 bytes exists and `disassemble` maps it
back to a packet with that payload. -/
theorem disassemble_frameOf (P : List Nat) (h : P.length ≤ 28) :
    ∃ r frame pkt, COBS.encode P = .ok r ∧ frameOf P = .ok frame ∧
      frame = START_BYTE
        :: ((P.length <<< 2) ||| calculate2BitChecksum P.length)
        :: ((r.index <<< 2) ||| calculate2BitChecksumSpan r.encodedPayload)
        :: (r.encodedPayload ++ [calculateCRC8 P]) ∧
      r.index = P.count START_BYTE ∧ r.index < 29 ∧
      Packet.disassemble frame = .ok pkt ∧ pkt.payload = P ∧ pkt.payloadLength = P.length := by
  obtain ⟨r, henc⟩ := COBS.encode_ok_of_short P (by omega)
  have hcnt := List.count_le_length START_BYTE P
  have hidx : r.index = P.count START_BYTE := by
    rw [COBS.encode_index henc]; omega
  have hidx' : r.index < 29 := by omega
  obtain ⟨-, l2, l3, -, -⟩ := Packet.lengthByte_facts P.length (by omega)
  obtain ⟨-, c2, c3, -⟩ := Packet.cobsByte_facts r.index hidx' _
    (calculate2BitChecksumSpan_lt r.encodedPayload)
  have hdec := COBS.decode_encode henc
  rw [← hidx] at hdec
  have hm : calculate2BitChecksumSpan r.encodedPayload &&& 3
      = calculate2BitChecksumSpan r.encodedPayload := by
    have := calculate2BitChecksumSpan_lt r.encodedPayload
    generalize calculate2BitChecksumSpan r.encodedPayload = c at this
    interval_cases c <;> rfl
  refine ⟨r, _,
    { payloadLength := P.length, payloadLengthChecksum := calculate2BitChecksum P.length,
      cobsIndex := r.index,
      cobsChecksum := calculate2BitChecksumSpan r.encodedPayload,
      payload := P, checksum := calculateCRC8 P },
    henc, frameOf_eq P h henc, rfl, hidx, hidx', ?_, rfl, rfl⟩
  rw [Packet.disassemble_frame]
  simp only [l2, l3, c2, c3, hm, hdec, ne_eq, not_true_eq_false, if_false]

open Checksum

/-- In the frame of a payload of at most 28 bytes the first byte is the start
byte and no byte after it, up to but excluding the trailing CRC, is. -/
theorem frameOf_bytes (P : List Nat) (h : P.length ≤ 28) :
    ∃ frame, frameOf P = .ok frame ∧ frame.getD 0 0 = START_BYTE ∧
      frame.getD 1 0 ≠ START_BYTE ∧
      ∀ i, 1 < i → i < frame.length - 1 → frame.getD i 0 ≠ START_BYTE := by
  obtain ⟨r, frame, pkt, henc, hframe, hshape, -, hidx, -, -, -⟩ := disassemble_frameOf P h
  refine ⟨frame, hframe, ?_, ?_, ?_⟩
  · rw [hshape]; rfl
  · rw [hshape]
    exact (Packet.lengthByte_facts P.length (by omega)).2.2.2.1
  · intro i h1 h2
    rw [hshape] at h2 ⊢
    obtain ⟨j, rfl⟩ : ∃ j, i = j + 2 := ⟨i - 2, by omega⟩
    cases j with
    | zero =>
      exact (Packet.cobsByte_facts r.index hidx _
        (calculate2BitChecksumSpan_lt r.encodedPayload)).2.2.2
    | succ j =>
      have hj : j < r.encodedPayload.length := by
        simp only [List.length_cons, List.length_append, List.length_nil] at h2
        omega
      simp only [List.getD_cons_succ]
      rw [List.getD_append _ _ _ _ hj, List.getD_eq_getElem _ _ hj]
      intro hAA
      exact COBS.encode_no_start henc (hAA ▸ List.getElem_mem _)

open Checksum

theorem calculate2BitChecksumSpan_and (Q : List Nat) :
    calculate2BitChecksumSpan Q &&& 0x03 = calculate2BitChecksumSpan Q := by
  have := calculate2BitChecksumSpan_lt Q
  generalize calculate2BitChecksumSpan Q = c at this
  interval_cases c <;> rfl

theorem xor_bit_ne (a bit : Nat) : a ^^^ (1 <<< bit) ≠ a := by
  intro h
  have h1 : a ^^^ (a ^^^ (1 <<< bit)) = 1 <<< bit := Nat.xor_cancel_left _ _
  rw [h, Nat.xor_self, Nat.one_shiftLeft] at h1
  exact absurd h1.symm (by positivity)

/-- A failure of `disassemble` is one of the exceptions of the source. -/
theorem disassemble_fails {data : List Nat} {e : Exn} (h : Packet.disassemble data = .error e) :
    ∃ e, e ≠ Exn.outOfFuel ∧ Packet.disassemble data = .error e :=
  ⟨e, fun he => disassemble_ne_outOfFuel data (he ▸ h), h⟩

/-- Inverting one bit of the length byte of a frame makes `disassemble` fail. -/
theorem flip_length_byte (n : Nat) (hn : n < 29) (cb c : Nat) (Q : List Nat) (bit : Nat)
    (hbit : bit < 8) :
    Packet.disassemble (START_BYTE
        :: (((n <<< 2) ||| calculate2BitChecksum n) ^^^ (1 <<< bit)) :: cb :: (Q ++ [c]))
      = .error .invalidLengthChecksum := by
  have hflip := (Packet.lengthByte_facts n hn).2.2.2.2 bit hbit
  rw [Packet.disassemble_frame, if_neg (by simp), if_pos hflip]

/-- Inverting one bit of the COBS byte of a frame makes `disassemble` fail. -/
theorem flip_cobs_byte (lb idx : Nat) (hidx : idx < 29) (c : Nat) (Q P : List Nat)
    (hlb : lb &&& 0x03 = calculate2BitChecksum ((lb >>> 2) &&& 0x3F))
    (hdec : COBS.decode Q idx = .ok P) (bit : Nat) (hbit : bit < 8) :
    ∃ e, Packet.disassemble (START_BYTE :: lb
        :: (((idx <<< 2) ||| calculate2BitChecksumSpan Q) ^^^ (1 <<< bit)) :: (Q ++ [c]))
      = .error e := by
  rw [Packet.disassemble_frame, if_neg (by simp), if_neg (by simpa using hlb)]
  by_cases hlow : bit < 2
  · have hflip := Packet.cobsByte_flip_low idx hidx _ (calculate2BitChecksumSpan_lt Q) bit hlow
    rw [calculate2BitChecksumSpan_and, if_pos hflip]
    exact ⟨_, rfl⟩
  · obtain ⟨k, rfl⟩ : ∃ k, bit = k + 2 := ⟨bit - 2, by omega⟩
    obtain ⟨h1, h2⟩ := Packet.cobsByte_flip_high idx hidx _ (calculate2BitChecksumSpan_lt Q) k
      (by omega)
    rw [calculate2BitChecksumSpan_and, if_neg (by simpa using h1)]
    obtain ⟨e, he⟩ := COBS.decode_index_unique hdec h2
    rw [he]
    exact ⟨_, rfl⟩

/-- Inverting one bit of the stuffed payload of a frame makes `disassemble` fail. -/
theorem flip_stuffed_byte (lb idx : Nat) (hidx : idx < 29) (c : Nat) (Q : List Nat)
    (hlb : lb &&& 0x03 = calculate2BitChecksum ((lb >>> 2) &&& 0x3F))
    (j bit : Nat) (hj : j < Q.length) (hbit : bit < 8) :
    Packet.disassemble (START_BYTE :: lb :: ((idx <<< 2) ||| calculate2BitChecksumSpan Q)
        :: (Q.set j (Q.getD j 0 ^^^ (1 <<< bit)) ++ [c]))
      = .error .invalidCobsChecksum := by
  obtain ⟨-, -, h3, -⟩ := Packet.cobsByte_facts idx hidx _ (calculate2BitChecksumSpan_lt Q)
  have hne := calculate2BitChecksumSpan_flip Q j bit hj hbit
  rw [Packet.disassemble_frame, if_neg (by simp), if_neg (by simpa using hlb),
    calculate2BitChecksumSpan_and, h3, if_pos (fun h => hne h.symm)]

/-- Inverting one bit of the trailing CRC byte of a frame makes `disassemble` fail. -/
theorem flip_crc_byte (lb idx : Nat) (hidx : idx < 29) (Q P : List Nat)
    (hlb : lb &&& 0x03 = calculate2BitChecksum ((lb >>> 2) &&& 0x3F))
    (hdec : COBS.decode Q idx = .ok P) (bit : Nat) :
    ∃ e, Packet.disassemble (START_BYTE :: lb :: ((idx <<< 2) ||| calculate2BitChecksumSpan Q)
        :: (Q ++ [calculateCRC8 P ^^^ (1 <<< bit)]))
      = .error e := by
  obtain ⟨-, h2, h3, -⟩ := Packet.cobsByte_facts idx hidx _ (calculate2BitChecksumSpan_lt Q)
  rw [Packet.disassemble_frame, if_neg (by simp), if_neg (by simpa using hlb),
    calculate2BitChecksumSpan_and, h3, if_neg (by simp), h2, hdec]
  simp only
  split
  · exact ⟨_, rfl⟩
  · rw [if_pos (xor_bit_ne _ _)]
    exact ⟨_, rfl⟩

/-- The frame with one bit inverted, by the region the bit lies in. -/
theorem flipBit_frame (a lb cb c : Nat) (Q : List Nat) (pos bit : Nat) (hpos : 1 ≤ pos)
    (hlt : pos < (a :: lb :: cb :: (Q ++ [c])).length) :
    (pos = 1 ∧ flipBit (a :: lb :: cb :: (Q ++ [c])) pos bit
        = a :: (lb ^^^ (1 <<< bit)) :: cb :: (Q ++ [c])) ∨
    (pos = 2 ∧ flipBit (a :: lb :: cb :: (Q ++ [c])) pos bit
        = a :: lb :: (cb ^^^ (1 <<< bit)) :: (Q ++ [c])) ∨
    (∃ j, j < Q.length ∧ pos = j + 3 ∧ flipBit (a :: lb :: cb :: (Q ++ [c])) pos bit
        = a :: lb :: cb :: (Q.set j (Q.getD j 0 ^^^ (1 <<< bit)) ++ [c])) ∨
    (pos = Q.length + 3 ∧ flipBit (a :: lb :: cb :: (Q ++ [c])) pos bit
        = a :: lb :: cb :: (Q ++ [c ^^^ (1 <<< bit)])) := by
  simp only [List.length_cons, List.length_append, List.length_nil] at hlt
  obtain ⟨p, rfl⟩ : ∃ p, pos = p + 1 := ⟨pos - 1, by omega⟩
  cases p with
  | zero => left; exact ⟨rfl, rfl⟩
  | succ p =>
    cases p with
    | zero => right; left; exact ⟨rfl, rfl⟩
    | succ j =>
      right; right
      by_cases hj : j < Q.length
      · left
        refine ⟨j, hj, rfl, ?_⟩
        simp only [flipBit, List.set_cons_succ, List.getD_cons_succ]
        rw [List.getD_append _ _ _ _ hj, List.set_append_left _ _ hj]
      · right
        have hj' : j = Q.length := by omega
        subst hj'
        refine ⟨rfl, ?_⟩
        simp only [flipBit, List.set_cons_succ, List.getD_cons_succ]
        rw [List.getD_append_right _ _ _ _ (Nat.le_refl _),
          List.set_append_right _ _ (Nat.le_refl _)]
        simp

/-! ## The claims -/


open Checksum

/-- Claim C1: for every byte sequence `P` of at most 28 bytes, constructing a
packet from `P`, assembling it and disassembling the result succeeds and yields a
packet whose payload is `P` and whose payload length is the length of `P`. -/
theorem packet_assemble_disassemble (P : List Nat) (h : P.length ≤ 28) :
    ∃ pkt frame pkt', Packet.fromPayload P = .ok pkt ∧ pkt.assemble = .ok frame ∧
      Packet.disassemble frame = .ok pkt' ∧
      pkt'.getPayload = P ∧ pkt'.getPayloadLength = P.length := by
  obtain ⟨r, frame, pkt', -, hframe, -, -, -, hdis, hp, hl⟩ := disassemble_frameOf P h
  refine ⟨_, frame, pkt', Packet.fromPayload_ok P h, ?_, hdis, hp, hl⟩
  simpa only [frameOf, Packet.fromPayload_ok P h, Except.bind] using hframe

theorem packet_assemble_disassemble_witness :
    [0x01, 0xAA, 0x03].length ≤ 28 ∧
      ∃ pkt frame pkt', Packet.fromPayload [0x01, 0xAA, 0x03] = .ok pkt ∧
        pkt.assemble = .ok frame ∧ Packet.disassemble frame = .ok pkt' ∧
        pkt'.getPayload = [0x01, 0xAA, 0x03] ∧
        pkt'.getPayloadLength = [0x01, 0xAA, 0x03].length :=
  ⟨by decide, packet_assemble_disassemble [0x01, 0xAA, 0x03] (by decide)⟩

/-- Claim C3: for every payload `P` of at most 28 bytes, no byte of the
assembled frame at an offset `i` with `1 < i < len - 1` (the stuffing byte and
the stuffed payload) equals the start byte `0xAA`. -/
theorem frame_stuffed_region_no_start_byte (P : List Nat) (h : P.length ≤ 28) :
    ∃ frame, frameOf P = .ok frame ∧
      ∀ i, 1 < i → i < frame.length - 1 → frame.getD i 0 ≠ 0xAA := by
  obtain ⟨frame, hframe, -, -, hmid⟩ := frameOf_bytes P h
  exact ⟨frame, hframe, hmid⟩

theorem frame_stuffed_region_no_start_byte_witness :
    [0x01, 0xAA, 0x03].length ≤ 28 ∧
      ∃ frame, frameOf [0x01, 0xAA, 0x03] = .ok frame ∧
        ∀ i, 1 < i → i < frame.length - 1 → frame.getD i 0 ≠ 0xAA :=
  ⟨by decide, frame_stuffed_region_no_start_byte [0x01, 0xAA, 0x03] (by decide)⟩

/-- Claim C4 is false as stated: the payload `[0x8D]` has CRC-8 `0xAA`, so the
trailing byte (offset 5) of its frame is the start byte. -/
theorem frame_crc_byte_start_byte :
    [0x8D].length ≤ 28 ∧ frameOf [0x8D] = .ok [0xAA, 0x05, 0x01, 0x02, 0x8D, 0xAA] ∧
      (1 ≤ 5 ∧ 5 < [0xAA, 0x05, 0x01, 0x02, 0x8D, 0xAA].length ∧
        [0xAA, 0x05, 0x01, 0x02, 0x8D, 0xAA].getD 5 0 = 0xAA) := by
  decide

/-- Claim C4, amended: for every payload `P` of at most 28 bytes the frame
starts with `0xAA` and every byte at an offset `i` with `1 ≤ i < len - 1` (the
length byte, the stuffing byte and the stuffed payload) differs from `0xAA`;
nothing is said of the trailing CRC byte. -/
theorem frame_no_start_byte_before_crc (P : List Nat) (h : P.length ≤ 28) :
    ∃ frame, frameOf P = .ok frame ∧ frame.getD 0 0 = 0xAA ∧
      ∀ i, 1 ≤ i → i < frame.length - 1 → frame.getD i 0 ≠ 0xAA := by
  obtain ⟨frame, hframe, h0, h1, hmid⟩ := frameOf_bytes P h
  refine ⟨frame, hframe, h0, ?_⟩
  intro i hi hlt
  by_cases hi1 : i = 1
  · subst hi1; exact h1
  · exact hmid i (by omega) hlt

theorem frame_no_start_byte_before_crc_witness :
    [0x8D].length ≤ 28 ∧
      ∃ frame, frameOf [0x8D] = .ok frame ∧ frame.getD 0 0 = 0xAA ∧
        ∀ i, 1 ≤ i → i < frame.length - 1 → frame.getD i 0 ≠ 0xAA :=
  ⟨by decide, frame_no_start_byte_before_crc [0x8D] (by decide)⟩

/-- Claim C9: `COBS::encode([0x01, 0x02, 0xAA, 0x03, 0x04])` returns
`Q = [0x03, 0x01, 0x02, 0x03, 0x03, 0x04]` with index 1, and `COBS::decode` of
that `Q` with index 1 returns `[0x01, 0x02, 0xAA, 0x03, 0x04]`. -/
theorem cobs_embedded_start_byte_scenario :
    COBS.encode [0x01, 0x02, 0xAA, 0x03, 0x04]
        = .ok { encodedPayload := [0x03, 0x01, 0x02, 0x03, 0x03, 0x04], index := 1 } ∧
      COBS.decode [0x03, 0x01, 0x02, 0x03, 0x03, 0x04] 1
        = .ok [0x01, 0x02, 0xAA, 0x03, 0x04] := by
  decide

/-- Claim C10: for every payload `P` of at most 28 bytes, with
`(Q, idx) = COBS::encode(P)`, the assembled frame is
`[0xAA, (|P| << 2) | popcount_mod4(|P|), (idx << 2) | popcount_mod4(Q)] ++ Q ++ [crc8(P)]`,
the checksums being those of `Checksum`; in particular the frame of the empty
payload is `[0xAA, 0x00, 0x01, 0x01, 0x00]`. -/
theorem frame_layout (P : List Nat) (h : P.length ≤ 28) :
    (∃ Q idx, COBS.encode P = .ok { encodedPayload := Q, index := idx } ∧
      frameOf P = .ok ([0xAA, (P.length <<< 2) ||| calculate2BitChecksum P.length,
        (idx <<< 2) ||| calculate2BitChecksumSpan Q] ++ Q ++ [calculateCRC8 P])) ∧
      frameOf [] = .ok [0xAA, 0x00, 0x01, 0x01, 0x00] := by
  obtain ⟨r, frame, -, henc, hframe, hshape, -, -, -, -, -⟩ := disassemble_frameOf P h
  refine ⟨⟨r.encodedPayload, r.index, henc, ?_⟩, by decide⟩
  rw [hframe, hshape]
  rfl

theorem frame_layout_witness :
    [0x01, 0x02, 0x03, 0x04, 0x05].length ≤ 28 ∧
      ((∃ Q idx, COBS.encode [0x01, 0x02, 0x03, 0x04, 0x05]
            = .ok { encodedPayload := Q, index := idx } ∧
          frameOf [0x01, 0x02, 0x03, 0x04, 0x05]
            = .ok ([0xAA, ([0x01, 0x02, 0x03, 0x04, 0x05].length <<< 2)
                    ||| calculate2BitChecksum [0x01, 0x02, 0x03, 0x04, 0x05].length,
                (idx <<< 2) ||| calculate2BitChecksumSpan Q] ++ Q
                ++ [calculateCRC8 [0x01, 0x02, 0x03, 0x04, 0x05]])) ∧
        frameOf [] = .ok [0xAA, 0x00, 0x01, 0x01, 0x00]) :=
  ⟨by decide, frame_layout [0x01, 0x02, 0x03, 0x04, 0x05] (by decide)⟩

open Checksum

/-- Claim C2: for every payload `P` of at most 28 bytes and every single bit of
the assembled frame outside the leading start byte (offset `pos ≥ 1`, bit number
`bit < 8`), `Packet::disassemble` of the frame with exactly that bit inverted
fails with one of the exceptions of the source. -/
theorem single_bit_flip_detected (P : List Nat) (h : P.length ≤ 28) (frame : List Nat)
    (hframe : frameOf P = .ok frame) (pos bit : Nat) (hpos : 1 ≤ pos)
    (hlt : pos < frame.length) (hbit : bit < 8) :
    ∃ e, e ≠ Exn.outOfFuel ∧ Packet.disassemble (flipBit frame pos bit) = .error e := by
  obtain ⟨r, frame', pkt, henc, hframe', hshape, hidx, hidx', -, -, -⟩ := disassemble_frameOf P h
  have hff : frame = frame' := by
    rw [hframe] at hframe'
    exact Except.ok.inj hframe'
  have hdec := COBS.decode_encode henc
  rw [← hidx] at hdec
  obtain ⟨-, l2, l3, -, -⟩ := Packet.lengthByte_facts P.length (by omega)
  have hlb : ((P.length <<< 2) ||| calculate2BitChecksum P.length) &&& 0x03
      = calculate2BitChecksum
          ((((P.length <<< 2) ||| calculate2BitChecksum P.length) >>> 2) &&& 0x3F) := by
    rw [l2, l3]
  rw [hff, hshape] at hlt ⊢
  rcases flipBit_frame _ _ _ _ _ pos bit hpos hlt with
    ⟨-, hfl⟩ | ⟨-, hfl⟩ | ⟨j, hj, -, hfl⟩ | ⟨-, hfl⟩
  · rw [hfl]
    exact disassemble_fails (flip_length_byte P.length (by omega) _ _ _ bit hbit)
  · rw [hfl]
    obtain ⟨e, he⟩ := flip_cobs_byte _ r.index hidx' (calculateCRC8 P) _ P hlb hdec bit hbit
    exact disassemble_fails he
  · rw [hfl]
    exact disassemble_fails (flip_stuffed_byte _ r.index hidx' _ _ hlb j bit hj hbit)
  · rw [hfl]
    obtain ⟨e, he⟩ := flip_crc_byte _ r.index hidx' _ P hlb hdec bit
    exact disassemble_fails he

theorem single_bit_flip_detected_witness :
    [0x01, 0xAA, 0x03].length ≤ 28 ∧
      frameOf [0x01, 0xAA, 0x03] = .ok [0xAA, 0x0E, 0x05, 0x02, 0x01, 0x02, 0x03, 0xF8] ∧
      1 ≤ 4 ∧ 4 < [0xAA, 0x0E, 0x05, 0x02, 0x01, 0x02, 0x03, 0xF8].length ∧ 0 < 8 ∧
      ∃ e, e ≠ Exn.outOfFuel ∧
        Packet.disassemble (flipBit [0xAA, 0x0E, 0x05, 0x02, 0x01, 0x02, 0x03, 0xF8] 4 0)
          = .error e :=
  ⟨by decide, by decide, by decide, by decide, by decide,
    single_bit_flip_detected [0x01, 0xAA, 0x03] (by decide)
      [0xAA, 0x0E, 0x05, 0x02, 0x01, 0x02, 0x03, 0xF8] (by decide) 4 0 (by decide) (by decide)
      (by decide)⟩

/-- Claim C6 fails on the code: on 256 bytes `0xAA` `COBS::encode` returns, and
the returned index is 0 although the input holds 256 bytes equal to `0xAA`: the
8-bit `index` counter has wrapped. -/
theorem encode_index_wraps :
    (List.replicate 256 0xAA).count 0xAA = 256 ∧
      COBS.encode (List.replicate 256 0xAA)
        = .ok { encodedPayload := List.replicate 257 0x01, index := 0 } :=
  ⟨List.count_replicate_self _ _, COBS.encode_replicate_start 256⟩

/-- Claim C7 is false as stated: 64 bytes `0xAA` are more than 63, yet
`COBS::encode` does not reject them and returns the index 64. -/
theorem encode_accepts_64_start_bytes :
    63 < (List.replicate 64 0xAA).count 0xAA ∧
      COBS.encode (List.replicate 64 0xAA)
        = .ok { encodedPayload := List.replicate 65 0x01, index := 64 } :=
  ⟨by rw [List.count_replicate_self]; decide, COBS.encode_replicate_start 64⟩

/-- Claim C7, amended: for every input with at most 63 bytes equal to `0xAA` on
which `COBS::encode` returns, the returned index is the number of those bytes
and so satisfies `idx ≤ 63`. -/
theorem encode_index_within_budget (P : List Nat) (r : COBS.COBSResult)
    (hcount : P.count 0xAA ≤ 63) (henc : COBS.encode P = .ok r) :
    r.index = P.count 0xAA ∧ r.index ≤ 63 := by
  have hidx : r.index = P.count START_BYTE := by
    rw [COBS.encode_index henc]
    exact Nat.mod_eq_of_lt (Nat.lt_of_le_of_lt hcount (by decide))
  exact ⟨hidx, hidx ▸ hcount⟩

theorem encode_index_within_budget_witness :
    [0xAA, 0x01, 0xAA, 0x02, 0xAA].count 0xAA ≤ 63 ∧
      COBS.encode [0xAA, 0x01, 0xAA, 0x02, 0xAA]
        = .ok { encodedPayload := [1, 2, 1, 2, 2, 1], index := 3 } ∧
      ((3 : Nat) = [0xAA, 0x01, 0xAA, 0x02, 0xAA].count 0xAA ∧ (3 : Nat) ≤ 63) :=
  ⟨by decide, by decide,
    encode_index_within_budget [0xAA, 0x01, 0xAA, 0x02, 0xAA]
      { encodedPayload := [1, 2, 1, 2, 2, 1], index := 3 } (by decide) (by decide)⟩

/-- Claim C8: for every byte sequence `Q` without a `0xAA` byte and every index
`idx`: if `COBS::decode(Q, idx)` succeeds with output `P` then `P` holds exactly
`idx` bytes equal to `0xAA`; when `Q` is a sequence of complete runs that emits
`n` implicit start bytes, `decode` succeeds for `idx = n` and fails for `n > idx`
and for `n < idx`; and `decode` fails when a code byte is 0 or a run extends
past the end of `Q`. -/
theorem decode_contract (Q : List Nat) (idx : Nat) (hQ : 0xAA ∉ Q) :
    (∀ P, COBS.decode Q idx = .ok P → P.count 0xAA = idx) ∧
      (∀ P n, COBS.Parses Q P n →
        (n = idx → COBS.decode Q idx = .ok P) ∧
        (idx < n → COBS.decode Q idx = .error .unexpectedStartByte) ∧
        (n < idx → COBS.decode Q idx = .error .indexMismatch)) ∧
      (COBS.Malformed Q → ∃ e, e ≠ Exn.outOfFuel ∧ COBS.decode Q idx = .error e) := by
  refine ⟨fun P hP => COBS.decode_count hP hQ, ?_, ?_⟩
  · intro P n hparse
    have h := COBS.decodeLoop_parses hparse Q.length idx [] (Nat.le_refl _)
    refine ⟨?_, ?_, ?_⟩
    · intro hn
      subst hn
      simpa [COBS.decode] using h
    · intro hn
      simpa [COBS.decode, hn] using h
    · intro hn
      have : ¬ idx < n := by omega
      simpa [COBS.decode, hn, this] using h
  · intro hmal
    obtain ⟨e, he⟩ := COBS.decodeLoop_malformed hmal Q.length idx [] (Nat.le_refl _)
    exact ⟨e, fun h => COBS.decode_ne_outOfFuel Q idx (h ▸ he), he⟩

theorem decode_contract_witness :
    0xAA ∉ [0x03, 0x01, 0x02, 0x03, 0x03, 0x04] ∧
      COBS.Parses [0x03, 0x01, 0x02, 0x03, 0x03, 0x04] [0x01, 0x02, 0xAA, 0x03, 0x04] 1 ∧
      ((∀ P, COBS.decode [0x03, 0x01, 0x02, 0x03, 0x03, 0x04] 1 = .ok P → P.count 0xAA = 1) ∧
        (∀ P n, COBS.Parses [0x03, 0x01, 0x02, 0x03, 0x03, 0x04] P n →
          (n = 1 → COBS.decode [0x03, 0x01, 0x02, 0x03, 0x03, 0x04] 1 = .ok P) ∧
          (1 < n → COBS.decode [0x03, 0x01, 0x02, 0x03, 0x03, 0x04] 1
            = .error .unexpectedStartByte) ∧
          (n < 1 → COBS.decode [0x03, 0x01, 0x02, 0x03, 0x03, 0x04] 1
            = .error .indexMismatch)) ∧
        (COBS.Malformed [0x03, 0x01, 0x02, 0x03, 0x03, 0x04] →
          ∃ e, e ≠ Exn.outOfFuel ∧
            COBS.decode [0x03, 0x01, 0x02, 0x03, 0x03, 0x04] 1 = .error e)) :=
  ⟨by decide,
    COBS.Parses.start [0x01, 0x02] [0x03, 0x03, 0x04] [0x03, 0x04] 0 (by decide) (by decide)
      (COBS.Parses.last [0x03, 0x04]),
    decode_contract [0x03, 0x01, 0x02, 0x03, 0x03, 0x04] 1 (by decide)⟩

/-! ## The specification's popcount -/

namespace Checksum

theorem digits_sum_eq (w : Nat) : ∀ n, n < 2 ^ w →
    (Nat.digits 2 n).sum = ((List.range w).map (fun i => n / 2 ^ i % 2)).sum := by
  induction w with
  | zero =>
    intro n hn
    have : n = 0 := by simpa using hn
    subst this
    simp
  | succ w ih =>
    intro n hn
    by_cases h0 : n = 0
    · subst h0; simp
    · have hpos : 0 < n := Nat.pos_of_ne_zero h0
      rw [Nat.digits_def' (by decide) hpos, List.sum_cons, ih (n / 2) (by omega)]
      rw [List.range_succ_eq_map, List.map_cons, List.sum_cons, List.map_map]
      have : ((fun i => n / 2 ^ i % 2) ∘ Nat.succ) = fun i => n / 2 / 2 ^ i % 2 := by
        funext i
        simp only [Function.comp, Nat.succ_eq_add_one, Nat.pow_succ, Nat.div_div_eq_div_mul]
        rw [Nat.mul_comm]
      rw [this]
      simp

/-- On a byte the specification's popcount is the count of the bit loop. -/
theorem popcount_eq_bitCount8 (b : Nat) (hb : b < 256) : popcount b = bitCount8 b := by
  have e : List.range 8 = [0, 1, 2, 3, 4, 5, 6, 7] := by decide
  rw [popcount, digits_sum_eq 8 b hb, bitCount8_testBit]
  simp only [e, List.map_cons, List.map_nil, List.sum_cons, List.sum_nil, Nat.toNat_testBit]
  omega

end Checksum

/-! ## What a successful `disassemble` tells -/

set_option maxRecDepth 100000 in
/-- The fields of a byte as `disassemble` reads them: the low two bits and the
six bits above them. -/
theorem byte_fields : ∀ b < 256, b &&& 0x03 = b % 4 ∧ (b >>> 2) &&& 0x3F = b / 4 := by
  decide

/-- Every check of `disassemble` holds on an input it accepts. -/
theorem disassemble_ok {data : List Nat} {pkt : Packet} (h : Packet.disassemble data = .ok pkt) :
    4 ≤ data.length ∧ data.getD 0 0 = START_BYTE ∧
      data.getD 1 0 &&& 0x03 = Checksum.calculate2BitChecksum ((data.getD 1 0 >>> 2) &&& 0x3F) ∧
      pkt.payloadLength = (data.getD 1 0 >>> 2) &&& 0x3F ∧
      COBS.decode ((data.take (data.length - 1)).drop 3) ((data.getD 2 0 >>> 2) &&& 0x3F)
        = .ok pkt.payload ∧
      pkt.payload.length = pkt.payloadLength ∧
      data.getD (data.length - 1) 0 = Checksum.calculateCRC8 pkt.payload := by
  unfold Packet.disassemble at h
  simp only at h
  split at h
  · cases h
  · rename_i h4
    split at h
    · cases h
    · rename_i h0
      split at h
      · cases h
      · rename_i hl
        split at h
        · cases h
        · split at h
          · cases h
          · split at h
            · cases h
            · rename_i payload hdec
              split at h
              · cases h
              · rename_i hlen
                split at h
                · cases h
                · rename_i hcrc
                  simp only [Except.ok.injEq] at h
                  subst h
                  refine ⟨by omega, by simpa using h0, by simpa using hl, rfl, hdec,
                    by simpa using hlen, by simpa using hcrc⟩

end SCALPEL

/-! ## CRC-8 as a polynomial remainder over GF(2) -/

namespace SCALPEL
namespace Checksum

open Polynomial

theorem generator_monic : generator.Monic := by
  unfold generator
  monicity!

theorem generator_degree : generator.degree = 8 := by
  unfold generator
  compute_degree!

theorem two_eq_zero_poly : (2 : Polynomial (ZMod 2)) = 0 := CharTwo.two_eq_zero

/-- The coefficient of `x^i` in the polynomial of a byte, by `testBit`. -/
theorem bitCoeff_eq (n i : Nat) :
    ((n / 2 ^ i : Nat) : ZMod 2) = if n.testBit i then 1 else 0 := by
  rw [← ZMod.natCast_mod (n / 2 ^ i) 2, Nat.testBit_to_div_mod]
  rcases Nat.mod_two_eq_zero_or_one (n / 2 ^ i) with h | h <;> simp [h]

theorem bytePoly_degree_lt (b : Nat) : (bytePoly b).degree < 8 := by
  have : bytePoly b ∈ Polynomial.degreeLT (ZMod 2) 8 := by
    unfold bytePoly
    refine Submodule.sum_mem _ (fun i hi => ?_)
    rw [Polynomial.mem_degreeLT]
    refine lt_of_le_of_lt (Polynomial.degree_C_mul_X_pow_le i _) ?_
    exact_mod_cast Finset.mem_range.1 hi
  exact Polynomial.mem_degreeLT.1 this

theorem bytePoly_modByMonic (b : Nat) : bytePoly b %ₘ generator = bytePoly b := by
  rw [Polynomial.modByMonic_eq_self_iff generator_monic, generator_degree]
  exact bytePoly_degree_lt b

theorem bytePoly_zero : bytePoly 0 = 0 := by
  simp [bytePoly]

/-- XOR of bytes is addition of their polynomials. -/
theorem bytePoly_xor (a b : Nat) : bytePoly (a ^^^ b) = bytePoly a + bytePoly b := by
  unfold bytePoly
  rw [← Finset.sum_add_distrib]
  refine Finset.sum_congr rfl (fun i _ => ?_)
  rw [← add_mul, ← C_add]
  congr 2
  rw [bitCoeff_eq, bitCoeff_eq, bitCoeff_eq, Nat.testBit_xor]
  cases a.testBit i <;> cases b.testBit i <;> simp
  exact (CharTwo.add_self_eq_zero (1 : ZMod 2)).symm

/-- Only the low eight bits of a value enter its polynomial. -/
theorem bytePoly_mod (a : Nat) : bytePoly (a % 256) = bytePoly a := by
  unfold bytePoly
  refine Finset.sum_congr rfl (fun i hi => ?_)
  have hi8 : i < 8 := Finset.mem_range.1 hi
  rw [bitCoeff_eq, bitCoeff_eq]
  have : (a % 256).testBit i = a.testBit i := by
    have := Nat.testBit_mod_two_pow a 8 i
    simpa [hi8] using this
  rw [this]

/-- The bits of the register after one round of the bit loop: the register
shifted left by one, with `0x07` XORed in when bit 7 was set. -/
theorem testBit_crcBitStep (c i : Nat) (hi : i < 8) :
    (crcBitStep c).testBit i
      = ((decide (1 ≤ i) && c.testBit (i - 1)) ^^ (c.testBit 7 && decide (i < 3))) := by
  have h7 : (7 : Nat) = 2 ^ 3 - 1 := by decide
  have h256 : (256 : Nat) = 2 ^ 8 := by decide
  have hc : c &&& 0x80 ≠ 0 ↔ c.testBit 7 = true := and_bit_ne_zero c 7
  unfold crcBitStep
  by_cases hb : c.testBit 7 = true
  · rw [if_pos (hc.2 hb), h256, Nat.testBit_mod_two_pow, Nat.testBit_xor, h7,
      Nat.testBit_two_pow_sub_one, Nat.testBit_shiftLeft]
    simp [hi, hb]
  · rw [if_neg (fun h => hb (hc.1 h)), h256, Nat.testBit_mod_two_pow, Nat.testBit_shiftLeft]
    simp only [Bool.not_eq_true] at hb
    simp [hi, hb]

/-- The coefficients of the register after one round of the bit loop. -/
theorem bitCoeff_crcBitStep (c : Nat) :
    (((crcBitStep c / 2 ^ 0 : Nat) : ZMod 2) = ((c / 2 ^ 7 : Nat) : ZMod 2)) ∧
    (((crcBitStep c / 2 ^ 1 : Nat) : ZMod 2)
      = ((c / 2 ^ 0 : Nat) : ZMod 2) + ((c / 2 ^ 7 : Nat) : ZMod 2)) ∧
    (((crcBitStep c / 2 ^ 2 : Nat) : ZMod 2)
      = ((c / 2 ^ 1 : Nat) : ZMod 2) + ((c / 2 ^ 7 : Nat) : ZMod 2)) ∧
    (((crcBitStep c / 2 ^ 3 : Nat) : ZMod 2) = ((c / 2 ^ 2 : Nat) : ZMod 2)) ∧
    (((crcBitStep c / 2 ^ 4 : Nat) : ZMod 2) = ((c / 2 ^ 3 : Nat) : ZMod 2)) ∧
    (((crcBitStep c / 2 ^ 5 : Nat) : ZMod 2) = ((c / 2 ^ 4 : Nat) : ZMod 2)) ∧
    (((crcBitStep c / 2 ^ 6 : Nat) : ZMod 2) = ((c / 2 ^ 5 : Nat) : ZMod 2)) ∧
    (((crcBitStep c / 2 ^ 7 : Nat) : ZMod 2) = ((c / 2 ^ 6 : Nat) : ZMod 2)) := by
  have h11 : (1 : ZMod 2) + 1 = 0 := CharTwo.add_self_eq_zero 1
  simp only [bitCoeff_eq]
  refine ⟨?_, ?_, ?_, ?_, ?_, ?_, ?_, ?_⟩
  · rw [testBit_crcBitStep c 0 (by decide)]
    cases c.testBit 7 <;> simp
  · rw [testBit_crcBitStep c 1 (by decide)]
    cases c.testBit 7 <;> cases c.testBit 0 <;> simp [h11]
  · rw [testBit_crcBitStep c 2 (by decide)]
    cases c.testBit 7 <;> cases c.testBit 1 <;> simp [h11]
  · rw [testBit_crcBitStep c 3 (by decide)]; simp
  · rw [testBit_crcBitStep c 4 (by decide)]; simp
  · rw [testBit_crcBitStep c 5 (by decide)]; simp
  · rw [testBit_crcBitStep c 6 (by decide)]; simp
  · rw [testBit_crcBitStep c 7 (by decide)]; simp

/-- One round of the bit loop multiplies the register polynomial by `x` modulo
the generator. -/
theorem bytePoly_crcBitStep (c : Nat) :
    bytePoly (crcBitStep c) = (X * bytePoly c) %ₘ generator := by
  symm
  refine (Polynomial.div_modByMonic_unique (C ((c / 2 ^ 7 : Nat) : ZMod 2))
    (bytePoly (crcBitStep c)) generator_monic ⟨?_, ?_⟩).2
  · obtain ⟨e0, e1, e2, e3, e4, e5, e6, e7⟩ := bitCoeff_crcBitStep c
    simp only [bytePoly, Finset.sum_range_succ, Finset.sum_range_zero, e0, e1, e2, e3, e4, e5,
      e6, e7, generator, C_add]
    linear_combination (C ((c / 2 ^ 7 : Nat) : ZMod 2) * (1 + X + X ^ 2)) * two_eq_zero_poly
  · rw [generator_degree]
    exact bytePoly_degree_lt _

/-- Reducing a factor first does not change a remainder. -/
theorem mul_modByMonic_generator (A B : Polynomial (ZMod 2)) :
    (A * (B %ₘ generator)) %ₘ generator = (A * B) %ₘ generator := by
  symm
  refine (Polynomial.div_modByMonic_unique
    ((A * (B %ₘ generator)) /ₘ generator + A * (B /ₘ generator))
    ((A * (B %ₘ generator)) %ₘ generator) generator_monic ⟨?_, ?_⟩).2
  · have h1 := Polynomial.modByMonic_add_div (A * (B %ₘ generator)) generator_monic
    have h2 := Polynomial.modByMonic_add_div B generator_monic
    linear_combination h1 + A * h2
  · exact Polynomial.degree_modByMonic_lt _ generator_monic

/-- Any number of rounds of the bit loop: multiplication by a power of `x`
modulo the generator. -/
theorem bytePoly_bitLoop (l : List Nat) (c : Nat) :
    bytePoly (l.foldl (fun c _ => crcBitStep c) c) = (X ^ l.length * bytePoly c) %ₘ generator := by
  induction l generalizing c with
  | nil => simp [bytePoly_modByMonic]
  | cons a l ih =>
    rw [List.foldl_cons, ih, bytePoly_crcBitStep, mul_modByMonic_generator, List.length_cons,
      pow_succ, mul_assoc]

/-- The body of the byte loop on polynomials. -/
theorem bytePoly_crcByteStep (crc byte : Nat) :
    bytePoly (crcByteStep crc byte)
      = (X ^ 8 * (bytePoly crc + bytePoly byte)) %ₘ generator := by
  unfold crcByteStep
  rw [bytePoly_bitLoop, bytePoly_mod, bytePoly_xor, List.length_range]

theorem bytePoly_foldl_crcByteStep (d : List Nat) (crc : Nat) (m : Polynomial (ZMod 2))
    (h : bytePoly crc = (m * X ^ 8) %ₘ generator) :
    bytePoly (d.foldl crcByteStep crc)
      = (d.foldl (fun m byte => m * X ^ 8 + bytePoly byte) m * X ^ 8) %ₘ generator := by
  induction d generalizing crc m with
  | nil => exact h
  | cons b d ih =>
    rw [List.foldl_cons, List.foldl_cons]
    apply ih
    rw [bytePoly_crcByteStep, h, mul_add, Polynomial.add_modByMonic, mul_modByMonic_generator,
      ← Polynomial.add_modByMonic]
    congr 1
    ring

/-- The register polynomial after the whole input is the remainder of
`d(x) * x^8` modulo the generator. -/
theorem bytePoly_calculateCRC8 (d : List Nat) :
    bytePoly (calculateCRC8 d) = (messagePoly d * X ^ 8) %ₘ generator := by
  unfold calculateCRC8 messagePoly
  apply bytePoly_foldl_crcByteStep
  simp [bytePoly_zero]

theorem crcBitStep_lt (c : Nat) : crcBitStep c < 256 := by
  unfold crcBitStep
  split <;> exact Nat.mod_lt _ (by decide)

theorem bitLoop_lt (l : List Nat) (c : Nat) (hc : c < 256) :
    l.foldl (fun c _ => crcBitStep c) c < 256 := by
  induction l generalizing c with
  | nil => exact hc
  | cons a l ih => exact ih _ (crcBitStep_lt c)

theorem crcByteStep_lt (crc byte : Nat) : crcByteStep crc byte < 256 :=
  bitLoop_lt _ _ (Nat.mod_lt _ (by decide))

theorem foldl_crcByteStep_lt (d : List Nat) (crc : Nat) (hc : crc < 256) :
    d.foldl crcByteStep crc < 256 := by
  induction d generalizing crc with
  | nil => exact hc
  | cons b d ih => exact ih _ (crcByteStep_lt crc b)

/-- The result of `calculateCRC8` is a byte. -/
theorem calculateCRC8_lt (d : List Nat) : calculateCRC8 d < 256 :=
  foldl_crcByteStep_lt d 0 (by decide)

theorem bytePoly_coeff (b i : Nat) (hi : i < 8) :
    (bytePoly b).coeff i = if b.testBit i then 1 else 0 := by
  unfold bytePoly
  rw [Polynomial.finset_sum_coeff]
  simp only [Polynomial.coeff_C_mul_X_pow]
  rw [Finset.sum_eq_single i]
  · simp [bitCoeff_eq]
  · intro j _ hji
    simp [hji.symm]
  · intro hni
    exact absurd (Finset.mem_range.2 hi) hni

/-- A byte is determined by its polynomial. -/
theorem bytePoly_injective (a b : Nat) (ha : a < 256) (hb : b < 256)
    (h : bytePoly a = bytePoly b) : a = b := by
  apply Nat.eq_of_testBit_eq
  intro i
  by_cases hi : i < 8
  · have h1 := bytePoly_coeff a i hi
    have h2 := bytePoly_coeff b i hi
    rw [h] at h1
    rw [h1] at h2
    cases ha' : a.testBit i <;> cases hb' : b.testBit i <;> simp [ha', hb'] at h2 <;> rfl
  · have hp : (256 : Nat) ≤ 2 ^ i := by
      have : (2 : Nat) ^ 8 ≤ 2 ^ i := Nat.pow_le_pow_right (by decide) (by omega)
      simpa using this
    rw [Nat.testBit_lt_two_pow (by omega), Nat.testBit_lt_two_pow (by omega)]

/-- Claim C14: for every byte sequence `d`, `calculateCRC8(d)` is the CRC-8 of
`d` with initial value `0x00`, polynomial `0x07`, no reflection and no final XOR:
it is the byte whose polynomial is the remainder of `d(x) * x^8` modulo
`x^8 + x^2 + x + 1` over GF(2), and the only such byte; for the empty sequence
it is `0x00`. -/
theorem crc8_is_polynomial_remainder (d : List Nat) :
    calculateCRC8 d < 256 ∧
      bytePoly (calculateCRC8 d) = (messagePoly d * X ^ 8) %ₘ generator ∧
      (∀ r, r < 256 → bytePoly r = (messagePoly d * X ^ 8) %ₘ generator →
        r = calculateCRC8 d) ∧
      calculateCRC8 [] = 0x00 := by
  refine ⟨calculateCRC8_lt d, bytePoly_calculateCRC8 d, ?_, rfl⟩
  intro r hr hrem
  exact bytePoly_injective r _ hr (calculateCRC8_lt d) (hrem.trans (bytePoly_calculateCRC8 d).symm)

end Checksum
end SCALPEL

/-! ## The claims on the frame constructor, the parser and the checksums -/

namespace SCALPEL

open Checksum

/-- Claim C11: constructing a `Packet` from a payload `P` fails if and only if
`P` has more than 28 bytes; for at most 28 bytes it succeeds with
`getPayload() = P` and `getPayloadLength() = |P|`. -/
theorem packet_constructor (P : List Nat) :
    ((∃ e, Packet.fromPayload P = .error e) ↔ 28 < P.length) ∧
      (P.length ≤ 28 → ∃ pkt, Packet.fromPayload P = .ok pkt ∧
        pkt.getPayload = P ∧ pkt.getPayloadLength = P.length) := by
  constructor
  · constructor
    · rintro ⟨e, he⟩
      by_contra hle
      rw [Packet.fromPayload_ok P (by omega)] at he
      cases he
    · intro hlt
      exact ⟨.payloadTooLong, by simp [Packet.fromPayload, MAX_PAYLOAD_LENGTH, hlt]⟩
  · intro hle
    refine ⟨_, Packet.fromPayload_ok P hle, rfl, ?_⟩
    simp only [Packet.getPayloadLength]
    omega

theorem packet_constructor_witness :
    ((∃ e, Packet.fromPayload [0x01, 0x02, 0x03, 0x04, 0x05] = .error e)
        ↔ 28 < [0x01, 0x02, 0x03, 0x04, 0x05].length) ∧
      ([0x01, 0x02, 0x03, 0x04, 0x05].length ≤ 28 →
        ∃ pkt, Packet.fromPayload [0x01, 0x02, 0x03, 0x04, 0x05] = .ok pkt ∧
          pkt.getPayload = [0x01, 0x02, 0x03, 0x04, 0x05] ∧
          pkt.getPayloadLength = [0x01, 0x02, 0x03, 0x04, 0x05].length) :=
  packet_constructor [0x01, 0x02, 0x03, 0x04, 0x05]

/-- Claim C12: `Packet::disassemble` fails, with one of the exceptions of the
source, on every byte sequence that has fewer than 4 bytes, or whose first byte
is not `0xAA`, or whose length byte has low two bits different from the
popcount modulo 4 of its upper six bits, or whose last byte is not the CRC-8 of
a payload obtained by unstuffing bytes `3 .. len-2` with the index of byte 2. -/
theorem disassemble_rejects (data : List Nat) (hbytes : ∀ b ∈ data, b < 256)
    (hbad : data.length < 4 ∨ data.getD 0 0 ≠ 0xAA ∨
      data.getD 1 0 % 4 ≠ popcount (data.getD 1 0 / 4) % 4 ∨
      ∀ payload,
        COBS.decode ((data.take (data.length - 1)).drop 3) (data.getD 2 0 / 4) = .ok payload →
        data.getD (data.length - 1) 0 ≠ calculateCRC8 payload) :
    ∃ e, e ≠ Exn.outOfFuel ∧ Packet.disassemble data = .error e := by
  cases hd : Packet.disassemble data with
  | error e => exact ⟨e, fun he => disassemble_ne_outOfFuel data (he ▸ hd), rfl⟩
  | ok pkt =>
    exfalso
    obtain ⟨h4, h0, hl, -, hdec, -, hcrc⟩ := disassemble_ok hd
    have hget : ∀ i, i < data.length → data.getD i 0 < 256 := by
      intro i hi
      rw [List.getD_eq_getElem _ _ hi]
      exact hbytes _ (List.getElem_mem _)
    obtain ⟨l1, l2⟩ := byte_fields _ (hget 1 (by omega))
    obtain ⟨-, c2⟩ := byte_fields _ (hget 2 (by omega))
    rw [l1, l2, calculate2BitChecksum_eq,
      ← popcount_eq_bitCount8 _ (by have := hget 1 (by omega); omega)] at hl
    rw [c2] at hdec
    rcases hbad with h | h | h | h
    · omega
    · exact h h0
    · exact h hl
    · exact h _ hdec hcrc

theorem disassemble_rejects_witness :
    (∀ b ∈ [0xAA, 0x15, 0x00, 0x01, 0x02, 0x03], b < 256) ∧
      ([0xAA, 0x15, 0x00, 0x01, 0x02, 0x03].length < 4 ∨
        [0xAA, 0x15, 0x00, 0x01, 0x02, 0x03].getD 0 0 ≠ 0xAA ∨
        [0xAA, 0x15, 0x00, 0x01, 0x02, 0x03].getD 1 0 % 4
          ≠ popcount ([0xAA, 0x15, 0x00, 0x01, 0x02, 0x03].getD 1 0 / 4) % 4 ∨
        ∀ payload,
          COBS.decode (([0xAA, 0x15, 0x00, 0x01, 0x02, 0x03].take
              ([0xAA, 0x15, 0x00, 0x01, 0x02, 0x03].length - 1)).drop 3)
            ([0xAA, 0x15, 0x00, 0x01, 0x02, 0x03].getD 2 0 / 4) = .ok payload →
          [0xAA, 0x15, 0x00, 0x01, 0x02, 0x03].getD
            ([0xAA, 0x15, 0x00, 0x01, 0x02, 0x03].length - 1) 0 ≠ calculateCRC8 payload) ∧
      ∃ e, e ≠ Exn.outOfFuel ∧
        Packet.disassemble [0xAA, 0x15, 0x00, 0x01, 0x02, 0x03] = .error e :=
  have hb : ∀ b ∈ [0xAA, 0x15, 0x00, 0x01, 0x02, 0x03], b < 256 := by decide
  have hbad : [0xAA, 0x15, 0x00, 0x01, 0x02, 0x03].length < 4 ∨
      [0xAA, 0x15, 0x00, 0x01, 0x02, 0x03].getD 0 0 ≠ 0xAA ∨
      [0xAA, 0x15, 0x00, 0x01, 0x02, 0x03].getD 1 0 % 4
        ≠ popcount ([0xAA, 0x15, 0x00, 0x01, 0x02, 0x03].getD 1 0 / 4) % 4 ∨
      ∀ payload,
        COBS.decode (([0xAA, 0x15, 0x00, 0x01, 0x02, 0x03].take
            ([0xAA, 0x15, 0x00, 0x01, 0x02, 0x03].length - 1)).drop 3)
          ([0xAA, 0x15, 0x00, 0x01, 0x02, 0x03].getD 2 0 / 4) = .ok payload →
        [0xAA, 0x15, 0x00, 0x01, 0x02, 0x03].getD
          ([0xAA, 0x15, 0x00, 0x01, 0x02, 0x03].length - 1) 0 ≠ calculateCRC8 payload :=
    Or.inr (Or.inr (Or.inl (by
      rw [popcount_eq_bitCount8 _ (by decide)]
      decide)))
  ⟨hb, hbad, disassemble_rejects _ hb hbad⟩

set_option maxRecDepth 100000 in
/-- Claim C13 fails on the code: `Packet::disassemble` accepts a frame whose
length field is 29 and returns a packet with payload length 29, above
`MAX_PAYLOAD_LENGTH = 28`; it never compares the length with the maximum. -/
theorem disassemble_accepts_oversized :
    (∀ b ∈ oversizedFrame, b < 256) ∧
      Packet.disassemble oversizedFrame
        = .ok { payloadLength := 29, payloadLengthChecksum := 0, cobsIndex := 0,
                cobsChecksum := 1, payload := List.replicate 29 0x01, checksum := 0x23 } ∧
      MAX_PAYLOAD_LENGTH < 29 := by
  decide

/-- Claim C15: for every byte `b`, `calculate2BitChecksum(b)` is the number of
1-bits of `b` modulo 4, and for every byte sequence `d`, of any length,
`calculate2BitChecksum(d)` is the total number of 1-bits of `d` modulo 4 (the
wrap of the 8-bit accumulator does not show modulo 4). -/
theorem two_bit_checksum_is_popcount (b : Nat) (hb : b < 256) (d : List Nat)
    (hd : ∀ x ∈ d, x < 256) :
    calculate2BitChecksum b = popcount b % 4 ∧
      calculate2BitChecksumSpan d = (d.map popcount).sum % 4 := by
  refine ⟨?_, ?_⟩
  · rw [calculate2BitChecksum_eq, popcount_eq_bitCount8 b hb]
  · rw [calculate2BitChecksumSpan_eq]
    have : d.map popcount = d.map bitCount8 :=
      List.map_congr_left (fun x hx => popcount_eq_bitCount8 x (hd x hx))
    rw [this]

theorem two_bit_checksum_is_popcount_witness :
    0x07 < 256 ∧ (∀ x ∈ List.replicate 40 0xFF, x < 256) ∧
      (calculate2BitChecksum 0x07 = popcount 0x07 % 4 ∧
        calculate2BitChecksumSpan (List.replicate 40 0xFF)
          = ((List.replicate 40 0xFF).map popcount).sum % 4) :=
  have hd : ∀ x ∈ List.replicate 40 0xFF, x < 256 := by
    intro x hx
    rw [List.eq_of_mem_replicate hx]
    decide
  ⟨by decide, hd, two_bit_checksum_is_popcount 0x07 (by decide) (List.replicate 40 0xFF) hd⟩

end SCALPEL

/-! ## The message header and the Command codec -/

namespace RocketLink
namespace AVC

/-- The packed byte of a header with 4-bit ids, and what `unpack` reads back
from it. -/
theorem pack_facts : ∀ s < 16, ∀ r < 16,
    ((r <<< 4) ||| (s &&& 0x0F)) % 256 = (r <<< 4) ||| s ∧
      ((r <<< 4) ||| s) &&& 0x0F = s ∧ (((r <<< 4) ||| s) >>> 4) &&& 0x0F = r := by
  decide

set_option maxRecDepth 100000 in
/-- Packing the two nibbles of a byte gives the byte back. -/
theorem unpack_facts : ∀ b < 256,
    ((((b >>> 4) &&& 0x0F) <<< 4) ||| ((b &&& 0x0F) &&& 0x0F)) % 256 = b := by
  decide

theorem and_0x0F_lt (x : Nat) : x &&& 0x0F < 16 := by
  have : x &&& 0x0F = x % 16 := Nat.and_pow_two_sub_one_eq_mod x 4
  omega

namespace Command

/-- The invariants of a `Command` object: the ids are 4-bit values and the
priority, which no member function writes after construction, is 0. -/
theorem constructed_inv {c : Command} (h : Constructed c) :
    c.header.senderID < 16 ∧ c.header.receiverID < 16 ∧ c.priority = 0 := by
  induction h with
  | default => exact ⟨by decide, by decide, rfl⟩
  | new s r n p => exact ⟨Nat.mod_lt _ (by decide), Nat.mod_lt _ (by decide), rfl⟩
  | setSenderID c s _ ih => exact ⟨and_0x0F_lt s, ih.2.1, ih.2.2⟩
  | setReceiverID c r _ ih => exact ⟨ih.1, and_0x0F_lt r, ih.2.2⟩
  | setCommandNumber c n _ ih => exact ih
  | setPayload c c' p _ hset ih =>
    simp only [setPayload] at hset
    split at hset
    · cases hset
    · simp only [Except.ok.injEq] at hset
      subst hset
      exact ih

theorem encode_ok (c : Command) (h : c.payload.length ≤ 255) :
    c.encode = .ok ([c.header.pack, 0x01, c.commandNumber, c.payload.length] ++ c.payload) := by
  have hn : ¬ c.payload.length > 255 := by omega
  have hm : c.payload.length % 256 = c.payload.length := Nat.mod_eq_of_lt (by omega)
  simp only [encode, hn, if_false, hm, PayloadDescriptor.COMMAND]
  rfl

theorem decode_layout (hb n len : Nat) (payload rest : List Nat) (hlen : payload.length = len) :
    decode (hb :: 0x01 :: n :: len :: (payload ++ rest))
      = .ok (new (CommandHeader.unpack hb).senderID (CommandHeader.unpack hb).receiverID n
          payload) := by
  have h4 : ¬ (hb :: 0x01 :: n :: len :: (payload ++ rest)).length < 4 := by simp
  have hfull : ¬ (hb :: 0x01 :: n :: len :: (payload ++ rest)).length < 4 + len := by
    simp only [List.length_cons, List.length_append]; omega
  have hpay : ((hb :: 0x01 :: n :: len :: (payload ++ rest)).take (4 + len)).drop 4
      = payload := by
    have e : 4 + len = payload.length + 4 := by omega
    rw [e]
    simp [List.take_append]
  unfold decode
  rw [if_neg h4]
  simp only [List.getD_cons_zero, List.getD_cons_succ, PayloadDescriptor.COMMAND, ne_eq,
    not_true_eq_false, if_false, hfull, hpay]

end Command

/-- Claim C16: for every sender id `s` and receiver id `r` in `0..15`, `pack()`
returns the byte `(r << 4) | s`, for `CommandHeader` and for `TelemetryHeader`. -/
theorem header_pack (s r : Nat) (hs : s < 16) (hr : r < 16) :
    CommandHeader.pack { senderID := s, receiverID := r } = (r <<< 4) ||| s ∧
      TelemetryHeader.pack { senderID := s, receiverID := r } = (r <<< 4) ||| s :=
  ⟨(pack_facts s hs r hr).1, (pack_facts s hs r hr).1⟩

theorem header_pack_witness :
    5 < 16 ∧ 7 < 16 ∧
      (CommandHeader.pack { senderID := 5, receiverID := 7 } = (7 <<< 4) ||| 5 ∧
        TelemetryHeader.pack { senderID := 5, receiverID := 7 } = (7 <<< 4) ||| 5) :=
  ⟨by decide, by decide, header_pack 5 7 (by decide) (by decide)⟩

/-- Claim C17: `unpack(pack(h))` restores the sender and the receiver of every
header `h` with 4-bit ids, and for every byte `b`, `pack` of the header obtained
by `unpack(b)` is `b`; for `CommandHeader` and for `TelemetryHeader`. -/
theorem header_pack_unpack (s r b : Nat) (hs : s < 16) (hr : r < 16) (hb : b < 256) :
    CommandHeader.unpack (CommandHeader.pack { senderID := s, receiverID := r })
        = { senderID := s, receiverID := r } ∧
      CommandHeader.pack (CommandHeader.unpack b) = b ∧
      TelemetryHeader.unpack (TelemetryHeader.pack { senderID := s, receiverID := r })
        = { senderID := s, receiverID := r } ∧
      TelemetryHeader.pack (TelemetryHeader.unpack b) = b := by
  obtain ⟨h1, h2, h3⟩ := pack_facts s hs r hr
  refine ⟨?_, unpack_facts b hb, ?_, unpack_facts b hb⟩
  · simp only [CommandHeader.pack, CommandHeader.unpack, h1, h2, h3]
  · simp only [TelemetryHeader.pack, TelemetryHeader.unpack, h1, h2, h3]

theorem header_pack_unpack_witness :
    5 < 16 ∧ 7 < 16 ∧ 0x57 < 256 ∧
      (CommandHeader.unpack (CommandHeader.pack { senderID := 5, receiverID := 7 })
          = { senderID := 5, receiverID := 7 } ∧
        CommandHeader.pack (CommandHeader.unpack 0x57) = 0x57 ∧
        TelemetryHeader.unpack (TelemetryHeader.pack { senderID := 5, receiverID := 7 })
          = { senderID := 5, receiverID := 7 } ∧
        TelemetryHeader.pack (TelemetryHeader.unpack 0x57) = 0x57) :=
  ⟨by decide, by decide, by decide, header_pack_unpack 5 7 0x57 (by decide) (by decide)
    (by decide)⟩

/-- Claim C18 fails on the code: the command with sender 1, receiver 2, number
`FIN_TEST` and payload `[1, 2, 3]` encodes with the header byte `0x21`, not
`0x12`, and `decode` reads the bytes `[0x12, 0x01, 0x65, 0x03, 1, 2, 3]` as sender
2 and receiver 1. -/
theorem command_scenario_header_byte :
    (Command.new 1 2 CommandNumber.FIN_TEST [0x01, 0x02, 0x03]).encode
        = .ok [0x21, 0x01, 0x65, 0x03, 0x01, 0x02, 0x03] ∧
      Command.decode [0x12, 0x01, 0x65, 0x03, 0x01, 0x02, 0x03]
        = .ok (Command.new 2 1 CommandNumber.FIN_TEST [0x01, 0x02, 0x03]) ∧
      (Command.new 2 1 CommandNumber.FIN_TEST [0x01, 0x02, 0x03]).getSenderID = 2 ∧
      (Command.new 2 1 CommandNumber.FIN_TEST [0x01, 0x02, 0x03]).getReceiverID = 1 := by
  decide

/-- Claim C19: for every `Command` `c` with `c.isValid()` and a payload of at
most 255 bytes, `Command::decode(c.encode())` succeeds and yields a command with
the sender id, receiver id, command number, payload and priority of `c`. -/
theorem command_encode_decode (c : Command) (hc : Command.Constructed c)
    (_hvalid : c.isValid = true) (hlen : c.payload.length ≤ 255) :
    ∃ bytes c', c.encode = .ok bytes ∧ Command.decode bytes = .ok c' ∧
      c'.getSenderID = c.getSenderID ∧ c'.getReceiverID = c.getReceiverID ∧
      c'.getCommandNumber = c.getCommandNumber ∧ c'.getPayload = c.getPayload ∧
      c'.getPriority = c.getPriority := by
  obtain ⟨hs, hr, hp⟩ := Command.constructed_inv hc
  obtain ⟨h1, h2, h3⟩ := pack_facts _ hs _ hr
  have hdec := Command.decode_layout c.header.pack c.commandNumber c.payload.length
    c.payload [] rfl
  rw [List.append_nil] at hdec
  refine ⟨_, _, Command.encode_ok c hlen, hdec, ?_, ?_, rfl, rfl, ?_⟩
  · simp only [Command.getSenderID, Command.new, CommandHeader.unpack, CommandHeader.pack,
      h1, h2]
    exact Nat.mod_eq_of_lt hs
  · simp only [Command.getReceiverID, Command.new, CommandHeader.unpack, CommandHeader.pack,
      h1, h3]
    exact Nat.mod_eq_of_lt hr
  · simp only [Command.getPriority, Command.new, hp]

theorem command_encode_decode_witness :
    Command.Constructed (Command.new 1 2 CommandNumber.FIN_TEST [0x01, 0x02, 0x03]) ∧
      (Command.new 1 2 CommandNumber.FIN_TEST [0x01, 0x02, 0x03]).isValid = true ∧
      (Command.new 1 2 CommandNumber.FIN_TEST [0x01, 0x02, 0x03]).payload.length ≤ 255 ∧
      ∃ bytes c',
        (Command.new 1 2 CommandNumber.FIN_TEST [0x01, 0x02, 0x03]).encode = .ok bytes ∧
        Command.decode bytes = .ok c' ∧
        c'.getSenderID
          = (Command.new 1 2 CommandNumber.FIN_TEST [0x01, 0x02, 0x03]).getSenderID ∧
        c'.getReceiverID
          = (Command.new 1 2 CommandNumber.FIN_TEST [0x01, 0x02, 0x03]).getReceiverID ∧
        c'.getCommandNumber
          = (Command.new 1 2 CommandNumber.FIN_TEST [0x01, 0x02, 0x03]).getCommandNumber ∧
        c'.getPayload
          = (Command.new 1 2 CommandNumber.FIN_TEST [0x01, 0x02, 0x03]).getPayload ∧
        c'.getPriority
          = (Command.new 1 2 CommandNumber.FIN_TEST [0x01, 0x02, 0x03]).getPriority :=
  ⟨Command.Constructed.new 1 2 CommandNumber.FIN_TEST [0x01, 0x02, 0x03], by decide, by decide,
    command_encode_decode _ (Command.Constructed.new 1 2 CommandNumber.FIN_TEST
      [0x01, 0x02, 0x03]) (by decide) (by decide)⟩

/-- Claim C20: `Command::encode` fails if and only if the payload has more than
255 bytes; otherwise it returns
`[header.pack(), 0x01, command_number, |payload|] ++ payload`, a sequence of
exactly `4 + |payload|` bytes. -/
theorem command_encode_layout (c : Command) :
    ((∃ e, c.encode = .error e) ↔ 255 < c.payload.length) ∧
      (c.payload.length ≤ 255 →
        c.encode
          = .ok ([c.header.pack, 0x01, c.commandNumber, c.payload.length] ++ c.payload) ∧
        ([c.header.pack, 0x01, c.commandNumber, c.payload.length] ++ c.payload).length
          = 4 + c.payload.length) := by
  refine ⟨⟨?_, ?_⟩, ?_⟩
  · rintro ⟨e, he⟩
    by_contra hle
    rw [Command.encode_ok c (by omega)] at he
    cases he
  · intro hlt
    exact ⟨.payloadTooLarge, by simp [Command.encode, hlt]⟩
  · intro hle
    refine ⟨Command.encode_ok c hle, ?_⟩
    simp only [List.length_append, List.length_cons, List.length_nil]

theorem command_encode_layout_witness :
    ((∃ e, (Command.new 1 2 CommandNumber.FIN_TEST [0x01, 0x02, 0x03]).encode = .error e)
        ↔ 255 < (Command.new 1 2 CommandNumber.FIN_TEST [0x01, 0x02, 0x03]).payload.length) ∧
      ((Command.new 1 2 CommandNumber.FIN_TEST [0x01, 0x02, 0x03]).payload.length ≤ 255 →
        (Command.new 1 2 CommandNumber.FIN_TEST [0x01, 0x02, 0x03]).encode
          = .ok ([(Command.new 1 2 CommandNumber.FIN_TEST [0x01, 0x02, 0x03]).header.pack, 0x01,
              (Command.new 1 2 CommandNumber.FIN_TEST [0x01, 0x02, 0x03]).commandNumber,
              (Command.new 1 2 CommandNumber.FIN_TEST [0x01, 0x02, 0x03]).payload.length]
            ++ (Command.new 1 2 CommandNumber.FIN_TEST [0x01, 0x02, 0x03]).payload) ∧
        ([(Command.new 1 2 CommandNumber.FIN_TEST [0x01, 0x02, 0x03]).header.pack, 0x01,
              (Command.new 1 2 CommandNumber.FIN_TEST [0x01, 0x02, 0x03]).commandNumber,
              (Command.new 1 2 CommandNumber.FIN_TEST [0x01, 0x02, 0x03]).payload.length]
            ++ (Command.new 1 2 CommandNumber.FIN_TEST [0x01, 0x02, 0x03]).payload).length
          = 4 + (Command.new 1 2 CommandNumber.FIN_TEST [0x01, 0x02, 0x03]).payload.length) :=
  command_encode_layout (Command.new 1 2 CommandNumber.FIN_TEST [0x01, 0x02, 0x03])

end AVC
end RocketLink

/-! ## The Telemetry codec -/

namespace RocketLink
namespace AVC
namespace Telemetry

theorem highByte_eq (v : Nat) (h : v < 65536) : highByte v = v / 256 := by
  have h1 : v >>> 8 = v / 256 := Nat.shiftRight_eq_div_pow v 8
  have h2 : (v / 256) &&& 0xFF = v / 256 % 256 := Nat.and_pow_two_sub_one_eq_mod _ 8
  rw [highByte, h1, h2]
  omega

theorem lowByte_eq (v : Nat) : lowByte v = v % 256 := by
  have h2 : v &&& 0xFF = v % 256 := Nat.and_pow_two_sub_one_eq_mod _ 8
  rw [lowByte, h2]
  omega

theorem highByteSigned_eq (v : Int) : highByteSigned v = (v / 256 % 256).toNat := by
  have h1 : v >>> (8 : Nat) = v / 256 := Int.shiftRight_eq_div_pow v 8
  rw [highByteSigned, h1]

theorem word_eq (hi lo : Nat) (hhi : hi < 256) (hlo : lo < 256) :
    word hi lo = hi * 256 + lo := by
  have h1 : hi <<< 8 = 2 ^ 8 * hi := by rw [Nat.shiftLeft_eq, Nat.mul_comm]
  have h2 : 2 ^ 8 * hi + lo = 2 ^ 8 * hi ||| lo := Nat.mul_add_lt_is_or (by simpa using hlo) hi
  rw [word, h1, ← h2]
  omega

/-- The two bytes written for a `uint16_t` member read back as its value. -/
theorem word_unsigned (v : Nat) (h : v < 65536) : word (highByte v) (lowByte v) = v := by
  rw [highByte_eq v h, lowByte_eq, word_eq _ _ (by omega) (by omega)]
  omega

/-- The two bytes written for an `int16_t` member read back as its value. -/
theorem word_signed (x : Int) (h1 : -32768 ≤ x) (h2 : x < 32768) :
    toInt16 (word (highByteSigned x) (lowByteSigned x)) = x := by
  rw [highByteSigned_eq, lowByteSigned, word_eq _ _ (by omega) (by omega)]
  unfold toInt16
  split <;> omega

/-- The wire bytes of a signed member are the big-endian bytes of its 16-bit
two's complement. -/
theorem bigEndian16_signed (x : Int) :
    bigEndian16 (twosComplement16 x) = [highByteSigned x, lowByteSigned x] := by
  rw [highByteSigned_eq, lowByteSigned, bigEndian16, twosComplement16]
  have e1 : (x % 65536).toNat / 256 = (x / 256 % 256).toNat := by omega
  have e2 : (x % 65536).toNat % 256 = (x % 256).toNat := by omega
  rw [e1, e2]

theorem bigEndian16_unsigned (v : Nat) (h : v < 65536) :
    bigEndian16 v = [highByte v, lowByte v] := by
  rw [highByte_eq v h, lowByte_eq, bigEndian16]

theorem decode_bytes (b0 b1 b2 b3 b4 b5 b6 b7 b8 b9 b10 b11 b12 b13 b14 b15 b16 b17 b18 b19
    b20 b21 b22 b23 b24 b25 b26 b27 : Nat) :
    decode [b0, b1, b2, b3, b4, b5, b6, b7, b8, b9, b10, b11, b12, b13, b14, b15, b16, b17,
        b18, b19, b20, b21, b22, b23, b24, b25, b26, b27]
      = .ok (new (TelemetryHeader.unpack b0).senderID (TelemetryHeader.unpack b0).receiverID b1
          (word b2 b3) (word b4 b5) (toInt16 (word b6 b7)) (toInt16 (word b8 b9))
          (toInt16 (word b10 b11)) (toInt16 (word b12 b13)) (toInt16 (word b14 b15))
          (toInt16 (word b16 b17)) (toInt16 (word b18 b19)) (toInt16 (word b20 b21))
          (toInt16 (word b22 b23)) (b24, b25, b26) b27) := by
  rfl

/-- `decode` inverts `encode` on every telemetry record. -/
theorem telemetry_decode_encode (t : Telemetry) (h : WellFormed t) : decode t.encode = .ok t := by
  obtain ⟨hs, hr, -, hv1, hv2, hpx, hpy, hpz, hvx, hvy, hvz, hax, hay, haz, -, -, -, -⟩ := h
  obtain ⟨h1, h2, h3⟩ := pack_facts _ hs _ hr
  have hsend : (TelemetryHeader.unpack t.header.pack).senderID % 16 = t.header.senderID := by
    simp only [TelemetryHeader.unpack, TelemetryHeader.pack, h1, h2]
    exact Nat.mod_eq_of_lt hs
  have hrecv : (TelemetryHeader.unpack t.header.pack).receiverID % 16
      = t.header.receiverID := by
    simp only [TelemetryHeader.unpack, TelemetryHeader.pack, h1, h3]
    exact Nat.mod_eq_of_lt hr
  have e : t.encode = [t.header.pack, t.descriptor, highByte t.voltage1, lowByte t.voltage1,
      highByte t.voltage2, lowByte t.voltage2, highByteSigned t.posX, lowByteSigned t.posX,
      highByteSigned t.posY, lowByteSigned t.posY, highByteSigned t.posZ, lowByteSigned t.posZ,
      highByteSigned t.velX, lowByteSigned t.velX, highByteSigned t.velY, lowByteSigned t.velY,
      highByteSigned t.velZ, lowByteSigned t.velZ, highByteSigned t.accX, lowByteSigned t.accX,
      highByteSigned t.accY, lowByteSigned t.accY, highByteSigned t.accZ, lowByteSigned t.accZ,
      t.memoryLog.1, t.memoryLog.2.1, t.memoryLog.2.2, t.statusFlags] := rfl
  rw [e, decode_bytes, word_unsigned _ hv1, word_unsigned _ hv2,
    word_signed _ hpx.1 hpx.2, word_signed _ hpy.1 hpy.2, word_signed _ hpz.1 hpz.2,
    word_signed _ hvx.1 hvx.2, word_signed _ hvy.1 hvy.2, word_signed _ hvz.1 hvz.2,
    word_signed _ hax.1 hax.2, word_signed _ hay.1 hay.2, word_signed _ haz.1 haz.2]
  simp only [new, hsend, hrecv]

end Telemetry
end AVC
end RocketLink

/-! ## Claims on the AVC message codecs -/

namespace RocketLink
namespace AVC

/-- C21: `Command::decode(d)` throws if and only if `d` has fewer than 4 bytes,
or `d[1]` is not `0x01` (COMMAND), or `d` has fewer than `4 + d[3]` bytes; in
every other case it returns a command whose payload is the `d[3]` bytes of `d`
from offset 4 on. -/
theorem command_decode_contract (d : List Nat) :
    ((∃ e, Command.decode d = .error e) ↔
        (d.length < 4 ∨ d.getD 1 0 ≠ 0x01 ∨ d.length < 4 + d.getD 3 0)) ∧
      (¬ (d.length < 4 ∨ d.getD 1 0 ≠ 0x01 ∨ d.length < 4 + d.getD 3 0) →
        ∃ c, Command.decode d = .ok c ∧
          c.getPayload = (d.drop 4).take (d.getD 3 0)) := by
  have hslice : (d.take (4 + d.getD 3 0)).drop 4 = (d.drop 4).take (d.getD 3 0) := by
    rw [List.drop_take]
    congr 1
    omega
  have hdef : Command.decode d =
      if d.length < 4 then .error .dataTooShort
      else if d.getD 1 0 ≠ 0x01 then .error .invalidDescriptor
      else if d.length < 4 + d.getD 3 0 then .error .incompletePayload
      else .ok (Command.new (CommandHeader.unpack (d.getD 0 0)).senderID
        (CommandHeader.unpack (d.getD 0 0)).receiverID (d.getD 2 0)
        ((d.take (4 + d.getD 3 0)).drop 4)) := rfl
  rw [hdef]
  by_cases h1 : d.length < 4
  · rw [if_pos h1]
    exact ⟨⟨fun _ => Or.inl h1, fun _ => ⟨_, rfl⟩⟩, fun h => absurd (Or.inl h1) h⟩
  · rw [if_neg h1]
    by_cases h2 : d.getD 1 0 ≠ 0x01
    · rw [if_pos h2]
      exact ⟨⟨fun _ => Or.inr (Or.inl h2), fun _ => ⟨_, rfl⟩⟩,
        fun h => absurd (Or.inr (Or.inl h2)) h⟩
    · rw [if_neg h2]
      by_cases h3 : d.length < 4 + d.getD 3 0
      · rw [if_pos h3]
        exact ⟨⟨fun _ => Or.inr (Or.inr h3), fun _ => ⟨_, rfl⟩⟩,
          fun h => absurd (Or.inr (Or.inr h3)) h⟩
      · rw [if_neg h3]
        refine ⟨?_, ?_⟩
        · constructor
          · rintro ⟨e, he⟩
            cases he
          · rintro (h | h | h)
            · exact absurd h h1
            · exact absurd h h2
            · exact absurd h h3
        · intro _
          exact ⟨_, rfl, hslice⟩

theorem command_decode_contract_witness :
    ¬ ([0x21, 0x01, 101, 2, 7, 8, 9].length < 4 ∨ [0x21, 0x01, 101, 2, 7, 8, 9].getD 1 0 ≠ 0x01 ∨
        [0x21, 0x01, 101, 2, 7, 8, 9].length < 4 + [0x21, 0x01, 101, 2, 7, 8, 9].getD 3 0) ∧
      ∃ c, Command.decode [0x21, 0x01, 101, 2, 7, 8, 9] = .ok c ∧
        c.getPayload = ([0x21, 0x01, 101, 2, 7, 8, 9].drop 4).take
          ([0x21, 0x01, 101, 2, 7, 8, 9].getD 3 0) :=
  ⟨by decide, (command_decode_contract [0x21, 0x01, 101, 2, 7, 8, 9]).2 (by decide)⟩

/-- C22: for every telemetry record `t` whose members are in the range of their
types (4-bit ids, any descriptor byte, 16-bit voltages, signed 16-bit positions,
velocities and accelerations including negative ones), `t.encode()` has exactly
28 bytes and `Telemetry::decode(t.encode())` returns a record equal to `t` in
every member. -/
theorem telemetry_encode_decode (t : Telemetry) (h : Telemetry.WellFormed t) :
    t.encode.length = 28 ∧ Telemetry.decode t.encode = .ok t :=
  ⟨rfl, Telemetry.telemetry_decode_encode t h⟩

theorem telemetry_encode_decode_witness :
    Telemetry.WellFormed
        (Telemetry.new 1 2 TelemetryDescriptor.TELEMETRY_B 1000 65535 (-100) 200 (-32768) 10
          (-20) 32767 (-1) 2 (-3) (10, 20, 255) 0x0F) ∧
      (Telemetry.new 1 2 TelemetryDescriptor.TELEMETRY_B 1000 65535 (-100) 200 (-32768) 10
          (-20) 32767 (-1) 2 (-3) (10, 20, 255) 0x0F).encode.length = 28 ∧
      Telemetry.decode
          (Telemetry.new 1 2 TelemetryDescriptor.TELEMETRY_B 1000 65535 (-100) 200 (-32768) 10
            (-20) 32767 (-1) 2 (-3) (10, 20, 255) 0x0F).encode
        = .ok (Telemetry.new 1 2 TelemetryDescriptor.TELEMETRY_B 1000 65535 (-100) 200 (-32768)
            10 (-20) 32767 (-1) 2 (-3) (10, 20, 255) 0x0F) :=
  ⟨by unfold Telemetry.WellFormed; decide,
    telemetry_encode_decode _ (by unfold Telemetry.WellFormed; decide)⟩

/-- C23: for every telemetry record `t` (members in the range of their types),
`t.encode()` is byte 0 = `header.pack()`, byte 1 = descriptor, then voltage1,
voltage2, posX, posY, posZ, velX, velY, velZ, accX, accY, accZ each as two
bytes, high byte first, the signed ones in 16-bit two's complement (offsets 2
to 23), then the three bytes of the memory log (offsets 24 to 26) and the
status flags (offset 27). -/
theorem telemetry_encode_layout (t : Telemetry) (h : Telemetry.WellFormed t) :
    t.encode = [t.header.pack, t.descriptor]
      ++ Telemetry.bigEndian16 t.voltage1 ++ Telemetry.bigEndian16 t.voltage2
      ++ Telemetry.bigEndian16 (Telemetry.twosComplement16 t.posX)
      ++ Telemetry.bigEndian16 (Telemetry.twosComplement16 t.posY)
      ++ Telemetry.bigEndian16 (Telemetry.twosComplement16 t.posZ)
      ++ Telemetry.bigEndian16 (Telemetry.twosComplement16 t.velX)
      ++ Telemetry.bigEndian16 (Telemetry.twosComplement16 t.velY)
      ++ Telemetry.bigEndian16 (Telemetry.twosComplement16 t.velZ)
      ++ Telemetry.bigEndian16 (Telemetry.twosComplement16 t.accX)
      ++ Telemetry.bigEndian16 (Telemetry.twosComplement16 t.accY)
      ++ Telemetry.bigEndian16 (Telemetry.twosComplement16 t.accZ)
      ++ [t.memoryLog.1, t.memoryLog.2.1, t.memoryLog.2.2] ++ [t.statusFlags] := by
  obtain ⟨-, -, -, hv1, hv2, -⟩ := h
  rw [Telemetry.bigEndian16_unsigned _ hv1, Telemetry.bigEndian16_unsigned _ hv2]
  simp only [Telemetry.bigEndian16_signed]
  rfl

theorem telemetry_encode_layout_witness :
    Telemetry.WellFormed
        (Telemetry.new 1 2 TelemetryDescriptor.TELEMETRY_A 1000 2000 (-100) 200 300 10 20 30 1 2
          (-3) (10, 20, 30) 0x0F) ∧
      (Telemetry.new 1 2 TelemetryDescriptor.TELEMETRY_A 1000 2000 (-100) 200 300 10 20 30 1 2
          (-3) (10, 20, 30) 0x0F).encode
        = [0x21, 0x10, 0x03, 0xE8, 0x07, 0xD0, 0xFF, 0x9C, 0x00, 0xC8, 0x01, 0x2C, 0x00, 0x0A,
            0x00, 0x14, 0x00, 0x1E, 0x00, 0x01, 0x00, 0x02, 0xFF, 0xFD, 10, 20, 30, 0x0F] :=
  ⟨by unfold Telemetry.WellFormed; decide,
    (telemetry_encode_layout _ (by unfold Telemetry.WellFormed; decide)).trans (by decide)⟩

end AVC
end RocketLink

/-! ## std::unordered_map -/

namespace RocketLink
namespace AVC

namespace UMap

theorem find_eq_none {α : Type} (m : List (Nat × α)) (k : Nat) :
    find m k = none ↔ ∀ e ∈ m, e.1 ≠ k := by
  unfold find
  rw [Option.map_eq_none', List.find?_eq_none]
  constructor
  · intro h e he hk
    exact h e he (by simpa using hk)
  · intro h e he hk
    exact h e he (by simpa using hk)

theorem find_erase_self {α : Type} (m : List (Nat × α)) (k : Nat) :
    find (erase m k) k = none := by
  rw [find_eq_none]
  intro e he
  unfold erase at he
  rw [List.mem_filter] at he
  simpa using he.2

theorem erase_of_find_none {α : Type} (m : List (Nat × α)) (k : Nat) (h : find m k = none) :
    erase m k = m := by
  rw [find_eq_none] at h
  unfold erase
  rw [List.filter_eq_self]
  intro e he
  simpa using h e he

theorem mem_erase {α : Type} (m : List (Nat × α)) (k : Nat) (e : Nat × α)
    (h : e ∈ erase m k) : e ∈ m := by
  unfold erase at h
  exact (List.mem_filter.1 h).1

theorem mem_insert {α : Type} (m : List (Nat × α)) (k : Nat) (v : α) (e : Nat × α)
    (h : e ∈ insert m k v) : e ∈ m ∨ e = (k, v) := by
  unfold insert at h
  rcases List.mem_append.1 h with h | h
  · exact Or.inl (mem_erase m k e h)
  · exact Or.inr (List.mem_singleton.1 h)

theorem find_insert_self {α : Type} (m : List (Nat × α)) (k : Nat) (v : α) :
    find (insert m k v) k = some v := by
  have h := find_erase_self m k
  unfold find at h ⊢
  unfold insert
  rw [Option.map_eq_none'] at h
  rw [List.find?_append, h]
  simp

end UMap

/-! ## The comparator of the command queue -/

namespace CommandManager

/-! ## The command queue -/

theorem deref_inv (s : CommandManager) (P : PendingCommand → Prop) (hd : P default)
    (h : ∀ r ∈ s.heap, P r) (a : Nat) : P (s.deref a) := by
  unfold deref
  by_cases ha : a < s.heap.length
  · rw [List.getD_eq_getElem _ _ ha]
    exact h _ (List.getElem_mem ha)
  · rw [List.getD_eq_default _ _ (by omega)]
    exact hd

/-- Every record of a reachable state has a retry count between 0 and 5. -/
theorem reachable_retryCount (s : CommandManager) (h : Reachable s) :
    ∀ r ∈ s.heap, 0 ≤ r.retryCount ∧ r.retryCount ≤ 5 := by
  induction h with
  | empty =>
    intro r hr
    cases hr
  | addCommand s command priority now _ ih =>
    intro r hr
    simp only [addCommand] at hr
    rcases List.mem_append.1 hr with hr | hr
    · exact ih r hr
    · rw [List.mem_singleton.1 hr]
      simp [PendingCommand.new]
  | handleAcknowledgment s n _ ih =>
    intro r hr
    unfold handleAcknowledgment at hr
    split at hr
    · exact ih r hr
    · exact ih r hr
  | getNextCommand s a _ _ ih =>
    intro r hr
    exact ih r hr
  | workerStep s now a _ _ ih =>
    intro r hr
    have hd := deref_inv s (fun r => 0 ≤ r.retryCount ∧ r.retryCount ≤ 5)
      (by decide) ih a
    by_cases h1 : now ≥ (s.deref a).lastSentTime + timeoutInterval
    · by_cases h2 : (s.deref a).retryCount ≥ maxRetries
      · simp only [workerStepAt, if_pos h1, if_pos h2] at hr
        exact ih r hr
      · simp only [workerStepAt, if_pos h1, if_neg h2] at hr
        simp only [maxRetries] at h2
        rcases List.mem_or_eq_of_mem_set hr with hr | hr
        · exact ih r hr
        · rw [hr]
          simp only
          omega
    · simp only [workerStepAt, if_neg h1] at hr
      exact ih r hr

end CommandManager

end AVC
end RocketLink

/-! ## The worker of the CommandManager on one command -/

namespace RocketLink
namespace AVC
namespace CommandManager

theorem addCommand_empty (c : Command) (priority : Int) (t0 : Nat) :
    (empty.addCommand c priority t0).1
      = { heap := [{ command := c, priority := priority, lastSentTime := t0, retryCount := 0 }],
          commandQueue := [0],
          pendingCommandsMap := [(c.getCommandNumber % 256, 0)] } := rfl

theorem workerStep_single (c : Command) (priority k : Int) (last now : Nat)
    (m : List (Nat × Nat)) :
    workerStep { heap := [{ command := c, priority := priority, lastSentTime := last,
                            retryCount := k }],
                 commandQueue := [0], pendingCommandsMap := m } now
      = if now ≥ last + 500 then
          if k ≥ 5 then
            ({ heap := [{ command := c, priority := priority, lastSentTime := last,
                          retryCount := k }],
               commandQueue := [],
               pendingCommandsMap := UMap.erase m (c.getCommandNumber % 256) }, none)
          else
            ({ heap := [{ command := c, priority := priority, lastSentTime := now,
                          retryCount := k + 1 }],
               commandQueue := [0], pendingCommandsMap := m }, some c)
        else
          ({ heap := [{ command := c, priority := priority, lastSentTime := last,
                        retryCount := k }],
             commandQueue := [0], pendingCommandsMap := m }, none) := rfl

theorem workerStep_single_send (c : Command) (priority k k' : Int) (last now : Nat)
    (m : List (Nat × Nat)) (hk : k < 5) (hk' : k' = k + 1) (h : now ≥ last + 500) :
    workerStep { heap := [{ command := c, priority := priority, lastSentTime := last,
                            retryCount := k }],
                 commandQueue := [0], pendingCommandsMap := m } now
      = ({ heap := [{ command := c, priority := priority, lastSentTime := now,
                      retryCount := k' }],
           commandQueue := [0], pendingCommandsMap := m }, some c) := by
  rw [workerStep_single, if_pos h, if_neg (by omega), hk']

end CommandManager
end AVC
end RocketLink

/-! ## Claims on the CommandManager -/

namespace RocketLink
namespace AVC

/-- C24 (refuted on the code): a command that has been acknowledged is still
retransmitted.  For every command `c`, priority and time `t0`: after
`addCommand(c, priority)` at `t0` and `handleAcknowledgment` of its number, the
map no longer holds the number, the queue still holds the record of `c`, and the
pass of the worker at any time from `t0 + 500` on hands `c` to `sendCommand`:
the worker never looks a top record up in the map. -/
theorem acknowledged_command_is_retransmitted (c : Command) (priority : Int) (t0 d : Nat) :
    UMap.find ((CommandManager.empty.addCommand c priority t0).1.handleAcknowledgment
        (c.getCommandNumber % 256)).pendingCommandsMap (c.getCommandNumber % 256) = none ∧
      ((CommandManager.empty.addCommand c priority t0).1.handleAcknowledgment
        (c.getCommandNumber % 256)).commandQueue = [0] ∧
      (((CommandManager.empty.addCommand c priority t0).1.handleAcknowledgment
        (c.getCommandNumber % 256)).workerStep (t0 + 500 + d)).2 = some c := by
  have hs : (CommandManager.empty.addCommand c priority t0).1.handleAcknowledgment
      (c.getCommandNumber % 256)
        = { heap := [{ command := c, priority := priority, lastSentTime := t0,
                       retryCount := 0 }],
            commandQueue := [0], pendingCommandsMap := [] } := by
    rw [CommandManager.addCommand_empty]
    simp [CommandManager.handleAcknowledgment, UMap.find, UMap.erase]
  rw [hs]
  refine ⟨rfl, rfl, ?_⟩
  rw [CommandManager.workerStep_single_send c priority 0 1 t0 (t0 + 500 + d) []
    (by norm_num) (by norm_num) (by omega)]

/-- C27 (counterexample): `addCommand` on a command whose number is already in
the pending map returns true. -/
theorem addCommand_duplicate_returns_true :
    UMap.find (CommandManager.empty.addCommand (Command.new 1 2 CommandNumber.FIN_TEST [0x01])
        1 0).1.pendingCommandsMap CommandNumber.FIN_TEST = some 0 ∧
      ((CommandManager.empty.addCommand (Command.new 1 2 CommandNumber.FIN_TEST [0x01])
        1 0).1.addCommand (Command.new 1 2 CommandNumber.FIN_TEST [0x01]) 1 10).2 = true := by
  decide

/-- C27 (amended): `addCommand(command, priority)` returns true in every state,
whether or not the pending map contains the command's number; it allocates a
new record with retry count 0, pushes it onto the queue, and makes the map send
the command's number to the new record, replacing the entry the number had. -/
theorem addCommand_always_true (s : CommandManager) (command : Command) (priority : Int)
    (now : Nat) :
    (s.addCommand command priority now).2 = true ∧
      (s.addCommand command priority now).1.heap
        = s.heap ++ [{ command := command, priority := priority, lastSentTime := now,
                       retryCount := 0 }] ∧
      (s.addCommand command priority now).1.commandQueue = s.commandQueue ++ [s.heap.length] ∧
      UMap.find (s.addCommand command priority now).1.pendingCommandsMap
        (command.getCommandNumber % 256) = some s.heap.length :=
  ⟨rfl, rfl, rfl, UMap.find_insert_self _ _ _⟩

end AVC
end RocketLink

/-! ## The length of a stuffed sequence -/

namespace SCALPEL
namespace COBS

theorem encodeStep_length (st : EncodeState) (b : Nat) :
    (encodeStep st b).encoded.length ≤ st.encoded.length + 2 := by
  unfold encodeStep
  split
  · simp only [List.length_append, List.length_set, List.length_singleton]
    omega
  · simp only
    split
    · simp only [List.length_append, List.length_set, List.length_singleton]
      omega
    · simp only [List.length_append, List.length_singleton]
      omega

theorem foldl_encodeStep_length (l : List Nat) :
    ∀ st : EncodeState,
      (l.foldl encodeStep st).encoded.length ≤ st.encoded.length + 2 * l.length := by
  induction l with
  | nil =>
    intro st
    simp
  | cons b l ih =>
    intro st
    have h1 := ih (encodeStep st b)
    have h2 := encodeStep_length st b
    simp only [List.foldl_cons, List.length_cons]
    omega

/-- The stuffed sequence has at most `2 * |P| + 1` bytes. -/
theorem encode_length {P : List Nat} {r : COBSResult} (h : encode P = .ok r) :
    r.encodedPayload.length ≤ 2 * P.length + 1 := by
  unfold encode at h
  simp only at h
  split at h
  · cases h
  · simp only [Except.ok.injEq] at h
    rw [← h]
    have := foldl_encodeStep_length P encodeInit
    simp only [List.length_set]
    simpa [encodeInit, Nat.add_comm] using this

end COBS
end SCALPEL

/-! ## AVCProtocol -/

namespace RocketLink
namespace AVC
namespace AVCProtocol

/-- The successful path of `sendCommand`: a valid command with a payload of at
most 24 bytes. -/
theorem sendCommand_ok (p : AVCProtocol) (c : Command) (now : Nat)
    (hv : c.isValid = true) (hlen : c.payload.length ≤ 24) :
    ∃ frame r,
      SCALPEL.frameOf ([c.header.pack, 0x01, c.commandNumber, c.payload.length] ++ c.payload)
        = .ok frame ∧
      SCALPEL.COBS.encode (frame ++ [SCALPEL.Checksum.calculateCRC8
        ([c.header.pack, 0x01, c.commandNumber, c.payload.length] ++ c.payload)]) = .ok r ∧
      p.sendCommand c now
        = ({ pendingCommands := UMap.insert p.pendingCommands (c.getCommandNumber % 256)
               { command := c, timestamp := now, retryCount := 0 },
             sendQueue := p.sendQueue ++ [r.encodedPayload] }, .ok ()) := by
  have henc := Command.encode_ok c (by omega)
  have hl : ([c.header.pack, 0x01, c.commandNumber, c.payload.length] ++ c.payload).length
      ≤ 28 := by
    simp only [List.length_append, List.length_cons, List.length_nil]
    omega
  obtain ⟨q, frame, pkt, hq, hframe, hshape, -⟩ := SCALPEL.disassemble_frameOf _ hl
  have hqlen := SCALPEL.COBS.encode_length hq
  have hflen : (frame ++ [SCALPEL.Checksum.calculateCRC8
      ([c.header.pack, 0x01, c.commandNumber, c.payload.length] ++ c.payload)]).length
        < 169 := by
    rw [hshape]
    simp only [List.length_append, List.length_cons, List.length_nil]
    omega
  obtain ⟨r, hr⟩ := SCALPEL.COBS.encode_ok_of_short _ hflen
  refine ⟨frame, r, hframe, hr, ?_⟩
  have hasm : SCALPEL.Packet.assemble
      { payloadLength :=
          ([c.header.pack, 0x01, c.commandNumber, c.payload.length] ++ c.payload).length % 256,
        payloadLengthChecksum := SCALPEL.Checksum.calculate2BitChecksum
          (([c.header.pack, 0x01, c.commandNumber, c.payload.length] ++ c.payload).length
            % 256),
        cobsIndex := 0, cobsChecksum := 0,
        payload := [c.header.pack, 0x01, c.commandNumber, c.payload.length] ++ c.payload,
        checksum := 0 } = .ok frame := by
    have := hframe
    unfold SCALPEL.frameOf at this
    rw [SCALPEL.Packet.fromPayload_ok _ hl] at this
    exact this
  unfold sendCommand
  simp only [hv, Bool.not_true, Bool.false_eq_true, if_false, henc,
    SCALPEL.Packet.fromPayload_ok _ hl, hasm, hr, sendRawPacket]

/-- The failing paths of `sendCommand`: an invalid command, or a payload of more
than 24 bytes. -/
theorem sendCommand_error (p : AVCProtocol) (c : Command) (now : Nat)
    (h : c.isValid = false ∨ 24 < c.payload.length) :
    ∃ e, p.sendCommand c now = (p, .error e) := by
  unfold sendCommand
  cases hv : c.isValid with
  | false => exact ⟨_, rfl⟩
  | true =>
    have hlen : 24 < c.payload.length := by
      rcases h with h | h
      · rw [hv] at h
        cases h
      · exact h
    simp only [Bool.not_true, Bool.false_eq_true, if_false]
    by_cases hbig : c.payload.length ≤ 255
    · have hl : ([c.header.pack, 0x01, c.commandNumber, c.payload.length]
          ++ c.payload).length > SCALPEL.MAX_PAYLOAD_LENGTH := by
        simp only [List.length_append, List.length_cons, List.length_nil,
          SCALPEL.MAX_PAYLOAD_LENGTH]
        omega
      simp only [Command.encode_ok c hbig, SCALPEL.Packet.fromPayload, if_pos hl]
      exact ⟨_, rfl⟩
    · have : c.encode = .error .payloadTooLarge := by
        unfold Command.encode
        simp only
        rw [if_pos (by omega)]
      simp only [this]
      exact ⟨_, rfl⟩

theorem resendAll_pendingCommands (l : List ProtocolPending) :
    ∀ p : AVCProtocol, (resendAll p l).1.pendingCommands = p.pendingCommands := by
  induction l with
  | nil =>
    intro p
    rfl
  | cons pending rest ih =>
    intro p
    unfold resendAll
    split
    · rfl
    · rw [ih]
      rfl

theorem retransmitScan_retryCount (now : Nat) (m : List (Nat × ProtocolPending))
    (h : ∀ e ∈ m, 0 ≤ e.2.retryCount ∧ e.2.retryCount ≤ 5) :
    ∀ e ∈ (retransmitScan now m).1, 0 ≤ e.2.retryCount ∧ e.2.retryCount ≤ 5 := by
  induction m with
  | nil =>
    intro e he
    cases he
  | cons x rest ih =>
    obtain ⟨k, pc⟩ := x
    have hrest := ih (fun e he => h e (List.mem_cons_of_mem _ he))
    have hx := h (k, pc) (List.mem_cons_self _ _)
    intro e he
    unfold retransmitScan at he
    simp only at he
    by_cases h1 : now - pc.timestamp ≥ retryInterval
    · by_cases h2 : pc.retryCount < maxRetries
      · rw [if_pos h1, if_pos h2] at he
        simp only [maxRetries] at h2
        rcases List.mem_cons.1 he with he | he
        · rw [he]
          simp only at hx ⊢
          omega
        · exact hrest e he
      · rw [if_pos h1, if_neg h2] at he
        exact hrest e he
    · rw [if_neg h1] at he
      rcases List.mem_cons.1 he with he | he
      · rw [he]
        exact hx
      · exact hrest e he

/-- Every entry of the pending map of a reachable state has a retry count
between 0 and 5. -/
theorem reachable_pending_retryCount (p : AVCProtocol) (h : Reachable p) :
    ∀ e ∈ p.pendingCommands, 0 ≤ e.2.retryCount ∧ e.2.retryCount ≤ 5 := by
  induction h with
  | init =>
    intro e he
    cases he
  | sendCommand p c now _ ih =>
    intro e he
    by_cases hc : c.isValid = true ∧ c.payload.length ≤ 24
    · obtain ⟨frame, r, -, -, hs⟩ := sendCommand_ok p c now hc.1 hc.2
      rw [hs] at he
      rcases UMap.mem_insert _ _ _ _ he with he | he
      · exact ih e he
      · rw [he]
        simp
    · have : c.isValid = false ∨ 24 < c.payload.length := by
        by_cases hv : c.isValid = true
        · exact Or.inr (by
            by_contra hh
            exact hc ⟨hv, by omega⟩)
        · exact Or.inl (by simpa using hv)
      obtain ⟨err, hs⟩ := sendCommand_error p c now this
      rw [hs] at he
      exact ih e he
  | handleAcknowledgment p n _ ih =>
    intro e he
    unfold handleAcknowledgment at he
    split at he
    · exact ih e (UMap.mem_erase _ _ _ he)
    · exact ih e he
  | retransmissionStep p now _ ih =>
    intro e he
    unfold retransmissionStep at he
    simp only at he
    rw [resendAll_pendingCommands] at he
    exact retransmitScan_retryCount now _ ih e he

end AVCProtocol

/-! ## Claims on acknowledgment, retry counts and sendCommand -/

/-- C28: acknowledgment is idempotent.  For every state of the `CommandManager`
and of the `AVCProtocol` and every command number `n`, applying
`handleAcknowledgment(n)` twice gives the same state (map, queue and all) as
applying it once, and applying it for an `n` that is not in the map leaves the
state unchanged. -/
theorem acknowledgment_idempotent :
    (∀ (s : CommandManager) (n : Nat),
      (s.handleAcknowledgment n).handleAcknowledgment n = s.handleAcknowledgment n ∧
      (UMap.find s.pendingCommandsMap n = none → s.handleAcknowledgment n = s)) ∧
    (∀ (p : AVCProtocol) (n : Nat),
      (p.handleAcknowledgment n).handleAcknowledgment n = p.handleAcknowledgment n ∧
      (UMap.find p.pendingCommands n = none → p.handleAcknowledgment n = p)) := by
  have hcm : ∀ (s : CommandManager) (n : Nat),
      UMap.find s.pendingCommandsMap n = none → s.handleAcknowledgment n = s := by
    intro s n h
    unfold CommandManager.handleAcknowledgment
    rw [h]
  have hap : ∀ (p : AVCProtocol) (n : Nat),
      UMap.find p.pendingCommands n = none → p.handleAcknowledgment n = p := by
    intro p n h
    unfold AVCProtocol.handleAcknowledgment
    rw [h]
  refine ⟨fun s n => ⟨?_, hcm s n⟩, fun p n => ⟨?_, hap p n⟩⟩
  · apply hcm
    unfold CommandManager.handleAcknowledgment
    cases h : UMap.find s.pendingCommandsMap n with
    | none => exact h
    | some v => exact UMap.find_erase_self _ _
  · apply hap
    unfold AVCProtocol.handleAcknowledgment
    cases h : UMap.find p.pendingCommands n with
    | none => exact h
    | some v => exact UMap.find_erase_self _ _

theorem acknowledgment_idempotent_witness :
    UMap.find (CommandManager.empty.addCommand (Command.new 1 2 CommandNumber.FIN_TEST [0x01])
        1 0).1.pendingCommandsMap 102 = none ∧
      (CommandManager.empty.addCommand (Command.new 1 2 CommandNumber.FIN_TEST [0x01])
        1 0).1.handleAcknowledgment 102
        = (CommandManager.empty.addCommand (Command.new 1 2 CommandNumber.FIN_TEST [0x01])
          1 0).1 :=
  ⟨by decide, (acknowledgment_idempotent.1 _ 102).2 (by decide)⟩

/-- C29: in every state of the `CommandManager` reachable from the constructed
one by `addCommand`, `handleAcknowledgment`, `getNextCommand` and passes of the
worker, every `PendingCommand` record has `0 ≤ retryCount ≤ maxRetries = 5`;
and so has every entry of the pending map of an `AVCProtocol` reachable by
`sendCommand`, `handleAcknowledgment` and passes of the retransmission loop. -/
theorem retry_count_bounded :
    (∀ s : CommandManager, CommandManager.Reachable s →
      ∀ r ∈ s.heap, 0 ≤ r.retryCount ∧ r.retryCount ≤ CommandManager.maxRetries) ∧
    (∀ p : AVCProtocol, AVCProtocol.Reachable p →
      ∀ e ∈ p.pendingCommands, 0 ≤ e.2.retryCount ∧
        e.2.retryCount ≤ AVCProtocol.maxRetries) :=
  ⟨CommandManager.reachable_retryCount, AVCProtocol.reachable_pending_retryCount⟩

theorem retry_count_bounded_witness :
    ∀ r ∈ ((CommandManager.empty.addCommand (Command.new 1 2 CommandNumber.FIN_TEST [0x01])
        1 0).1.workerStepAt 500 0).1.heap,
      0 ≤ r.retryCount ∧ r.retryCount ≤ CommandManager.maxRetries :=
  retry_count_bounded.1 _
    (CommandManager.Reachable.workerStep _ 500 0
      (CommandManager.Reachable.addCommand _ (Command.new 1 2 CommandNumber.FIN_TEST [0x01])
        1 0 CommandManager.Reachable.empty)
      (by decide))

/-- C30: `AVCProtocol::sendCommand(c)` throws and leaves the state as it was
(nothing handed to the transport, pending map unchanged) whenever `c` is
invalid or its payload is longer than 24 bytes, so that the encoded message
exceeds 28 bytes; otherwise it returns, has handed exactly one byte sequence to
the transport (the stuffed form of the frame of the encoded message followed by
its CRC-8), and the pending map sends the number of `c` to a record of `c` with
the time of the call and retry count 0. -/
theorem sendCommand_contract (p : AVCProtocol) (c : Command) (now : Nat) :
    ((c.isValid = false ∨ 24 < c.payload.length) →
      ∃ e, p.sendCommand c now = (p, .error e)) ∧
    (c.isValid = true → c.payload.length ≤ 24 →
      ∃ frame r,
        SCALPEL.frameOf ([c.header.pack, 0x01, c.commandNumber, c.payload.length] ++ c.payload)
          = .ok frame ∧
        SCALPEL.COBS.encode (frame ++ [SCALPEL.Checksum.calculateCRC8
          ([c.header.pack, 0x01, c.commandNumber, c.payload.length] ++ c.payload)]) = .ok r ∧
        (p.sendCommand c now).2 = .ok () ∧
        (p.sendCommand c now).1.sendQueue = p.sendQueue ++ [r.encodedPayload] ∧
        (p.sendCommand c now).1.pendingCommands
          = UMap.insert p.pendingCommands (c.getCommandNumber % 256)
              { command := c, timestamp := now, retryCount := 0 } ∧
        UMap.find (p.sendCommand c now).1.pendingCommands (c.getCommandNumber % 256)
          = some { command := c, timestamp := now, retryCount := 0 }) := by
  refine ⟨AVCProtocol.sendCommand_error p c now, ?_⟩
  intro hv hlen
  obtain ⟨frame, r, hframe, hr, hs⟩ := AVCProtocol.sendCommand_ok p c now hv hlen
  refine ⟨frame, r, hframe, hr, ?_, ?_, ?_, ?_⟩
  · rw [hs]
  · rw [hs]
  · rw [hs]
  · rw [hs]
    exact UMap.find_insert_self _ _ _

theorem sendCommand_contract_witness :
    (∃ e, AVCProtocol.init.sendCommand (Command.new 1 2 CommandNumber.INVALID [0x01]) 7
        = (AVCProtocol.init, .error e)) ∧
      (AVCProtocol.init.sendCommand (Command.new 1 2 CommandNumber.FIN_TEST [0x01]) 7).2
        = .ok () :=
  ⟨(sendCommand_contract AVCProtocol.init (Command.new 1 2 CommandNumber.INVALID [0x01]) 7).1
      (Or.inl (by decide)),
    by
      obtain ⟨_, _, _, _, h, _⟩ :=
        (sendCommand_contract AVCProtocol.init
          (Command.new 1 2 CommandNumber.FIN_TEST [0x01]) 7).2 (by decide) (by decide)
      exact h⟩

end AVC
end RocketLink

/-! ## Test vectors and algebraic properties of the checksum and of the stuffing -/

namespace SCALPEL

set_option maxRecDepth 100000 in
/-- C35 (refuted on the code): `calculateCRC8` of the eight bytes `01 .. 08` is
`0x3E`, not the `0x5B` that `ChecksumTest.CalculateCRC8` expects, and
`calculateCRC8` of the single byte `0xAA` is `0x5F`, not the `0x4B` that
`ChecksumTest.EdgeCases` expects. -/
theorem crc8_test_vectors_fail :
    Checksum.calculateCRC8 [0x01, 0x02, 0x03, 0x04, 0x05, 0x06, 0x07, 0x08] = 0x3E ∧
      Checksum.calculateCRC8 [0x01, 0x02, 0x03, 0x04, 0x05, 0x06, 0x07, 0x08] ≠ 0x5B ∧
      Checksum.calculateCRC8 [0xAA] = 0x5F ∧
      Checksum.calculateCRC8 [0xAA] ≠ 0x4B := by
  decide

/-- C37 (refuted on the code): `COBS::encode([1, 2, 0xAA, 3, 4])` returns the
encoded payload `[3, 1, 2, 3, 3, 4]` with index 1, not the `[3, 1, 2, 1, 3, 4]`
that `COBSTest.EncodeWithStartByte` expects, and
`COBS::decode([3, 1, 2, 1, 3, 4], 1)` throws "unexpected start byte" where
`COBSTest.DecodeWithStartByte` expects `[1, 2, 0xAA, 3, 4]`. -/
theorem cobs_test_vectors_fail :
    COBS.encode [1, 2, 0xAA, 3, 4] = .ok { encodedPayload := [3, 1, 2, 3, 3, 4], index := 1 } ∧
      COBS.encode [1, 2, 0xAA, 3, 4]
        ≠ .ok { encodedPayload := [3, 1, 2, 1, 3, 4], index := 1 } ∧
      COBS.decode [3, 1, 2, 1, 3, 4] 1 = .error .unexpectedStartByte ∧
      COBS.decode [3, 1, 2, 1, 3, 4] 1 ≠ .ok [1, 2, 0xAA, 3, 4] := by
  decide

namespace Checksum

/-- The body of the byte loop is linear over XOR. -/
theorem crcByteStep_xor (c1 c2 x y : Nat) :
    crcByteStep (c1 ^^^ c2) (x ^^^ y) = crcByteStep c1 x ^^^ crcByteStep c2 y := by
  apply bytePoly_injective _ _ (crcByteStep_lt _ _)
    (Nat.xor_lt_two_pow (n := 8) (crcByteStep_lt _ _) (crcByteStep_lt _ _))
  rw [bytePoly_xor, bytePoly_crcByteStep, bytePoly_crcByteStep, bytePoly_crcByteStep,
    bytePoly_xor, bytePoly_xor, ← Polynomial.add_modByMonic]
  congr 1
  ring

theorem foldl_crcByteStep_xor (a : List Nat) :
    ∀ (b : List Nat) (c1 c2 : Nat), a.length = b.length →
      (List.zipWith (fun x y => x ^^^ y) a b).foldl crcByteStep (c1 ^^^ c2)
        = a.foldl crcByteStep c1 ^^^ b.foldl crcByteStep c2 := by
  induction a with
  | nil =>
    intro b c1 c2 h
    cases b with
    | nil => rfl
    | cons y b => cases h
  | cons x a ih =>
    intro b c1 c2 h
    cases b with
    | nil => cases h
    | cons y b =>
      simp only [List.zipWith_cons_cons, List.foldl_cons]
      rw [crcByteStep_xor]
      exact ih b _ _ (by simpa using h)

theorem crcByteStep_self (c : Nat) : crcByteStep c c = 0 := by
  unfold crcByteStep
  rw [Nat.xor_self]
  rfl

end Checksum

/-- C40: the CRC-8 residue and linearity.  For every byte sequence `d`,
`calculateCRC8(d ++ [calculateCRC8(d)])` is `0x00`; and for every two byte
sequences `a`, `b` of equal length, `calculateCRC8` of their bytewise XOR is
the XOR of `calculateCRC8(a)` and `calculateCRC8(b)`. -/
theorem crc8_residue_and_linearity :
    (∀ d : List Nat, Checksum.calculateCRC8 (d ++ [Checksum.calculateCRC8 d]) = 0x00) ∧
    (∀ a b : List Nat, a.length = b.length →
      Checksum.calculateCRC8 (List.zipWith (fun x y => x ^^^ y) a b)
        = Checksum.calculateCRC8 a ^^^ Checksum.calculateCRC8 b) := by
  constructor
  · intro d
    unfold Checksum.calculateCRC8
    rw [List.foldl_append, List.foldl_cons, List.foldl_nil]
    exact Checksum.crcByteStep_self _
  · intro a b h
    unfold Checksum.calculateCRC8
    have := Checksum.foldl_crcByteStep_xor a b 0 0 h
    simpa using this

theorem crc8_residue_and_linearity_witness :
    [0x01, 0xAA, 0xFF].length = [0x80, 0x55, 0x0F].length ∧
      Checksum.calculateCRC8 (List.zipWith (fun x y => x ^^^ y) [0x01, 0xAA, 0xFF] [0x80, 0x55, 0x0F])
        = Checksum.calculateCRC8 [0x01, 0xAA, 0xFF] ^^^ Checksum.calculateCRC8 [0x80, 0x55, 0x0F] :=
  ⟨rfl, crc8_residue_and_linearity.2 [0x01, 0xAA, 0xFF] [0x80, 0x55, 0x0F] rfl⟩

end SCALPEL

namespace RocketLink
namespace AVC

/-- C36 (refuted on the code): `pack()` puts the receiver, not the sender, in
the high nibble.  The header with sender 5 and receiver 7 packs to `0x75`, not
`0x57`, and the header with sender `0xA` and receiver `0xB` packs to `0xBA`,
not `0xAB`; `unpack` of `0x57` yields sender 7 and receiver 5, and `unpack` of
`0xAB` yields sender `0xB` and receiver `0xA`. -/
theorem header_test_vectors_fail :
    CommandHeader.pack { senderID := 5, receiverID := 7 } = 0x75 ∧
      CommandHeader.unpack 0x57 = { senderID := 7, receiverID := 5 } ∧
      TelemetryHeader.pack { senderID := 0x0A, receiverID := 0x0B } = 0xBA ∧
      TelemetryHeader.unpack 0xAB = { senderID := 0x0B, receiverID := 0x0A } := by
  decide

end AVC
end RocketLink

/-! ## The telemetry ring buffer -/

namespace RocketLink
namespace AVC
namespace TelemetryBuffer

theorem holds_new (c : Nat) : Holds c (new c) [] := by
  refine ⟨by simp [new], rfl, ?_, ?_, ?_⟩
  · simp [new]
  · simp [new]
  · intro k hk
    cases hk

theorem mod_ne_of_lt {c k n : Nat} (hkn : k < n) (hnc : n < k + c) : k % c ≠ n % c := by
  intro h
  have h0 : (n - k) % c = 0 := Nat.sub_mod_eq_zero_of_mod_eq h.symm
  have hd : c ∣ n - k := Nat.dvd_of_mod_eq_zero h0
  have := Nat.le_of_dvd (by omega) hd
  omega

theorem holds_add {c : Nat} (hc : 0 < c) {b : TelemetryBuffer} {ts : List Telemetry}
    (h : Holds c b ts) (t : Telemetry) : Holds c (b.addTelemetry t) (ts ++ [t]) := by
  obtain ⟨hlen, hcap, hhead, hcount, hdata⟩ := h
  have hn : (ts ++ [t]).length = ts.length + 1 := by simp
  refine ⟨?_, hcap, ?_, ?_, ?_⟩
  · simp [addTelemetry, hlen]
  · simp only [addTelemetry, hcap, hhead, hn]
    exact Nat.mod_add_mod _ _ _
  · simp only [addTelemetry, hcap, hcount, hn]
    rw [Nat.min_def, Nat.min_def]
    split <;> split <;> split <;> omega
  · intro k hk hkc
    rw [hn] at hk hkc
    simp only [addTelemetry, hhead]
    by_cases hkn : k = ts.length
    · subst hkn
      have hlt : ts.length % c < (b.buffer.set (ts.length % c) t).length := by
        rw [List.length_set, hlen]
        exact Nat.mod_lt _ hc
      rw [List.getD_eq_getElem _ _ hlt, List.getElem_set_self]
      rw [List.getD_eq_getElem _ _ (by simp)]
      simp
    · have hk' : k < ts.length := by omega
      have hne : ts.length % c ≠ k % c := fun e => mod_ne_of_lt hk' (by omega) e.symm
      have e1 : (b.buffer.set (ts.length % c) t).getD (k % c) Telemetry.default
          = b.buffer.getD (k % c) Telemetry.default := by
        simp only [List.getD_eq_getElem?_getD, List.getElem?_set_ne hne]
      rw [e1, hdata k hk' (by omega), List.getD_append _ _ _ _ hk']

theorem holds_foldl {c : Nat} (hc : 0 < c) (ts' : List Telemetry) :
    ∀ (b : TelemetryBuffer) (ts : List Telemetry), Holds c b ts →
      Holds c (ts'.foldl addTelemetry b) (ts ++ ts') := by
  induction ts' with
  | nil =>
    intro b ts h
    simpa using h
  | cons t ts' ih =>
    intro b ts h
    have := ih (b.addTelemetry t) (ts ++ [t]) (holds_add hc h t)
    simpa using this

/-- The slot of the `i`-th oldest record. -/
theorem slot_index {c n i : Nat} (hi : i < min n c) :
    (n % c + c - min n c + i) % c = (n - min n c + i) % c := by
  by_cases hnc : n < c
  · have hm : min n c = n := Nat.min_eq_left (by omega)
    rw [hm, Nat.mod_eq_of_lt hnc]
    have e : n + c - n + i = i + c := by omega
    rw [e, Nat.add_mod_right]
    congr 1
    omega
  · have hm : min n c = c := Nat.min_eq_right (by omega)
    rw [hm]
    have e1 : n % c + c - c + i = n % c + i := by omega
    have e2 : (n - c + i) % c = (n - c + i + c) % c := (Nat.add_mod_right _ _).symm
    have e3 : n - c + i + c = n + i := by omega
    rw [e1, e2, e3, Nat.mod_add_mod]

theorem holds_get {c : Nat} {b : TelemetryBuffer} {ts : List Telemetry}
    (h : Holds c b ts) (i : Nat) (hi : i < b.count) :
    b.buffer.getD ((b.head + b.maxCapacity - b.count + i) % b.maxCapacity) Telemetry.default
      = ts.getD (ts.length - min ts.length c + i) Telemetry.default := by
  obtain ⟨-, hcap, hhead, hcount, hdata⟩ := h
  rw [hcount] at hi
  rw [hcap, hhead, hcount, slot_index hi]
  have hle1 : min ts.length c ≤ ts.length := Nat.min_le_left _ _
  have hle2 : min ts.length c ≤ c := Nat.min_le_right _ _
  exact hdata _ (by omega) (by omega)

theorem foldl_push {α β : Type} (f : β → α) (l : List β) :
    ∀ init : List α, l.foldl (fun acc i => acc ++ [f i]) init = init ++ l.map f := by
  induction l with
  | nil =>
    intro init
    simp
  | cons x l ih =>
    intro init
    rw [List.foldl_cons, ih]
    simp

theorem holds_getAll {c : Nat} {b : TelemetryBuffer} {ts : List Telemetry}
    (h : Holds c b ts) :
    b.getAllTelemetry = ts.drop (ts.length - min ts.length c) := by
  have hcount := h.2.2.2.1
  have hle1 : min ts.length c ≤ ts.length := Nat.min_le_left _ _
  unfold getAllTelemetry
  rw [foldl_push (fun i => b.buffer.getD
    ((b.head + b.maxCapacity - b.count + i) % b.maxCapacity) Telemetry.default)]
  apply List.ext_getElem
  · simp only [List.nil_append, List.length_map, List.length_range, List.length_drop, hcount]
    omega
  · intro i h1 h2
    simp only [List.nil_append, List.length_map, List.length_range] at h1
    simp only [List.nil_append, List.getElem_map, List.getElem_range, List.getElem_drop]
    rw [holds_get h i h1, List.getD_eq_getElem _ _ (by rw [hcount] at h1; omega)]

end TelemetryBuffer

/-- C34: for a `TelemetryBuffer` of capacity `c > 0` and any sequence `ts` of
records added by `addTelemetry`, `size()` is `min(|ts|, c)`,
`getAllTelemetry()` is the last `min(|ts|, c)` records of `ts` from oldest to
newest, `getTelemetryAt(i)` is the `i`-th element of that list for
`i < size()` and nothing for `i ≥ size()`, and `getLatestTelemetry()` is the
last record of `ts` (nothing when `ts` is empty). -/
theorem telemetryBuffer_contract (c : Nat) (hc : 0 < c) (ts : List Telemetry) :
    (ts.foldl TelemetryBuffer.addTelemetry (TelemetryBuffer.new c)).size = min ts.length c ∧
    (ts.foldl TelemetryBuffer.addTelemetry (TelemetryBuffer.new c)).getAllTelemetry
      = ts.drop (ts.length - min ts.length c) ∧
    (∀ i, i < (ts.foldl TelemetryBuffer.addTelemetry (TelemetryBuffer.new c)).size →
      (ts.foldl TelemetryBuffer.addTelemetry (TelemetryBuffer.new c)).getTelemetryAt i
        = (ts.drop (ts.length - min ts.length c))[i]?) ∧
    (∀ i, (ts.foldl TelemetryBuffer.addTelemetry (TelemetryBuffer.new c)).size ≤ i →
      (ts.foldl TelemetryBuffer.addTelemetry (TelemetryBuffer.new c)).getTelemetryAt i = none) ∧
    (ts.foldl TelemetryBuffer.addTelemetry (TelemetryBuffer.new c)).getLatestTelemetry
      = ts.getLast? := by
  have h : TelemetryBuffer.Holds c
      (ts.foldl TelemetryBuffer.addTelemetry (TelemetryBuffer.new c)) ts := by
    have := TelemetryBuffer.holds_foldl hc ts _ [] (TelemetryBuffer.holds_new c)
    simpa using this
  generalize ts.foldl TelemetryBuffer.addTelemetry (TelemetryBuffer.new c) = b at h
  have hcount := h.2.2.2.1
  have hcap := h.2.1
  have hhead := h.2.2.1
  have hle1 : min ts.length c ≤ ts.length := Nat.min_le_left _ _
  have hle2 : min ts.length c ≤ c := Nat.min_le_right _ _
  refine ⟨hcount, TelemetryBuffer.holds_getAll h, ?_, ?_, ?_⟩
  · intro i hi
    have hi' : i < b.count := hi
    unfold TelemetryBuffer.getTelemetryAt
    rw [if_neg (by omega)]
    simp only
    rw [TelemetryBuffer.holds_get h i hi', List.getElem?_drop]
    rw [hcount] at hi'
    rw [List.getD_eq_getElem _ _ (by omega), List.getElem?_eq_getElem (by omega)]
  · intro i hi
    have hi' : i ≥ b.count := hi
    unfold TelemetryBuffer.getTelemetryAt
    rw [if_pos hi']
  · unfold TelemetryBuffer.getLatestTelemetry
    by_cases h0 : b.count = 0
    · rw [if_pos h0]
      have : ts = [] := by
        rw [hcount] at h0
        have : ts.length = 0 := by
          rw [Nat.min_def] at h0
          split at h0 <;> omega
        exact List.length_eq_zero.1 this
      rw [this]
      rfl
    · rw [if_neg h0]
      simp only
      have hpos : 0 < b.count := by omega
      have hg := TelemetryBuffer.holds_get h (b.count - 1) (by omega)
      have e1 : b.head + b.maxCapacity - b.count + (b.count - 1)
          = b.head + b.maxCapacity - 1 := by
        rw [hcap, hcount]
        rw [hcount] at hpos
        omega
      have e2 : ts.length - min ts.length c + (b.count - 1) = ts.length - 1 := by
        rw [hcount]
        rw [hcount] at hpos
        omega
      rw [e1, e2] at hg
      rw [hg, List.getLast?_eq_getElem?]
      have hn : 0 < ts.length := by
        rw [hcount] at hpos
        omega
      rw [List.getD_eq_getElem _ _ (by omega), List.getElem?_eq_getElem (by omega)]

theorem telemetryBuffer_contract_witness :
    0 < 2 ∧
      ([Telemetry.default,
        Telemetry.new 1 2 TelemetryDescriptor.TELEMETRY_A 1 2 3 4 5 6 7 8 9 10 11 (1, 2, 3) 4,
        Telemetry.new 3 4 TelemetryDescriptor.TELEMETRY_B 5 6 (-7) 8 9 10 11 12 13 14 15 (4, 5, 6)
          7].foldl TelemetryBuffer.addTelemetry (TelemetryBuffer.new 2)).getAllTelemetry
      = [Telemetry.new 1 2 TelemetryDescriptor.TELEMETRY_A 1 2 3 4 5 6 7 8 9 10 11 (1, 2, 3) 4,
         Telemetry.new 3 4 TelemetryDescriptor.TELEMETRY_B 5 6 (-7) 8 9 10 11 12 13 14 15
           (4, 5, 6) 7] :=
  ⟨by decide,
    (telemetryBuffer_contract 2 (by decide)
      [Telemetry.default,
        Telemetry.new 1 2 TelemetryDescriptor.TELEMETRY_A 1 2 3 4 5 6 7 8 9 10 11 (1, 2, 3) 4,
        Telemetry.new 3 4 TelemetryDescriptor.TELEMETRY_B 5 6 (-7) 8 9 10 11 12 13 14 15 (4, 5, 6)
          7]).2.1⟩

end AVC
end RocketLink

/-! ## The pending map and the queue of the CommandManager -/

namespace RocketLink
namespace AVC

theorem UMap.mem_erase_iff {α : Type} (m : List (Nat × α)) (k : Nat) (e : Nat × α) :
    e ∈ UMap.erase m k ↔ e ∈ m ∧ e.1 ≠ k := by
  unfold UMap.erase
  rw [List.mem_filter]
  simp

namespace CommandManager

theorem deref_append (s : CommandManager) (r : PendingCommand) (qs : List Nat)
    (m : List (Nat × Nat)) (a : Nat) (ha : a < s.heap.length) :
    deref { heap := s.heap ++ [r], commandQueue := qs, pendingCommandsMap := m } a
      = s.deref a := by
  unfold deref
  exact List.getD_append _ _ _ _ ha

theorem deref_set (s : CommandManager) (r : PendingCommand) (qs : List Nat)
    (m : List (Nat × Nat)) (a b : Nat) :
    deref { heap := s.heap.set a r, commandQueue := qs, pendingCommandsMap := m } b
      = if b = a ∧ a < s.heap.length then r else s.deref b := by
  unfold deref
  simp only [List.getD_eq_getElem?_getD]
  by_cases hba : b = a
  · subst hba
    by_cases hlt : b < s.heap.length
    · rw [if_pos ⟨rfl, hlt⟩, List.getElem?_set_self hlt]
      rfl
    · rw [if_neg (fun h => hlt h.2), List.getElem?_eq_none (by simp; omega),
        List.getElem?_eq_none (by omega)]
  · rw [if_neg (fun h => hba h.1), List.getElem?_set_ne (fun h => hba h.symm)]

/-- The invariant behind C39: the pointers of the queue are allocated, and every
entry of the map refers to a record of the queue whose command has the number
of the entry. -/
theorem reachable_map_queue (s : CommandManager) (h : Reachable s) :
    (∀ a ∈ s.commandQueue, a < s.heap.length) ∧
      ∀ e ∈ s.pendingCommandsMap, e.2 ∈ s.commandQueue ∧
        (s.deref e.2).command.getCommandNumber % 256 = e.1 := by
  have remove : ∀ (s : CommandManager) (a : Nat),
      ((∀ a ∈ s.commandQueue, a < s.heap.length) ∧
        ∀ e ∈ s.pendingCommandsMap, e.2 ∈ s.commandQueue ∧
          (s.deref e.2).command.getCommandNumber % 256 = e.1) →
      ((∀ b ∈ s.commandQueue.erase a, b < s.heap.length) ∧
        ∀ e ∈ UMap.erase s.pendingCommandsMap ((s.deref a).command.getCommandNumber % 256),
          e.2 ∈ s.commandQueue.erase a ∧
          (s.deref e.2).command.getCommandNumber % 256 = e.1) := by
    intro s a ih
    refine ⟨fun b hb => ih.1 b (List.mem_of_mem_erase hb), ?_⟩
    intro e he
    rw [UMap.mem_erase_iff] at he
    obtain ⟨hq, hnum⟩ := ih.2 e he.1
    refine ⟨?_, hnum⟩
    have hne : e.2 ≠ a := by
      intro heq
      rw [heq] at hnum
      exact he.2 hnum.symm
    exact (List.mem_erase_of_ne hne).2 hq
  induction h with
  | empty =>
    exact ⟨fun a ha => (by cases ha), fun e he => (by cases he)⟩
  | addCommand s command priority now _ ih =>
    constructor
    · intro a ha
      simp only [addCommand, List.mem_append, List.mem_singleton, List.length_append,
        List.length_singleton] at ha ⊢
      rcases ha with ha | ha
      · have := ih.1 a ha
        omega
      · omega
    · intro e he
      simp only [addCommand] at he ⊢
      rcases UMap.mem_insert _ _ _ _ he with he | he
      · obtain ⟨hq, hnum⟩ := ih.2 e he
        refine ⟨List.mem_append_left _ hq, ?_⟩
        rw [deref_append s _ _ _ _ (ih.1 _ hq)]
        exact hnum
      · rw [he]
        refine ⟨by simp, ?_⟩
        simp only [deref, PendingCommand.new]
        rw [List.getD_append_right _ _ _ _ (le_refl _)]
        simp
  | handleAcknowledgment s n _ ih =>
    unfold handleAcknowledgment
    split
    · exact ⟨ih.1, fun e he => ih.2 e (UMap.mem_erase _ _ _ he)⟩
    · exact ih
  | getNextCommand s a _ _ ih =>
    exact remove s a ih
  | workerStep s now a _ htop ih =>
    by_cases h1 : now ≥ (s.deref a).lastSentTime + timeoutInterval
    · by_cases h2 : (s.deref a).retryCount ≥ maxRetries
      · simp only [workerStepAt, if_pos h1, if_pos h2]
        exact remove s a ih
      · simp only [workerStepAt, if_pos h1, if_neg h2]
        constructor
        · intro b hb
          rw [List.length_set]
          rcases List.mem_append.1 hb with hb | hb
          · exact ih.1 b (List.mem_of_mem_erase hb)
          · rw [List.mem_singleton.1 hb]
            exact ih.1 a htop.1
        · intro e he
          obtain ⟨hq, hnum⟩ := ih.2 e he
          constructor
          · by_cases hea : e.2 = a
            · rw [hea]
              simp
            · exact List.mem_append_left _ ((List.mem_erase_of_ne hea).2 hq)
          · rw [deref_set]
            by_cases hea : e.2 = a ∧ a < s.heap.length
            · rw [if_pos hea]
              simp only
              rw [← hea.1]
              exact hnum
            · rw [if_neg hea]
              exact hnum
    · simp only [workerStepAt, if_neg h1]
      exact ih

end CommandManager

/-- C39: in every state of the `CommandManager` reachable from the constructed
one by `addCommand`, `handleAcknowledgment`, `getNextCommand` and passes of the
worker, every record the pending map refers to is in the priority queue. -/
theorem map_records_are_queued (s : CommandManager) (h : CommandManager.Reachable s) :
    ∀ e ∈ s.pendingCommandsMap, e.2 ∈ s.commandQueue :=
  fun e he => ((CommandManager.reachable_map_queue s h).2 e he).1

theorem map_records_are_queued_witness :
    (101, 0) ∈ (((CommandManager.empty.addCommand
        (Command.new 1 2 CommandNumber.FIN_TEST [0x01]) 1 0).1.addCommand
          (Command.new 1 2 102 [0x02]) 9 1).1.getNextCommandAt 1).1.pendingCommandsMap ∧
      0 ∈ (((CommandManager.empty.addCommand
        (Command.new 1 2 CommandNumber.FIN_TEST [0x01]) 1 0).1.addCommand
          (Command.new 1 2 102 [0x02]) 9 1).1.getNextCommandAt 1).1.commandQueue :=
  ⟨by decide,
    map_records_are_queued _
      (CommandManager.Reachable.getNextCommand _ 1
        (CommandManager.Reachable.addCommand _ (Command.new 1 2 102 [0x02]) 9 1
          (CommandManager.Reachable.addCommand _
            (Command.new 1 2 CommandNumber.FIN_TEST [0x01]) 1 0
            CommandManager.Reachable.empty))
        (by decide))
      (101, 0) (by decide)⟩

end AVC
end RocketLink

/-! ## The receive path and the retransmissions of the AVCProtocol -/

namespace SCALPEL
namespace COBS

theorem encodeStep_length_ge (st : EncodeState) (b : Nat) :
    st.encoded.length + 1 ≤ (encodeStep st b).encoded.length := by
  unfold encodeStep
  split
  · simp only [List.length_append, List.length_set, List.length_singleton]
    omega
  · simp only
    split
    · simp only [List.length_append, List.length_set, List.length_singleton]
      omega
    · simp only [List.length_append, List.length_singleton]
      omega

theorem foldl_encodeStep_length_ge (l : List Nat) :
    ∀ st : EncodeState,
      st.encoded.length + l.length ≤ (l.foldl encodeStep st).encoded.length := by
  induction l with
  | nil =>
    intro st
    simp
  | cons b l ih =>
    intro st
    have h1 := ih (encodeStep st b)
    have h2 := encodeStep_length_ge st b
    simp only [List.foldl_cons, List.length_cons]
    omega

/-- The stuffed sequence is longer than the input. -/
theorem encode_length_ge {P : List Nat} {r : COBSResult} (h : encode P = .ok r) :
    P.length + 1 ≤ r.encodedPayload.length := by
  unfold encode at h
  simp only at h
  split at h
  · cases h
  · simp only [Except.ok.injEq] at h
    rw [← h]
    have := foldl_encodeStep_length_ge P encodeInit
    simp only [List.length_set]
    simpa [encodeInit, Nat.add_comm] using this

end COBS
end SCALPEL

namespace RocketLink
namespace AVC
namespace AVCProtocol

/-- The lookup in `descriptorHandlers`, by cases on the descriptor. -/
theorem handleIncomingPacket_eq (p : AVCProtocol) (data : List Nat) :
    handleIncomingPacket p data =
      if data.length < 2 then (p, .packetTooShort)
      else if data.getD 1 0 = 0x01 then commandHandler p data
      else if data.getD 1 0 = 0x10 then telemetryAHandler p data
      else if data.getD 1 0 = 0x11 then telemetryBHandler p data
      else if data.getD 1 0 = 0x02 then acknowledgmentHandler p data
      else (p, .unknownDescriptor (data.getD 1 0)) := by
  unfold handleIncomingPacket
  by_cases h0 : data.length < 2
  · rw [if_pos h0, if_pos h0]
  · rw [if_neg h0, if_neg h0]
    simp only
    by_cases h1 : data.getD 1 0 = 0x01
    · rw [if_pos h1, h1]
      rfl
    · rw [if_neg h1]
      by_cases h2 : data.getD 1 0 = 0x10
      · rw [if_pos h2, h2]
        rfl
      · rw [if_neg h2]
        by_cases h3 : data.getD 1 0 = 0x11
        · rw [if_pos h3, h3]
          rfl
        · rw [if_neg h3]
          by_cases h4 : data.getD 1 0 = 0x02
          · rw [if_pos h4, h4]
            rfl
          · rw [if_neg h4]
            have hnone : UMap.find descriptorHandlers (data.getD 1 0) = none := by
              rw [UMap.find_eq_none]
              intro e he
              have hkeys : e.1 = 0x01 ∨ e.1 = 0x10 ∨ e.1 = 0x11 ∨ e.1 = 0x02 := by
                have hd : descriptorHandlers
                    = [(0x01, commandHandler), (0x10, telemetryAHandler),
                       (0x11, telemetryBHandler), (0x02, acknowledgmentHandler)] := rfl
                rw [hd] at he
                simp only [List.mem_cons, List.mem_singleton, List.not_mem_nil, or_false] at he
                rcases he with he | he | he | he <;> rw [he] <;> simp
              intro heq
              rw [heq] at hkeys
              rcases hkeys with hk | hk | hk | hk
              · exact h1 hk
              · exact h2 hk
              · exact h3 hk
              · exact h4 hk
            rw [hnone]

/-- Every exit of `handleIncomingPacket` leaves the state as it was, except the
call of `handleAcknowledgment` in the handler of `ACKNOWLEDGMENT`. -/
theorem handleIncomingPacket_state (p : AVCProtocol) (data : List Nat) :
    (handleIncomingPacket p data).1 = p ∨
      (data.getD 1 0 = 0x02 ∧ 3 ≤ data.length ∧
        handleIncomingPacket p data
          = (p.handleAcknowledgment (data.getD 2 0), .acknowledgment (data.getD 2 0))) := by
  rw [handleIncomingPacket_eq]
  split
  · exact Or.inl rfl
  · split
    · exact Or.inl rfl
    · split
      · exact Or.inl rfl
      · split
        · exact Or.inl rfl
        · split
          · rename_i h
            unfold acknowledgmentHandler
            by_cases h3 : data.length < 3
            · rw [if_pos h3]
              exact Or.inl rfl
            · rw [if_neg h3]
              exact Or.inr ⟨h, by omega, rfl⟩
          · exact Or.inl rfl

/-- An input that `COBS::decode` rejects with index 0 is dropped by the `catch`
of `onDataReceived`. -/
theorem onDataReceived_decodeError (p : AVCProtocol) (data : List Nat) (e : SCALPEL.Exn)
    (h : SCALPEL.COBS.decode data 0 = .error e) :
    p.onDataReceived data = (p, .decodeError e) := by
  unfold onDataReceived onDataReceivedTry
  rw [h]

theorem handleAcknowledgment_pendingCommands (p : AVCProtocol) (n : Nat) :
    (p.handleAcknowledgment n).pendingCommands = UMap.erase p.pendingCommands n ∧
      (p.handleAcknowledgment n).sendQueue = p.sendQueue := by
  unfold handleAcknowledgment
  cases h : UMap.find p.pendingCommands n with
  | none => exact ⟨(UMap.erase_of_find_none _ _ h).symm, rfl⟩
  | some v => exact ⟨rfl, rfl⟩

end AVCProtocol

/-- C31 (refuted on the code): a retransmission is not framed.  For every valid
command `c` with a payload of at most 24 bytes sent at time `now` on a fresh
engine, the first transmission hands one byte sequence `raw` to the transport
(the stuffed frame), and the pass of the retransmission loop at any time from
`now + 500` on hands over the bare message `c.encode()`, which differs from
`raw`. -/
theorem retransmission_is_unframed (c : Command) (now d : Nat)
    (hv : c.isValid = true) (hlen : c.payload.length ≤ 24) :
    ∃ raw, (AVCProtocol.init.sendCommand c now).1.sendQueue = [raw] ∧
      ((AVCProtocol.init.sendCommand c now).1.retransmissionStep (now + 500 + d)).1.sendQueue
        = [raw, [c.header.pack, 0x01, c.commandNumber, c.payload.length] ++ c.payload] ∧
      raw ≠ [c.header.pack, 0x01, c.commandNumber, c.payload.length] ++ c.payload := by
  obtain ⟨frame, r, hframe, hr, hs⟩ := AVCProtocol.sendCommand_ok AVCProtocol.init c now hv hlen
  have henc := Command.encode_ok c (by omega)
  refine ⟨r.encodedPayload, ?_, ?_, ?_⟩
  · rw [hs]
    rfl
  · rw [hs]
    have hmap : UMap.insert AVCProtocol.init.pendingCommands (c.getCommandNumber % 256)
        ({ command := c, timestamp := now, retryCount := 0 } : ProtocolPending)
          = [(c.getCommandNumber % 256, { command := c, timestamp := now, retryCount := 0 })] :=
      rfl
    rw [hmap]
    have h1 : now + 500 + d - now ≥ AVCProtocol.retryInterval := by
      simp only [AVCProtocol.retryInterval]
      omega
    have h2 : (0 : Int) < AVCProtocol.maxRetries := by decide
    simp only [AVCProtocol.retransmissionStep, AVCProtocol.retransmitScan, if_pos h1, if_pos h2,
      AVCProtocol.resendAll, henc, AVCProtocol.sendRawPacket, AVCProtocol.init]
    rfl
  · intro heq
    have h1 := SCALPEL.COBS.encode_length_ge hr
    rw [heq] at h1
    simp only [List.length_append, List.length_cons, List.length_nil] at h1
    have hl : ([c.header.pack, 0x01, c.commandNumber, c.payload.length] ++ c.payload).length
        ≤ 28 := by
      simp only [List.length_append, List.length_cons, List.length_nil]
      omega
    obtain ⟨q, frame', pkt, hq, hframe', hshape, -⟩ := SCALPEL.disassemble_frameOf _ hl
    rw [hframe] at hframe'
    simp only [Except.ok.injEq] at hframe'
    rw [← hframe'] at hshape
    have h2 := SCALPEL.COBS.encode_length_ge hq
    rw [hshape] at h1
    simp only [List.length_append, List.length_cons, List.length_nil] at h1 h2
    omega

theorem retransmission_is_unframed_witness :
    ∃ raw, (AVCProtocol.init.sendCommand (Command.new 1 2 CommandNumber.FIN_TEST [0x01])
        0).1.sendQueue = [raw] ∧
      ((AVCProtocol.init.sendCommand (Command.new 1 2 CommandNumber.FIN_TEST [0x01])
        0).1.retransmissionStep (0 + 500 + 0)).1.sendQueue
        = [raw, [(Command.new 1 2 CommandNumber.FIN_TEST [0x01]).header.pack, 0x01,
            (Command.new 1 2 CommandNumber.FIN_TEST [0x01]).commandNumber,
            (Command.new 1 2 CommandNumber.FIN_TEST [0x01]).payload.length]
            ++ (Command.new 1 2 CommandNumber.FIN_TEST [0x01]).payload] ∧
      raw ≠ [(Command.new 1 2 CommandNumber.FIN_TEST [0x01]).header.pack, 0x01,
            (Command.new 1 2 CommandNumber.FIN_TEST [0x01]).commandNumber,
            (Command.new 1 2 CommandNumber.FIN_TEST [0x01]).payload.length]
            ++ (Command.new 1 2 CommandNumber.FIN_TEST [0x01]).payload :=
  retransmission_is_unframed (Command.new 1 2 CommandNumber.FIN_TEST [0x01]) 0 0
    (by decide) (by decide)

/-- C32: `onDataReceived` returns on every inbound byte sequence (every
exception of the `try` block is caught), hands nothing to the transport, and
leaves the state as it was unless the input decodes, with index 0 and after the
CRC check, to a frame whose payload is an Acknowledgment message of at least
three bytes; then the state is that of `handleAcknowledgment` on its third
byte, so at most that command number leaves the pending map. -/
theorem onDataReceived_contract (p : AVCProtocol) (data : List Nat) :
    ((p.onDataReceived data).1 = p ∨
      ∃ decoded packet,
        SCALPEL.COBS.decode data 0 = .ok decoded ∧
        SCALPEL.Packet.disassemble decoded.dropLast = .ok packet ∧
        packet.payload.getD 1 0 = PayloadDescriptor.ACKNOWLEDGMENT ∧
        3 ≤ packet.payload.length ∧
        p.onDataReceived data
          = (p.handleAcknowledgment (packet.payload.getD 2 0),
             .acknowledgment (packet.payload.getD 2 0))) ∧
    (p.onDataReceived data).1.sendQueue = p.sendQueue ∧
    ((p.onDataReceived data).1.pendingCommands = p.pendingCommands ∨
      ∃ n, (p.onDataReceived data).2 = .acknowledgment n ∧
        (p.onDataReceived data).1.pendingCommands = UMap.erase p.pendingCommands n) := by
  have main : (p.onDataReceived data).1 = p ∨
      ∃ decoded packet,
        SCALPEL.COBS.decode data 0 = .ok decoded ∧
        SCALPEL.Packet.disassemble decoded.dropLast = .ok packet ∧
        packet.payload.getD 1 0 = PayloadDescriptor.ACKNOWLEDGMENT ∧
        3 ≤ packet.payload.length ∧
        p.onDataReceived data
          = (p.handleAcknowledgment (packet.payload.getD 2 0),
             .acknowledgment (packet.payload.getD 2 0)) := by
    unfold AVCProtocol.onDataReceived AVCProtocol.onDataReceivedTry
    cases hdec : SCALPEL.COBS.decode data 0 with
    | error e => exact Or.inl rfl
    | ok decoded =>
      simp only
      by_cases h1 : decoded.length < 1
      · rw [if_pos h1]
        exact Or.inl rfl
      · rw [if_neg h1]
        by_cases h2 : SCALPEL.Checksum.calculateCRC8 decoded.dropLast ≠ decoded.getLastD 0
        · rw [if_pos h2]
          exact Or.inl rfl
        · rw [if_neg h2]
          cases hdis : SCALPEL.Packet.disassemble decoded.dropLast with
          | error e => exact Or.inl rfl
          | ok packet =>
            simp only [SCALPEL.Packet.getPayload]
            rcases AVCProtocol.handleIncomingPacket_state p packet.payload with h | h
            · exact Or.inl h
            · exact Or.inr ⟨decoded, packet, rfl, hdis, h.1, h.2.1, h.2.2⟩
  refine ⟨main, ?_, ?_⟩
  · rcases main with h | ⟨_, packet, _, _, _, _, h⟩
    · rw [h]
    · rw [h]
      exact (AVCProtocol.handleAcknowledgment_pendingCommands p _).2
  · rcases main with h | ⟨_, packet, _, _, _, _, h⟩
    · rw [h]
      exact Or.inl rfl
    · rw [h]
      exact Or.inr ⟨_, rfl, (AVCProtocol.handleAcknowledgment_pendingCommands p _).1⟩

/-- C38: for every valid command `c` with a payload of at most 24 bytes, the
byte sequence that `sendCommand(c)` hands to the transport is rejected by
`COBS::decode` with index 0 (the frame begins with a start byte, so the true
index is at least 1), and `onDataReceived` on it, in any state, ends in the
`catch` before the CRC check, `disassemble` or any descriptor handler, leaving
the state as it was. -/
theorem own_transmission_is_rejected (p : AVCProtocol) (c : Command) (now : Nat)
    (hv : c.isValid = true) (hlen : c.payload.length ≤ 24) :
    ∃ raw e, (p.sendCommand c now).1.sendQueue = p.sendQueue ++ [raw] ∧
      SCALPEL.COBS.decode raw 0 = .error e ∧
      ∀ q : AVCProtocol, q.onDataReceived raw = (q, .decodeError e) := by
  obtain ⟨frame, r, hframe, hr, hs⟩ := AVCProtocol.sendCommand_ok p c now hv hlen
  have hl : ([c.header.pack, 0x01, c.commandNumber, c.payload.length] ++ c.payload).length
      ≤ 28 := by
    simp only [List.length_append, List.length_cons, List.length_nil]
    omega
  obtain ⟨q, frame', pkt, hq, hframe', hshape, -⟩ := SCALPEL.disassemble_frameOf _ hl
  rw [hframe] at hframe'
  simp only [Except.ok.injEq] at hframe'
  rw [← hframe'] at hshape
  have hdec := SCALPEL.COBS.decode_encode hr
  have hcount : 0 ≠ (frame ++ [SCALPEL.Checksum.calculateCRC8
      ([c.header.pack, 0x01, c.commandNumber, c.payload.length] ++ c.payload)]).count
        SCALPEL.START_BYTE := by
    rw [hshape]
    simp only [List.cons_append, List.count_cons_self]
    omega
  obtain ⟨e, he⟩ := SCALPEL.COBS.decode_index_unique hdec hcount
  refine ⟨r.encodedPayload, e, ?_, he, ?_⟩
  · rw [hs]
  · intro q
    exact AVCProtocol.onDataReceived_decodeError q _ e he

theorem own_transmission_is_rejected_witness :
    ∃ raw e, (AVCProtocol.init.sendCommand (Command.new 1 2 CommandNumber.FIN_TEST [0x01])
        0).1.sendQueue = AVCProtocol.init.sendQueue ++ [raw] ∧
      SCALPEL.COBS.decode raw 0 = .error e ∧
      ∀ q : AVCProtocol, q.onDataReceived raw = (q, .decodeError e) :=
  own_transmission_is_rejected AVCProtocol.init (Command.new 1 2 CommandNumber.FIN_TEST [0x01]) 0
    (by decide) (by decide)

end AVC
end RocketLink
